import Mathlib

/-!
Wait-for graph deadlock detection and resource arbitration

A shallow embedding of `System_Fundamentals/Code9_DeadLockHandling/main.cpp`:
the `DeadlockDetector` (wait-for graph, depth-first cycle search, victim
recovery), the counting `Semaphore` and the `Resource` guarded by it.

Modelling conventions.

* `std::unordered_map<std::string, std::vector<std::string>>` is an association
  list whose list order is the container's enumeration order.  Keys of the
  graphs handled here are distinct, but no definition depends on it.
* What the enumeration looks like after the insertion of a key is not fixed by
  the container: the new entry can stand anywhere, and when the insertion makes
  the table rehash every entry can move.  It is chosen by a `Placement`
  argument, and the general theorems hold for every placement.  An insertion
  never drops or alters an entry.
* The range-for of `detectedDeadlock` walks the live map: after each `dfs` it
  goes on from the entry it stands on, in the enumeration `dfs` left behind.
* `std::unordered_set<std::string>` is a list used as a set (`insert`/`erase`).
* The C++ recursion of `dfs` and the loop of `detectedDeadlock` are bounded by
  fuel arguments; `detectedDeadlock` supplies one more than the number of nodes
  for each and is shown never to run out.
* The `int` counter of `Semaphore` is an integer that `++count` reduces into the
  32-bit range, as the built code does.
* A call that suspends in `Semaphore::wait` is split at the suspension point:
  `Resource.acquire` runs up to it, `Resource.acquireResume` runs from it.
* The threads of the simulation are interleaved at the granularity of calls:
  an atomic step of a `Process` is one call of `acquire` (up to its return or
  its suspension), the completion of a suspended `acquire`, or one call of
  `release`.  Sleeps are not modelled.
* Console output is not modelled.
-/

namespace Deadlock

/-- The wait-for graph: `waitForGraph` of `DeadlockDetector`, in enumeration order. -/
abbrev Graph := List (String × List String)

/-- The enumeration the container shows once a missing key has been inserted with
an empty list: where the new entry stands and, when the insertion makes the
table rehash, the new order of the entries that were there before. -/
abbrev Placement := String → Graph → Graph

/-- The keys of the map, in enumeration order. -/
def keys (g : Graph) : List String := g.map Prod.fst

/-- The test `waitForGraph.count(k)` as a boolean. -/
def hasKey (g : Graph) (k : String) : Bool := (g.lookup k).isSome

/-- The adjacency list stored under `k`, empty when `k` is not a key. -/
def adj (g : Graph) (k : String) : List String := (g.lookup k).getD []

/-- Whether `cand` enumerates exactly the entries of `g`, every key of `g` finding
the list it finds in `g`. -/
def rearranges (cand g : Graph) : Bool :=
  decide (cand.Perm g) && (keys g).all (fun n => decide (adj cand n = adj g n))

/-- The access `waitForGraph[k]` used for its side effect: a missing key is created with an
empty adjacency list, and the map is then enumerated as the placement says (new
key first and nothing moved, should the placement not give an enumeration of
these entries). -/
def touch (pl : Placement) (g : Graph) (k : String) : Graph :=
  if hasKey g k then g
  else if rearranges (pl k g) ((k, []) :: g) then pl k g else (k, []) :: g

/-- The placement that puts every new key first and moves no other entry. -/
def newestFirst : Placement := fun k g => (k, []) :: g

/-- The entries of `g` in the order of the key list `order`. -/
def arrange (order : List String) (g : Graph) : Graph :=
  order.filterMap (fun k => (g.lookup k).map (fun l => (k, l)))

/-- The order in which the hash table of the GNU C++ library enumerates the keys
`Process_1` to `Process_14` once the fourteenth has been inserted and the table has
grown from 13 to 29 buckets. -/
def grownOrder : List String :=
  ["Process_14", "Process_3", "Process_7", "Process_2", "Process_4", "Process_9",
    "Process_5", "Process_12", "Process_8", "Process_6", "Process_10", "Process_1",
    "Process_11", "Process_13"]

/-- A placement that follows the hash table of the GNU C++ library where a table
of 13 keys receives one more key: the table rehashes and its entries are
enumerated in `grownOrder` from then on.  At any other size it puts the new
key first and moves nothing. -/
def rehashAt13 : Placement := fun k g =>
  if g.length = 13 then arrange grownOrder ((k, []) :: g) else (k, []) :: g

/-- A wait-for graph with the keys `Process_1` to `Process_13`, enumerated as that
hash table enumerates them after their insertion in this order: `Process_1` and
`Process_2` wait for each other, and `Process_13` waits for `Process_14`, which
is no key. -/
def waitGraph13 : Graph :=
  [("Process_13", ["Process_14"]), ("Process_11", []), ("Process_10", []),
    ("Process_8", []), ("Process_12", []), ("Process_5", []), ("Process_9", []),
    ("Process_6", []), ("Process_4", []), ("Process_2", ["Process_1"]),
    ("Process_7", []), ("Process_3", ["Process_1"]), ("Process_1", ["Process_2"])]

/-- The map `waitGraph13` with the key `Process_14` inserted, as that hash table
enumerates it after the rehash. -/
def waitGraph14 : Graph := arrange grownOrder (("Process_14", []) :: waitGraph13)

/-- Replace the adjacency list of every entry stored under `k` by `f` of it. -/
def modifyAt (g : Graph) (k : String) (f : List String → List String) : Graph :=
  g.map (fun e => if e.1 = k then (e.1, f e.2) else e)

/-- Method `DeadlockDetector::addEdge`: `waitForGraph[from].push_back(to)`. -/
def addEdge (pl : Placement) (g : Graph) (src dst : String) : Graph :=
  modifyAt (touch pl g src) src (fun l => l ++ [dst])

/-- A sequence of `addEdge(from, to)` calls, in list order. -/
def addEdges (pl : Placement) (g : Graph) (es : List (String × String)) : Graph :=
  es.foldl (fun acc e => addEdge pl acc e.1 e.2) g

/-- Method `DeadlockDetector::removeEdge`: when `from` is a key, erase every occurrence
of `to` from its adjacency list (`erase(remove(...), end)`). -/
def removeEdge (g : Graph) (src dst : String) : Graph :=
  if hasKey g src then modifyAt g src (fun l => l.filter (fun x => x ≠ dst)) else g

/-- Method `DeadlockDetector::clearGraph`. -/
def clearGraph (_g : Graph) : Graph := []

/-- The mutable state of one `detectedDeadlock` run: the two string sets and
the graph (which `waitForGraph[node]` may extend). -/
structure DfsState where
  visited : List String
  recStack : List String
  graph : Graph
deriving DecidableEq, Repr

/-- The `for` loop of `dfs` over the neighbours of the current node; `call` is
the recursive `dfs`.  `none` means the fuel ran out. -/
def dfsLoop (call : String → DfsState → Option (Bool × DfsState)) :
    List String → DfsState → Option (Bool × DfsState)
  | [], s => some (false, s)
  | nb :: rest, s =>
    if nb ∈ s.recStack then some (true, s)
    else if nb ∉ s.visited then
      match call nb s with
      | none => none
      | some (true, s1) => some (true, s1)
      | some (false, s1) => dfsLoop call rest s1
    else dfsLoop call rest s

/-- Method `DeadlockDetector::dfs`, with the recursion depth bounded by the first argument. -/
def dfs (pl : Placement) : Nat → String → DfsState → Option (Bool × DfsState)
  | 0, _, _ => none
  | fuel + 1, node, s =>
    let s0 : DfsState :=
      { visited := s.visited.insert node
        recStack := s.recStack.insert node
        graph := touch pl s.graph node }
    match dfsLoop (dfs pl fuel) (adj s0.graph node) s0 with
    | none => none
    | some (true, s1) => some (true, s1)
    | some (false, s1) => some (false, { s1 with recStack := s1.recStack.erase node })

/-- The keys that follow the first entry of `k` in the enumeration `ks`: what the
iterator of a range-for that stands on `k` still has ahead of it. -/
def afterKey (k : String) : List String → List String
  | [] => []
  | x :: xs => if x = k then xs else afterKey k xs

/-- The `for` loop of `detectedDeadlock`, a range-for over the live map; `ks` are
the keys the iterator still has ahead of it.  A key found visited is passed
over.  Otherwise `dfs` runs on it, and since `dfs` may have inserted keys into
the map, the loop goes on (`again`) with the keys that follow `k` in the
enumeration `dfs` left behind; after a rehash these need not be the keys that
followed `k` before. -/
def detectLoop (pl : Placement) (fuel : Nat)
    (again : List String → DfsState → Option (Bool × DfsState)) :
    List String → DfsState → Option (Bool × DfsState)
  | [], s => some (false, s)
  | k :: rest, s =>
    if k ∉ s.visited then
      match dfs pl fuel k s with
      | none => none
      | some (true, s1) => some (true, s1)
      | some (false, s1) => again (afterKey k (keys s1.graph)) s1
    else detectLoop pl fuel again rest s

/-- The loop of `detectedDeadlock` with the number of `dfs` calls it may still make
bounded by the second number; `none` means the bound was reached. -/
def detectWalk (pl : Placement) (fuel : Nat) :
    Nat → List String → DfsState → Option (Bool × DfsState)
  | 0, _, _ => none
  | n + 1, ks, s => detectLoop pl fuel (detectWalk pl fuel n) ks s

/-- Every node of the graph: the keys and the targets of all edges. -/
def nodes (g : Graph) : List String := keys g ++ (g.map Prod.snd).flatten

/-- Method `DeadlockDetector::detectedDeadlock`: the answer and the graph left
behind.  Both bounds are one more than the number of nodes and are shown never
to be reached. -/
def detectedDeadlock (pl : Placement) (g : Graph) : Option (Bool × Graph) :=
  (detectWalk pl ((nodes g).length + 1) ((nodes g).length + 1) (keys g)
      { visited := [], recStack := [], graph := g }).map
    (fun r => (r.1, r.2.graph))

/-- Method `DeadlockDetector::recoverFromDeadlock`: the victim returned and the graph
left behind. -/
def recoverFromDeadlock (g : Graph) : String × Graph :=
  match g with
  | [] => ("", [])
  | (toTerminate, _) :: _ =>
    (toTerminate,
      (g.filter (fun e => e.1 ≠ toTerminate)).map
        (fun e => (e.1, e.2.filter (fun x => x ≠ toTerminate))))

/-! ## Cycles and the search invariant -/

/-- The edge `a → b` of the wait-for graph: `b` is in the adjacency list of `a`. -/
def Edge (g : Graph) (a b : String) : Prop := b ∈ adj g a

instance Edge.decidable (g : Graph) (a b : String) : Decidable (Edge g a b) :=
  inferInstanceAs (Decidable (b ∈ adj g a))

/-- The graph contains a directed cycle (a self-loop counts). -/
def HasCycle (g : Graph) : Prop := ∃ a, Relation.TransGen (Edge g) a a

/-- A node whose `dfs` call has returned: visited and no longer on the recursion stack. -/
def Black (s : DfsState) (b : String) : Prop := b ∈ s.visited ∧ b ∉ s.recStack

/-- Number of nodes of `u` not yet visited: the bound on the remaining recursion depth. -/
def unvisited (u visited : List String) : Nat :=
  (u.filter (fun x => x ∉ visited)).length

/-- The invariant of the search relative to the graph `g` it was started on. -/
structure Inv (g : Graph) (s : DfsState) : Prop where
  adjEq : ∀ n, adj s.graph n = adj g n
  closed : ∀ b, Black s b → ∀ c, Edge g b c → Black s c
  acyc : ∀ b, Black s b → ¬ Relation.TransGen (Edge g) b b

/-- What one call of `dfs` on `node` from state `s` delivers, relative to the
graph `g` the search was started on. -/
def CallOk (g : Graph) (node : String) (s : DfsState) (r : Option (Bool × DfsState)) : Prop :=
  ∃ b s1, r = some (b, s1) ∧ (b = true → HasCycle g) ∧
    (b = false → s1.recStack = s.recStack ∧ s.visited ⊆ s1.visited ∧ node ∈ s1.visited ∧
      Inv g s1)

/-- The contract of a recursive call that may still descend `f` levels. -/
def CallSpec (g : Graph) (f : Nat) (call : String → DfsState → Option (Bool × DfsState)) :
    Prop :=
  ∀ node s, Inv g s → node ∉ s.visited → node ∉ s.recStack → node ∈ nodes g →
    (∀ r ∈ s.recStack, Relation.ReflTransGen (Edge g) r node) →
    unvisited (nodes g) s.visited ≤ f → CallOk g node s (call node s)

/-! ## Semaphore and Resource -/

/-- The value an `int` holds after an arithmetic result `x`: `x` reduced into the
32-bit two's-complement range, which is what the built code leaves in `count`
when `++count` passes `INT_MAX`. -/
def wrapInt (x : Int) : Int := (x + 2147483648) % 4294967296 - 2147483648

/-- Class `Semaphore`: its counter, an `int`.  The mutex and the condition variable
only make each operation atomic and are not modelled. -/
structure Semaphore where
  count : Int
deriving DecidableEq, Repr

/-- Method `Semaphore::tryWait`: the flag returned and the semaphore afterwards. -/
def Semaphore.tryWait (s : Semaphore) : Bool × Semaphore :=
  if s.count > 0 then (true, { count := s.count - 1 }) else (false, s)

/-- Method `Semaphore::signal`: `++count` on an `int`. -/
def Semaphore.signal (s : Semaphore) : Semaphore := { count := wrapInt (s.count + 1) }

/-- Method `Semaphore::wait`: `none` while the caller stays suspended (`count > 0` is false). -/
def Semaphore.wait (s : Semaphore) : Option Semaphore :=
  if s.count > 0 then some { count := s.count - 1 } else none

/-- Class `Resource`; `detector` records whether the detector pointer is non-null,
the graph of the detector it points to is passed alongside. -/
structure Resource where
  name : String
  owner : String
  sem : Semaphore
  detector : Bool
deriving DecidableEq, Repr

/-- The constructor `Resource(name, detector)`. -/
def Resource.new (name : String) (detector : Bool) : Resource :=
  { name := name, owner := "", sem := { count := 1 }, detector := detector }

/-- How a call of `Resource::acquire` leaves its caller. -/
inductive AcquireResult where
  /-- Returned at the end of the function: the semaphore was taken. -/
  | acquired (r : Resource) (g : Graph)
  /-- Returned early: the caller was the victim of the recovery. -/
  | evicted (r : Resource) (g : Graph)
  /-- Suspended in `sem.wait()`. -/
  | waiting (r : Resource) (g : Graph)
deriving DecidableEq, Repr

/-- The tail of `Resource::acquire`, after the semaphore was taken:
`owner = threadName; if(detector) detector->removeEdge(threadName, owner);`. -/
def Resource.finishAcquire (r : Resource) (g : Graph) (threadName : String) :
    Resource × Graph :=
  let r1 : Resource := { r with owner := threadName }
  (r1, if r1.detector then removeEdge g threadName r1.owner else g)

/-- Method `Resource::acquire`, run until it returns or suspends in `sem.wait()`.
`none` only if the cycle search ran out of fuel. -/
def Resource.acquire (pl : Placement) (r : Resource) (g : Graph) (threadName : String) :
    Option AcquireResult :=
  match r.sem.tryWait with
  | (true, sem1) =>
    let res := Resource.finishAcquire { r with sem := sem1 } g threadName
    some (AcquireResult.acquired res.1 res.2)
  | (false, _) =>
    if r.detector ∧ r.owner ≠ "" then
      let g1 := addEdge pl g threadName r.owner
      match detectedDeadlock pl g1 with
      | none => none
      | some (true, g2) =>
        let rec2 := recoverFromDeadlock g2
        if rec2.1 = threadName then
          some (AcquireResult.evicted r (removeEdge rec2.2 threadName r.owner))
        else some (AcquireResult.waiting r rec2.2)
      | some (false, g2) => some (AcquireResult.waiting r g2)
    else some (AcquireResult.waiting r g)

/-- Method `Resource::acquire` from the point where `sem.wait()` returns; `none` while
the semaphore is not available. -/
def Resource.acquireResume (r : Resource) (g : Graph) (threadName : String) :
    Option (Resource × Graph) :=
  match r.sem.wait with
  | none => none
  | some sem1 => some (Resource.finishAcquire { r with sem := sem1 } g threadName)

/-- Method `Resource::release`. -/
def Resource.release (r : Resource) (_threadName : String) : Resource :=
  { r with owner := "", sem := r.sem.signal }

/-- The calls made on one resource, as seen at operation boundaries. -/
inductive ResourceOp where
  /-- A call of `acquire`, up to its return or its suspension. -/
  | acquire (id : String)
  /-- A suspended call of `acquire` wakes up and runs to its return. -/
  | resume (id : String)
  /-- A call of `release`. -/
  | release (id : String)
deriving DecidableEq, Repr

/-- The identity passed to the call. -/
def ResourceOp.id : ResourceOp → String
  | ResourceOp.acquire i => i
  | ResourceOp.resume i => i
  | ResourceOp.release i => i

/-- The resource and graph left by an `acquire` call, whichever way it ended. -/
def AcquireResult.state : AcquireResult → Resource × Graph
  | AcquireResult.acquired r g => (r, g)
  | AcquireResult.evicted r g => (r, g)
  | AcquireResult.waiting r g => (r, g)

/-- One operation on a resource and the detector graph; `none` when the
operation cannot complete in this state (a resume with the semaphore taken). -/
def stepOp (pl : Placement) (st : Resource × Graph) : ResourceOp → Option (Resource × Graph)
  | ResourceOp.acquire i => (st.1.acquire pl st.2 i).map AcquireResult.state
  | ResourceOp.resume i => st.1.acquireResume st.2 i
  | ResourceOp.release i => some (st.1.release i, st.2)

/-- States reachable from a freshly constructed resource by calls with
non-empty identities, none of them a `release` at count `INT_MAX` (where `++count`
overflows); the graph of the shared detector may change in between, through calls
on other resources. -/
inductive Reachable (pl : Placement) (name : String) (detector : Bool) :
    Resource × Graph → Prop where
  | init (g : Graph) : Reachable pl name detector (Resource.new name detector, g)
  | shared (st : Resource × Graph) (g : Graph) :
      Reachable pl name detector st → Reachable pl name detector (st.1, g)
  | step (st st1 : Resource × Graph) (op : ResourceOp) :
      Reachable pl name detector st → op.id ≠ "" →
      (∀ i, op = ResourceOp.release i → st.1.sem.count < 2147483647) →
      stepOp pl st op = some st1 → Reachable pl name detector st1

/-- The constructor `Semaphore(int value)`. -/
def Semaphore.new (value : Int) : Semaphore := { count := value }

/-- The three operations of a `Semaphore`. -/
inductive SemOp where
  /-- A call of `wait()` that completes. -/
  | wait
  /-- A call of `signal()`. -/
  | signal
  /-- A call of `tryWait()`. -/
  | tryWait
deriving DecidableEq, Repr

/-- One completed operation on a semaphore; `none` for a `wait()` that cannot
complete in this state. -/
def Semaphore.applyOp (s : Semaphore) : SemOp → Option Semaphore
  | SemOp.wait => s.wait
  | SemOp.signal => some s.signal
  | SemOp.tryWait => some s.tryWait.2

/-- A sequence of completed operations on a semaphore. -/
def Semaphore.runOps (s : Semaphore) : List SemOp → Option Semaphore
  | [] => some s
  | op :: ops =>
    match s.applyOp op with
    | none => none
    | some s1 => s1.runOps ops

/-! ## Process and the coordinator -/

/-- A call that `Process::run` makes on the resource with the given index. -/
inductive Call where
  /-- The call `res->acquire(threadName)`. -/
  | acquire (ri : Nat)
  /-- The call `res->release(threadName)`. -/
  | release (ri : Nat)
deriving DecidableEq, Repr

/-- Class `Process`: `pid`, `neededResources` (as indices into the resources of
the coordinator) and the point its `run` has reached: `pc` calls of `run` have
returned, and `suspended` tells whether call number `pc` is inside `sem.wait()`.
The sleeps of `run` are not modelled. -/
structure Process where
  pid : Nat
  neededResources : List Nat
  pc : Nat
  suspended : Bool
deriving DecidableEq, Repr

/-- The constructor `Process(id, resources)`: the thread starts at the top of `run`. -/
def Process.new (id : Nat) (resources : List Nat) : Process :=
  { pid := id, neededResources := resources, pc := 0, suspended := false }

/-- The local `threadName` of `run`: `"Process_" + std::to_string(pid)`. -/
def Process.threadName (p : Process) : String := "Process_" ++ toString p.pid

/-- The calls `Process::run` makes, in order: the first `for` loop acquires
every needed resource, the second releases every needed resource.  Neither
loop looks at how a call ended (`acquire` returns `void`). -/
def Process.script (p : Process) : List Call :=
  p.neededResources.map Call.acquire ++ p.neededResources.map Call.release

/-- The call `run` makes next (or is suspended in); `none` once `run` is over. -/
def Process.nextCall (p : Process) : Option Call := p.script.get? p.pc

/-- The thread has left `run`. -/
def Process.finished (p : Process) : Bool := p.nextCall.isNone

/-- The state of the simulation: the resources, the graph of the one detector
they share, and the processes. -/
structure System where
  resources : List Resource
  detector : Graph
  processes : List Process
deriving DecidableEq, Repr

/-- One atomic step of process number `k`: its next call of `acquire` up to the
return or the suspension, the completion of its suspended `acquire`, or its
next call of `release`.  `none` when the process cannot move: it is finished,
or suspended on a semaphore that is not available. -/
def System.step (pl : Placement) (sys : System) (k : Nat) : Option System :=
  match sys.processes.get? k with
  | none => none
  | some p =>
    match p.nextCall with
    | none => none
    | some (Call.acquire ri) =>
      match sys.resources.get? ri with
      | none => none
      | some r =>
        if p.suspended then
          match r.acquireResume sys.detector p.threadName with
          | none => none
          | some (r1, g1) =>
            some { resources := sys.resources.set ri r1, detector := g1,
                   processes := sys.processes.set k
                     { p with pc := p.pc + 1, suspended := false } }
        else
          match r.acquire pl sys.detector p.threadName with
          | none => none
          | some (AcquireResult.acquired r1 g1) =>
            some { resources := sys.resources.set ri r1, detector := g1,
                   processes := sys.processes.set k { p with pc := p.pc + 1 } }
          | some (AcquireResult.evicted r1 g1) =>
            some { resources := sys.resources.set ri r1, detector := g1,
                   processes := sys.processes.set k { p with pc := p.pc + 1 } }
          | some (AcquireResult.waiting r1 g1) =>
            some { resources := sys.resources.set ri r1, detector := g1,
                   processes := sys.processes.set k { p with suspended := true } }
    | some (Call.release ri) =>
      match sys.resources.get? ri with
      | none => none
      | some r =>
        some { resources := sys.resources.set ri (r.release p.threadName),
               detector := sys.detector,
               processes := sys.processes.set k { p with pc := p.pc + 1 } }

/-- A schedule: the processes that take the successive atomic steps. -/
def System.run (pl : Placement) (sys : System) : List Nat → Option System
  | [] => some sys
  | k :: ks =>
    match sys.step pl k with
    | none => none
    | some sys1 => sys1.run pl ks

/-- The simulation set up by `main`: printer, disk and network bound to one
detector, and the plans `{printer, disk}`, `{disk, network}`, `{network, printer}`. -/
def mainSystem : System :=
  { resources :=
      [Resource.new "Printer" true, Resource.new "disk" true, Resource.new "Network" true]
    detector := []
    processes := [Process.new 1 [0, 1], Process.new 2 [1, 2], Process.new 3 [2, 0]] }

/-- The process is suspended in `wait()` on a semaphore that is not available,
for a resource whose recorded owner is another suspended process. -/
def System.blocked (sys : System) (p : Process) : Bool :=
  p.suspended &&
    match p.nextCall with
    | some (Call.acquire ri) =>
      match sys.resources.get? ri with
      | some r =>
        decide (r.sem.count ≤ 0) &&
          sys.processes.any (fun q =>
            decide (q.threadName = r.owner) && q.suspended && decide (q.pid ≠ p.pid))
      | none => false
    | _ => false

/-- Some process is unfinished, and every unfinished process is blocked on a
resource held by another blocked process. -/
def System.deadlocked (sys : System) : Bool :=
  sys.processes.any (fun p => !p.finished) &&
    sys.processes.all (fun p => p.finished || sys.blocked p)

/-- States reachable from a freshly constructed resource by calls with
non-empty identities in which `release(h)` is only called while `h` is the
recorded owner. -/
inductive Disciplined (pl : Placement) (name : String) (detector : Bool) :
    Resource × Graph → Prop where
  | init (g : Graph) : Disciplined pl name detector (Resource.new name detector, g)
  | shared (st : Resource × Graph) (g : Graph) :
      Disciplined pl name detector st → Disciplined pl name detector (st.1, g)
  | step (st st1 : Resource × Graph) (op : ResourceOp) :
      Disciplined pl name detector st → op.id ≠ "" →
      (∀ h, op = ResourceOp.release h → st.1.owner = h) →
      stepOp pl st op = some st1 → Disciplined pl name detector st1

/-! ## Counting the calls of `dfs` -/

/-- Number of calls of `dfs` made from the `for` loop of `dfs` over the
neighbours: `count` gives the number made by one recursive call (itself
included), `call` its result. -/
def dfsLoopCalls (call : String → DfsState → Option (Bool × DfsState))
    (count : String → DfsState → Nat) : List String → DfsState → Nat
  | [], _ => 0
  | nb :: rest, s =>
    if nb ∈ s.recStack then 0
    else if nb ∉ s.visited then
      count nb s +
        (match call nb s with
         | some (false, s1) => dfsLoopCalls call count rest s1
         | _ => 0)
    else dfsLoopCalls call count rest s

/-- Number of calls of `dfs` made by one call of `dfs`, itself included. -/
def dfsCalls (pl : Placement) : Nat → String → DfsState → Nat
  | 0, _, _ => 1
  | fuel + 1, node, s =>
    1 + dfsLoopCalls (dfs pl fuel) (dfsCalls pl fuel) (adj (touch pl s.graph node) node)
      { visited := s.visited.insert node
        recStack := s.recStack.insert node
        graph := touch pl s.graph node }

/-- Number of calls of `dfs` made from the `for` loop of `detectedDeadlock`;
`again` counts those of the loop's continuation. -/
def detectLoopCalls (pl : Placement) (fuel : Nat) (again : List String → DfsState → Nat) :
    List String → DfsState → Nat
  | [], _ => 0
  | k :: rest, s =>
    if k ∉ s.visited then
      dfsCalls pl fuel k s +
        (match dfs pl fuel k s with
         | some (false, s1) => again (afterKey k (keys s1.graph)) s1
         | _ => 0)
    else detectLoopCalls pl fuel again rest s

/-- Number of calls of `dfs` made by the bounded loop `detectWalk`. -/
def detectWalkCalls (pl : Placement) (fuel : Nat) : Nat → List String → DfsState → Nat
  | 0, _, _ => 0
  | n + 1, ks, s => detectLoopCalls pl fuel (detectWalkCalls pl fuel n) ks s

/-- Number of calls of `dfs` made by one call of `detectedDeadlock`. -/
def detectedDeadlockCalls (pl : Placement) (g : Graph) : Nat :=
  detectWalkCalls pl ((nodes g).length + 1) ((nodes g).length + 1) (keys g)
    { visited := [], recStack := [], graph := g }

/-! ## Running without contention -/

/-- The invariant of a simulation without contention, relative to the graph
`g0` it started with: the graph is untouched, no process is suspended, no
resource occurs twice in the plans, and resource number `i` of a plan is held
by its process from the return of acquire call `i` to release call `i`, and
free otherwise. -/
structure Calm (g0 : Graph) (st : System) : Prop where
  det : st.detector = g0
  awake : ∀ p ∈ st.processes, p.suspended = false
  noself : ∀ p ∈ st.processes, ∀ e ∈ g0, e.1 = p.threadName → p.threadName ∉ e.2
  disj : ∀ (k k1 : Nat) (p p1 : Process) (i i1 ri : Nat),
    st.processes[k]? = some p → st.processes[k1]? = some p1 →
    p.neededResources[i]? = some ri → p1.neededResources[i1]? = some ri → k = k1 ∧ i = i1
  held : ∀ (k : Nat) (p : Process) (i ri : Nat),
    st.processes[k]? = some p → p.neededResources[i]? = some ri →
    ∃ r : Resource, st.resources[ri]? = some r ∧
      ((i < p.pc ∧ p.pc ≤ p.neededResources.length + i) →
        r.sem.count = 0 ∧ r.owner = p.threadName) ∧
      (¬ (i < p.pc ∧ p.pc ≤ p.neededResources.length + i) →
        r.sem.count = 1 ∧ r.owner = "")

/-- The calls that all processes together still have to make. -/
def System.remaining (st : System) : Nat :=
  (st.processes.map (fun p => 2 * p.neededResources.length - p.pc)).sum

end Deadlock

namespace Deadlock



/-! ## Reading the association list -/

theorem adj_nil (k : String) : adj [] k = [] := rfl

theorem adj_cons (a : String) (l : List String) (g : Graph) (k : String) :
    adj ((a, l) :: g) k = if k = a then l else adj g k := by
  unfold adj
  rw [List.lookup_cons]
  by_cases h : k = a
  · subst h; simp
  · have hb : (k == a) = false := by simpa using h
    simp [hb, h]

theorem hasKey_nil (k : String) : hasKey [] k = false := rfl

theorem hasKey_cons (a : String) (l : List String) (g : Graph) (k : String) :
    hasKey ((a, l) :: g) k = if k = a then true else hasKey g k := by
  unfold hasKey
  rw [List.lookup_cons]
  by_cases h : k = a
  · subst h; simp
  · have hb : (k == a) = false := by simpa using h
    simp [hb, h]

theorem hasKey_iff_mem_keys (g : Graph) (k : String) : hasKey g k = true ↔ k ∈ keys g := by
  induction g with
  | nil => simp [hasKey_nil, keys]
  | cons e g ih =>
    obtain ⟨a, l⟩ := e
    rw [hasKey_cons]
    by_cases h : k = a
    · simp [h, keys]
    · simp only [h, if_false, ih]
      simp [keys, h]

theorem adj_of_not_hasKey (g : Graph) (k : String) (h : hasKey g k = false) : adj g k = [] := by
  induction g with
  | nil => rfl
  | cons e g ih =>
    obtain ⟨a, l⟩ := e
    rw [hasKey_cons] at h
    rw [adj_cons]
    by_cases hk : k = a
    · simp [hk] at h
    · simp only [hk, if_false] at h ⊢
      exact ih h

theorem adj_append (g1 g2 : Graph) (k : String) :
    adj (g1 ++ g2) k = if hasKey g1 k then adj g1 k else adj g2 k := by
  induction g1 with
  | nil => simp [hasKey_nil]
  | cons e g ih =>
    obtain ⟨a, l⟩ := e
    rw [List.cons_append, adj_cons, hasKey_cons, adj_cons]
    by_cases hk : k = a
    · simp [hk]
    · simp only [hk, if_false]
      exact ih

theorem hasKey_append (g1 g2 : Graph) (k : String) :
    hasKey (g1 ++ g2) k = (hasKey g1 k || hasKey g2 k) := by
  induction g1 with
  | nil => simp [hasKey_nil]
  | cons e g ih =>
    obtain ⟨a, l⟩ := e
    rw [List.cons_append, hasKey_cons, hasKey_cons]
    by_cases hk : k = a
    · simp [hk]
    · simp only [hk, if_false]
      exact ih

theorem rearranges_perm (cand g : Graph) (h : rearranges cand g = true) : cand.Perm g := by
  simp only [rearranges, Bool.and_eq_true, decide_eq_true_eq] at h
  exact h.1

theorem rearranges_hasKey (cand g : Graph) (h : rearranges cand g = true) (n : String) :
    hasKey cand n = hasKey g n := by
  have hp : (keys cand).Perm (keys g) := (rearranges_perm cand g h).map Prod.fst
  have h1 := hasKey_iff_mem_keys cand n
  have h2 := hasKey_iff_mem_keys g n
  have h3 : n ∈ keys cand ↔ n ∈ keys g := hp.mem_iff
  cases hc : hasKey cand n <;> cases hg : hasKey g n <;> simp_all

theorem rearranges_adj (cand g : Graph) (h : rearranges cand g = true) (n : String) :
    adj cand n = adj g n := by
  by_cases hk : hasKey g n = true
  · simp only [rearranges, Bool.and_eq_true, decide_eq_true_eq, List.all_eq_true] at h
    exact h.2 n ((hasKey_iff_mem_keys g n).mp hk)
  · have hg : hasKey g n = false := by simpa using hk
    have hc : hasKey cand n = false := by rw [rearranges_hasKey cand g h]; exact hg
    rw [adj_of_not_hasKey _ _ hg, adj_of_not_hasKey _ _ hc]

/-- Creating a missing key with an empty list changes no adjacency list. -/
theorem adj_touch (pl : Placement) (g : Graph) (k n : String) :
    adj (touch pl g k) n = adj g n := by
  unfold touch
  by_cases h : hasKey g k = true
  · simp [h]
  · have h1 : hasKey g k = false := by simpa using h
    have hfresh : adj ((k, []) :: g) n = adj g n := by
      rw [adj_cons]
      by_cases hn : n = k
      · subst hn
        simp [adj_of_not_hasKey _ _ h1]
      · simp [hn]
    simp only [h1, Bool.false_eq_true, if_false]
    by_cases hr : rearranges (pl k g) ((k, []) :: g) = true
    · simp only [hr, if_true]
      rw [rearranges_adj _ _ hr, hfresh]
    · simp only [hr, if_false]
      exact hfresh

theorem mem_nodes_of_mem_adj (g : Graph) (a c : String) (h : c ∈ adj g a) : c ∈ nodes g := by
  induction g with
  | nil => simp [adj_nil] at h
  | cons e g ih =>
    obtain ⟨b, l⟩ := e
    rw [adj_cons] at h
    by_cases hk : a = b
    · simp only [hk, if_true] at h
      simp [nodes, keys, h]
    · simp only [hk, if_false] at h
      have := ih h
      simp only [nodes, keys, List.mem_append, List.map_cons, List.flatten_cons,
        List.mem_cons] at this ⊢
      tauto

theorem mem_keys_of_mem_adj (g : Graph) (a c : String) (h : c ∈ adj g a) : a ∈ keys g := by
  rw [← hasKey_iff_mem_keys]
  by_contra hk
  have : adj g a = [] := adj_of_not_hasKey g a (by simpa using hk)
  rw [this] at h
  simp at h

theorem mem_nodes_of_mem_keys (g : Graph) (a : String) (h : a ∈ keys g) : a ∈ nodes g := by
  simp [nodes, h]

theorem black_of_reach {g : Graph} {s : DfsState}
    (hc : ∀ b, Black s b → ∀ c, Edge g b c → Black s c) {b c : String}
    (hb : Black s b) (h : Relation.ReflTransGen (Edge g) b c) : Black s c := by
  induction h with
  | refl => exact hb
  | tail _ hstep ih => exact hc _ ih _ hstep

theorem filter_length_le (p q : String → Bool) (u : List String)
    (h : ∀ x, q x = true → p x = true) : (u.filter q).length ≤ (u.filter p).length := by
  induction u with
  | nil => simp
  | cons x u ih =>
    rw [List.filter_cons, List.filter_cons]
    cases hq : q x
    · cases hp : p x
      · simpa using ih
      · simp only [if_true, Bool.false_eq_true, if_false, List.length_cons]
        omega
    · rw [h x hq]
      simpa using ih

theorem filter_length_lt (p q : String → Bool) (u : List String)
    (h : ∀ x, q x = true → p x = true) (x : String) (hx : x ∈ u) (hp : p x = true)
    (hq : q x = false) : (u.filter q).length < (u.filter p).length := by
  induction u with
  | nil => simp at hx
  | cons y u ih =>
    have hle := filter_length_le p q u h
    rw [List.filter_cons, List.filter_cons]
    rcases List.mem_cons.mp hx with hxy | hxu
    · subst hxy
      rw [hp, hq]
      simp only [if_true, Bool.false_eq_true, if_false, List.length_cons]
      omega
    · have ih1 := ih hxu
      cases hqy : q y
      · cases hpy : p y
        · simpa using ih1
        · simp only [if_true, Bool.false_eq_true, if_false, List.length_cons]
          omega
      · rw [h y hqy]
        simpa using ih1

theorem unvisited_mono (u v w : List String) (h : v ⊆ w) : unvisited u w ≤ unvisited u v := by
  unfold unvisited
  apply filter_length_le
  intro x hx
  have hxw : x ∉ w := by simpa using hx
  have : x ∉ v := fun hv => hxw (h hv)
  simpa using this

theorem unvisited_insert_lt (u v : List String) (x : String) (hx : x ∈ u) (hv : x ∉ v) :
    unvisited u (v.insert x) < unvisited u v := by
  unfold unvisited
  apply filter_length_lt _ _ u _ x hx
  · simpa using hv
  · simp
  · intro y hy
    have hyw : y ∉ v.insert x := by simpa using hy
    have : y ∉ v := fun h => hyw (List.mem_insert_iff.mpr (Or.inr h))
    simpa using this

theorem unvisited_pos (u v : List String) (x : String) (hx : x ∈ u) (hv : x ∉ v) :
    0 < unvisited u v := by
  have := unvisited_insert_lt u v x hx hv
  omega

theorem unvisited_le_length (u v : List String) : unvisited u v ≤ u.length := by
  unfold unvisited
  exact List.length_filter_le _ _

theorem black_mono {s s1 : DfsState} (hr : s1.recStack = s.recStack)
    (hv : s.visited ⊆ s1.visited) {b : String} (hb : Black s b) : Black s1 b :=
  ⟨hv hb.1, by rw [hr]; exact hb.2⟩

theorem dfsLoop_spec (g : Graph) (f : Nat)
    (call : String → DfsState → Option (Bool × DfsState)) (hcall : CallSpec g f call)
    (node : String) :
    ∀ (nbrs : List String) (s : DfsState), Inv g s → (∀ nb ∈ nbrs, Edge g node nb) →
      (∀ r ∈ s.recStack, Relation.ReflTransGen (Edge g) r node) →
      unvisited (nodes g) s.visited ≤ f →
      ∃ b s1, dfsLoop call nbrs s = some (b, s1) ∧ (b = true → HasCycle g) ∧
        (b = false → s1.recStack = s.recStack ∧ s.visited ⊆ s1.visited ∧ Inv g s1 ∧
          ∀ nb ∈ nbrs, Black s1 nb) := by
  intro nbrs
  induction nbrs with
  | nil =>
    intro s hinv _ _ _
    exact ⟨false, s, rfl, by simp, fun _ => ⟨rfl, fun _ h => h, hinv, by simp⟩⟩
  | cons nb rest ih =>
    intro s hinv hedge hpath hfuel
    have hnb : Edge g node nb := hedge nb (List.mem_cons_self _ _)
    have hrest : ∀ x ∈ rest, Edge g node x := fun x hx => hedge x (List.mem_cons_of_mem _ hx)
    by_cases h1 : nb ∈ s.recStack
    · refine ⟨true, s, by simp [dfsLoop, h1], fun _ => ?_, by simp⟩
      exact ⟨nb, Relation.TransGen.tail' (hpath nb h1) hnb⟩
    · by_cases h2 : nb ∈ s.visited
      · obtain ⟨b, s1, hres, htrue, hfalse⟩ := ih s hinv hrest hpath hfuel
        refine ⟨b, s1, by simp [dfsLoop, h1, h2, hres], htrue, fun hb => ?_⟩
        obtain ⟨hr, hv, hi, hblack⟩ := hfalse hb
        refine ⟨hr, hv, hi, ?_⟩
        intro x hx
        rcases List.mem_cons.mp hx with hx | hx
        · subst hx
          exact black_mono hr hv ⟨h2, h1⟩
        · exact hblack x hx
      · have hpath2 : ∀ r ∈ s.recStack, Relation.ReflTransGen (Edge g) r nb :=
          fun r hr => Relation.ReflTransGen.tail (hpath r hr) hnb
        obtain ⟨b, s1, hres, htrue, hfalse⟩ :=
          hcall nb s hinv h2 h1 (mem_nodes_of_mem_adj g node nb hnb) hpath2 hfuel
        cases b with
        | true =>
          exact ⟨true, s1, by simp [dfsLoop, h1, h2, hres], fun _ => htrue rfl, by simp⟩
        | false =>
          obtain ⟨hr, hv, hmem, hi⟩ := hfalse rfl
          have hpath1 : ∀ r ∈ s1.recStack, Relation.ReflTransGen (Edge g) r node := by
            rw [hr]; exact hpath
          have hfuel1 : unvisited (nodes g) s1.visited ≤ f :=
            le_trans (unvisited_mono _ _ _ hv) hfuel
          obtain ⟨b2, s2, hres2, htrue2, hfalse2⟩ := ih s1 hi hrest hpath1 hfuel1
          refine ⟨b2, s2, by simp [dfsLoop, h1, h2, hres, hres2], htrue2, fun hb => ?_⟩
          obtain ⟨hr2, hv2, hi2, hblack2⟩ := hfalse2 hb
          refine ⟨hr2.trans hr, fun x hx => hv2 (hv hx), hi2, ?_⟩
          intro x hx
          rcases List.mem_cons.mp hx with hx | hx
          · subst hx
            exact black_mono hr2 hv2 ⟨hmem, by rw [hr]; exact h1⟩
          · exact hblack2 x hx

theorem dfs_succ (pl : Placement) (f : Nat) (node : String) (s : DfsState) :
    dfs pl (f + 1) node s =
      match dfsLoop (dfs pl f) (adj (touch pl s.graph node) node)
          { visited := s.visited.insert node
            recStack := s.recStack.insert node
            graph := touch pl s.graph node } with
      | none => none
      | some (true, s1) => some (true, s1)
      | some (false, s1) => some (false, { s1 with recStack := s1.recStack.erase node }) :=
  rfl

/-- Entering `dfs` on an unvisited node keeps the invariant: the node turns grey. -/
theorem inv_enter (pl : Placement) (g : Graph) (s : DfsState) (node : String)
    (hinv : Inv g s) (hv : node ∉ s.visited) :
    Inv g { visited := s.visited.insert node
            recStack := s.recStack.insert node
            graph := touch pl s.graph node } := by
  have hblack : ∀ b, Black { visited := s.visited.insert node
                             recStack := s.recStack.insert node
                             graph := touch pl s.graph node } b → Black s b ∧ b ≠ node := by
    intro b hb
    have h1 : b ∈ s.visited.insert node := hb.1
    have h2 : b ∉ s.recStack.insert node := hb.2
    have hne : b ≠ node := fun h => h2 (List.mem_insert_iff.mpr (Or.inl h))
    refine ⟨⟨?_, fun h => h2 (List.mem_insert_iff.mpr (Or.inr h))⟩, hne⟩
    rcases List.mem_insert_iff.mp h1 with h | h
    · exact absurd h hne
    · exact h
  refine ⟨fun n => ?_, fun b hb c hc => ?_, fun b hb => hinv.acyc b (hblack b hb).1⟩
  · show adj (touch pl s.graph node) n = adj g n
    rw [adj_touch]; exact hinv.adjEq n
  · have hcb : Black s c := hinv.closed b (hblack b hb).1 c hc
    have hcn : c ≠ node := fun h => hv (h ▸ hcb.1)
    refine ⟨List.mem_insert_iff.mpr (Or.inr hcb.1), fun h => ?_⟩
    rcases List.mem_insert_iff.mp h with h | h
    · exact hcn h
    · exact hcb.2 h

/-- Leaving `dfs` with `false` keeps the invariant: the node turns black, all
its neighbours being black already. -/
theorem inv_leave (g : Graph) (s1 : DfsState) (node : String) (rs : List String)
    (hinv : Inv g s1) (hrs : s1.recStack = rs.insert node) (hnode : node ∉ rs)
    (hmem : node ∈ s1.visited) (hnb : ∀ nb, Edge g node nb → Black s1 nb) :
    Inv g { s1 with recStack := rs } := by
  have hsplit : ∀ b, Black { s1 with recStack := rs } b → b = node ∨ Black s1 b := by
    intro b hb
    by_cases h : b = node
    · exact Or.inl h
    · refine Or.inr ⟨hb.1, fun hin => ?_⟩
      rw [hrs] at hin
      rcases List.mem_insert_iff.mp hin with h1 | h1
      · exact h h1
      · exact hb.2 h1
  have hup : ∀ b, Black s1 b → Black { s1 with recStack := rs } b := by
    intro b hb
    refine ⟨hb.1, fun hin => hb.2 ?_⟩
    rw [hrs]
    exact List.mem_insert_iff.mpr (Or.inr hin)
  have hgrey : ¬ Black s1 node := fun hb =>
    hb.2 (by rw [hrs]; exact List.mem_insert_iff.mpr (Or.inl rfl))
  refine ⟨hinv.adjEq, fun b hb c hc => ?_, fun b hb hcyc => ?_⟩
  · rcases hsplit b hb with h | h
    · subst h; exact hup c (hnb c hc)
    · exact hup c (hinv.closed b h c hc)
  · rcases hsplit b hb with h | h
    · subst h
      obtain ⟨c, hbc, hcb⟩ := Relation.TransGen.head'_iff.mp hcyc
      exact hgrey (black_of_reach hinv.closed (hnb c hbc) hcb)
    · exact hinv.acyc b h hcyc

theorem dfs_spec (pl : Placement) (g : Graph) : ∀ f, CallSpec g f (dfs pl f) := by
  intro f
  induction f with
  | zero =>
    intro node s _ hv _ hn _ hfuel
    have := unvisited_pos (nodes g) s.visited node hn hv
    omega
  | succ f ih =>
    intro node s hinv hv hr hn hpath hfuel
    have hinv0 := inv_enter pl g s node hinv hv
    have hedge : ∀ nb ∈ adj (touch pl s.graph node) node, Edge g node nb := by
      intro nb hnb
      rw [adj_touch, hinv.adjEq] at hnb
      exact hnb
    have hpath0 : ∀ r ∈ s.recStack.insert node, Relation.ReflTransGen (Edge g) r node := by
      intro r hr0
      rcases List.mem_insert_iff.mp hr0 with h | h
      · rw [h]
      · exact hpath r h
    have hfuel0 : unvisited (nodes g) (s.visited.insert node) ≤ f := by
      have := unvisited_insert_lt (nodes g) s.visited node hn hv
      omega
    obtain ⟨b, s1, hres, htrue, hfalse⟩ :=
      dfsLoop_spec g f (dfs pl f) ih node (adj (touch pl s.graph node) node)
        { visited := s.visited.insert node
          recStack := s.recStack.insert node
          graph := touch pl s.graph node } hinv0 hedge hpath0 hfuel0
    cases b with
    | true =>
      exact ⟨true, s1, by rw [dfs_succ, hres], fun _ => htrue rfl, by simp⟩
    | false =>
      obtain ⟨hrs, hvis, hi, hblack⟩ := hfalse rfl
      have hrs1 : s1.recStack = s.recStack.insert node := hrs
      have hvis1 : s.visited.insert node ⊆ s1.visited := hvis
      have herase : s1.recStack.erase node = s.recStack := by
        rw [hrs1, List.insert_of_not_mem hr, List.erase_cons_head]
      have hmem : node ∈ s1.visited := hvis1 (List.mem_insert_iff.mpr (Or.inl rfl))
      refine ⟨false, { s1 with recStack := s1.recStack.erase node }, by rw [dfs_succ, hres],
        by simp, fun _ => ⟨herase, ?_, hmem, ?_⟩⟩
      · exact fun x hx => hvis1 (List.mem_insert_iff.mpr (Or.inr hx))
      · rw [herase]
        refine inv_leave g s1 node s.recStack hi hrs1 hr hmem (fun nb hnb => ?_)
        apply hblack
        rw [adj_touch, hinv.adjEq]
        exact hnb

/-! ### The search never changes an adjacency list -/

theorem dfsLoop_adj (call : String → DfsState → Option (Bool × DfsState))
    (hcall : ∀ node s b s1, call node s = some (b, s1) → ∀ n, adj s1.graph n = adj s.graph n) :
    ∀ (nbrs : List String) (s : DfsState) (b : Bool) (s1 : DfsState),
      dfsLoop call nbrs s = some (b, s1) → ∀ n, adj s1.graph n = adj s.graph n := by
  intro nbrs
  induction nbrs with
  | nil =>
    intro s b s1 h n
    simp only [dfsLoop, Option.some.injEq, Prod.mk.injEq] at h
    rw [← h.2]
  | cons nb rest ih =>
    intro s b s1 h n
    by_cases h1 : nb ∈ s.recStack
    · simp only [dfsLoop, h1, if_true, Option.some.injEq, Prod.mk.injEq] at h
      rw [← h.2]
    · by_cases h2 : nb ∈ s.visited
      · simp only [dfsLoop, h1, h2, if_false, not_true_eq_false] at h
        exact ih s b s1 h n
      · simp only [dfsLoop, h1, h2, if_false, not_false_eq_true, if_true] at h
        cases hc : call nb s with
        | none => simp [hc] at h
        | some r =>
          obtain ⟨b0, s0⟩ := r
          cases b0 with
          | true =>
            simp only [hc, Option.some.injEq, Prod.mk.injEq] at h
            rw [← h.2]
            exact hcall nb s true s0 hc n
          | false =>
            simp only [hc] at h
            rw [ih s0 b s1 h n]
            exact hcall nb s false s0 hc n

theorem dfs_adj (pl : Placement) :
    ∀ (f : Nat) (node : String) (s : DfsState) (b : Bool) (s1 : DfsState),
      dfs pl f node s = some (b, s1) → ∀ n, adj s1.graph n = adj s.graph n := by
  intro f
  induction f with
  | zero => intro node s b s1 h; simp [dfs] at h
  | succ f ih =>
    intro node s b s1 h n
    rw [dfs_succ] at h
    cases hl : dfsLoop (dfs pl f) (adj (touch pl s.graph node) node)
        { visited := s.visited.insert node
          recStack := s.recStack.insert node
          graph := touch pl s.graph node } with
    | none => simp [hl] at h
    | some r =>
      obtain ⟨b0, s0⟩ := r
      have h0 := dfsLoop_adj (dfs pl f) ih _ _ b0 s0 hl n
      rw [adj_touch] at h0
      cases b0 with
      | true =>
        simp only [hl, Option.some.injEq, Prod.mk.injEq] at h
        rw [← h.2]; exact h0
      | false =>
        simp only [hl, Option.some.injEq, Prod.mk.injEq] at h
        rw [← h.2]; exact h0

/-! ### Which keys the search creates -/

theorem hasKey_touch (pl : Placement) (g : Graph) (k n : String) :
    hasKey (touch pl g k) n = (decide (n = k) || hasKey g n) := by
  unfold touch
  by_cases h : hasKey g k = true
  · simp only [h, if_true]
    by_cases hn : n = k
    · simp [hn, h]
    · simp [hn]
  · have h1 : hasKey g k = false := by simpa using h
    simp only [h1, Bool.false_eq_true, if_false]
    by_cases hr : rearranges (pl k g) ((k, []) :: g) = true
    · simp only [hr, if_true]
      rw [rearranges_hasKey _ _ hr, hasKey_cons]
      by_cases hn : n = k <;> simp [hn]
    · rw [if_neg hr, hasKey_cons]
      by_cases hn : n = k <;> simp [hn]

theorem dfsLoop_keys (call : String → DfsState → Option (Bool × DfsState))
    (hadj : ∀ node s b s1, call node s = some (b, s1) → ∀ n, adj s1.graph n = adj s.graph n)
    (hkeys : ∀ node s b s1, call node s = some (b, s1) →
      (∀ n, hasKey s.graph n = true → hasKey s1.graph n = true) ∧
      (∀ n, hasKey s1.graph n = true →
        hasKey s.graph n = true ∨ n = node ∨ ∃ a, n ∈ adj s.graph a)) :
    ∀ (nbrs : List String) (s : DfsState) (b : Bool) (s1 : DfsState),
      dfsLoop call nbrs s = some (b, s1) →
      (∀ n, hasKey s.graph n = true → hasKey s1.graph n = true) ∧
      (∀ n, hasKey s1.graph n = true →
        hasKey s.graph n = true ∨ n ∈ nbrs ∨ ∃ a, n ∈ adj s.graph a) := by
  intro nbrs
  induction nbrs with
  | nil =>
    intro s b s1 h
    simp only [dfsLoop, Option.some.injEq, Prod.mk.injEq] at h
    rw [← h.2]
    exact ⟨fun _ hn => hn, fun _ hn => Or.inl hn⟩
  | cons nb rest ih =>
    intro s b s1 h
    by_cases h1 : nb ∈ s.recStack
    · simp only [dfsLoop, h1, if_true, Option.some.injEq, Prod.mk.injEq] at h
      rw [← h.2]
      exact ⟨fun _ hn => hn, fun _ hn => Or.inl hn⟩
    · by_cases h2 : nb ∈ s.visited
      · simp only [dfsLoop, h1, h2, if_false, not_true_eq_false] at h
        obtain ⟨hup, hdown⟩ := ih s b s1 h
        refine ⟨hup, fun n hn => ?_⟩
        rcases hdown n hn with hk | hk | hk
        · exact Or.inl hk
        · exact Or.inr (Or.inl (List.mem_cons_of_mem _ hk))
        · exact Or.inr (Or.inr hk)
      · simp only [dfsLoop, h1, h2, if_false, not_false_eq_true, if_true] at h
        cases hc : call nb s with
        | none => simp [hc] at h
        | some r =>
          obtain ⟨b0, s0⟩ := r
          obtain ⟨hup0, hdown0⟩ := hkeys nb s b0 s0 hc
          have hstep : ∀ n, hasKey s0.graph n = true →
              hasKey s.graph n = true ∨ n ∈ nb :: rest ∨ ∃ a, n ∈ adj s.graph a := by
            intro n hn
            rcases hdown0 n hn with hk | hk | hk
            · exact Or.inl hk
            · exact Or.inr (Or.inl (hk ▸ List.mem_cons_self _ _))
            · exact Or.inr (Or.inr hk)
          cases b0 with
          | true =>
            simp only [hc, Option.some.injEq, Prod.mk.injEq] at h
            rw [← h.2]
            exact ⟨hup0, hstep⟩
          | false =>
            simp only [hc] at h
            obtain ⟨hup, hdown⟩ := ih s0 b s1 h
            refine ⟨fun n hn => hup n (hup0 n hn), fun n hn => ?_⟩
            rcases hdown n hn with hk | hk | ⟨a, hk⟩
            · exact hstep n hk
            · exact Or.inr (Or.inl (List.mem_cons_of_mem _ hk))
            · rw [hadj nb s false s0 hc a] at hk
              exact Or.inr (Or.inr ⟨a, hk⟩)

theorem dfs_keys (pl : Placement) :
    ∀ (f : Nat) (node : String) (s : DfsState) (b : Bool) (s1 : DfsState),
      dfs pl f node s = some (b, s1) →
      (∀ n, hasKey s.graph n = true → hasKey s1.graph n = true) ∧
      (∀ n, hasKey s1.graph n = true →
        hasKey s.graph n = true ∨ n = node ∨ ∃ a, n ∈ adj s.graph a) := by
  intro f
  induction f with
  | zero => intro node s b s1 h; simp [dfs] at h
  | succ f ih =>
    intro node s b s1 h
    rw [dfs_succ] at h
    cases hl : dfsLoop (dfs pl f) (adj (touch pl s.graph node) node)
        { visited := s.visited.insert node
          recStack := s.recStack.insert node
          graph := touch pl s.graph node } with
    | none => simp [hl] at h
    | some r =>
      obtain ⟨b0, s0⟩ := r
      obtain ⟨hup, hdown⟩ := dfsLoop_keys (dfs pl f) (dfs_adj pl f) ih _ _ b0 s0 hl
      have hgraph : s1.graph = s0.graph := by
        cases b0 with
        | true =>
          simp only [hl, Option.some.injEq, Prod.mk.injEq] at h
          rw [← h.2]
        | false =>
          simp only [hl, Option.some.injEq, Prod.mk.injEq] at h
          rw [← h.2]
      rw [hgraph]
      refine ⟨fun n hn => hup n ?_, fun n hn => ?_⟩
      · show hasKey (touch pl s.graph node) n = true
        rw [hasKey_touch]; simp [hn]
      · rcases hdown n hn with hk | hk | ⟨a, hk⟩
        · have hk1 : hasKey (touch pl s.graph node) n = true := hk
          rw [hasKey_touch] at hk1
          rcases Bool.or_eq_true_iff.mp hk1 with h1 | h1
          · exact Or.inr (Or.inl (by simpa using h1))
          · exact Or.inl h1
        · have hk1 : n ∈ adj (touch pl s.graph node) node := hk
          rw [adj_touch] at hk1
          exact Or.inr (Or.inr ⟨node, hk1⟩)
        · have hk1 : n ∈ adj (touch pl s.graph node) a := hk
          rw [adj_touch] at hk1
          exact Or.inr (Or.inr ⟨a, hk1⟩)

/-! ### What the search does to the map -/

theorem dfsLoop_rel (R : Graph → Graph → Prop) (hrefl : ∀ g, R g g)
    (htrans : ∀ a b c, R a b → R b c → R a c)
    (call : String → DfsState → Option (Bool × DfsState))
    (hcall : ∀ node s b s1, call node s = some (b, s1) → R s.graph s1.graph) :
    ∀ (nbrs : List String) (s : DfsState) (b : Bool) (s1 : DfsState),
      dfsLoop call nbrs s = some (b, s1) → R s.graph s1.graph := by
  intro nbrs
  induction nbrs with
  | nil =>
    intro s b s1 h
    simp only [dfsLoop, Option.some.injEq, Prod.mk.injEq] at h
    rw [← h.2]; exact hrefl _
  | cons nb rest ih =>
    intro s b s1 h
    by_cases h1 : nb ∈ s.recStack
    · simp only [dfsLoop, h1, if_true, Option.some.injEq, Prod.mk.injEq] at h
      rw [← h.2]; exact hrefl _
    · by_cases h2 : nb ∈ s.visited
      · simp only [dfsLoop, h1, h2, if_false, not_true_eq_false] at h
        exact ih s b s1 h
      · simp only [dfsLoop, h1, h2, if_false, not_false_eq_true, if_true] at h
        cases hc : call nb s with
        | none => simp [hc] at h
        | some r =>
          obtain ⟨b0, s0⟩ := r
          cases b0 with
          | true =>
            simp only [hc, Option.some.injEq, Prod.mk.injEq] at h
            rw [← h.2]
            exact hcall nb s true s0 hc
          | false =>
            simp only [hc] at h
            exact htrans _ _ _ (hcall nb s false s0 hc) (ih s0 b s1 h)

theorem dfs_rel (pl : Placement) (R : Graph → Graph → Prop) (hrefl : ∀ g, R g g)
    (htrans : ∀ a b c, R a b → R b c → R a c) (htouch : ∀ g k, R g (touch pl g k)) :
    ∀ (f : Nat) (node : String) (s : DfsState) (b : Bool) (s1 : DfsState),
      dfs pl f node s = some (b, s1) → R s.graph s1.graph := by
  intro f
  induction f with
  | zero => intro node s b s1 h; simp [dfs] at h
  | succ f ih =>
    intro node s b s1 h
    rw [dfs_succ] at h
    cases hl : dfsLoop (dfs pl f) (adj (touch pl s.graph node) node)
        { visited := s.visited.insert node
          recStack := s.recStack.insert node
          graph := touch pl s.graph node } with
    | none => simp [hl] at h
    | some r =>
      obtain ⟨b0, s0⟩ := r
      have h0 := dfsLoop_rel R hrefl htrans (dfs pl f) ih _ _ b0 s0 hl
      have h1 : R s.graph s0.graph := htrans _ _ _ (htouch s.graph node) h0
      cases b0 with
      | true =>
        simp only [hl, Option.some.injEq, Prod.mk.injEq] at h
        rw [← h.2]; exact h1
      | false =>
        simp only [hl, Option.some.injEq, Prod.mk.injEq] at h
        rw [← h.2]; exact h1

/-! ### The loop over the live map -/

theorem afterKey_subset (k : String) :
    ∀ (ks : List String) (x : String), x ∈ afterKey k ks → x ∈ ks := by
  intro ks
  induction ks with
  | nil => intro x hx; simp [afterKey] at hx
  | cons a rest ih =>
    intro x hx
    by_cases ha : a = k
    · simp only [afterKey, ha, if_true] at hx
      exact List.mem_cons_of_mem _ hx
    · simp only [afterKey, ha, if_false] at hx
      exact List.mem_cons_of_mem _ (ih x hx)

theorem afterKey_append (k : String) (rest : List String) :
    ∀ (pre : List String), k ∉ pre → afterKey k (pre ++ k :: rest) = rest := by
  intro pre
  induction pre with
  | nil => intro _; simp [afterKey]
  | cons a pre ih =>
    intro hk
    have ha : ¬ a = k := fun h => hk (h ▸ List.mem_cons_self _ _)
    have hpre : k ∉ pre := fun h => hk (List.mem_cons_of_mem _ h)
    simp only [List.cons_append, afterKey, ha, if_false]
    exact ih hpre

theorem detectWalk_succ (pl : Placement) (f n : Nat) (ks : List String) (s : DfsState) :
    detectWalk pl f (n + 1) ks s = detectLoop pl f (detectWalk pl f n) ks s := rfl

theorem detectWalk_nil (pl : Placement) (f n : Nat) (s : DfsState) :
    detectWalk pl f (n + 1) [] s = some (false, s) := rfl

theorem detectWalk_skip (pl : Placement) (f n : Nat) (k : String) (rest : List String)
    (s : DfsState) (h : k ∈ s.visited) :
    detectWalk pl f (n + 1) (k :: rest) s = detectWalk pl f (n + 1) rest s := by
  simp [detectWalk, detectLoop, h]

theorem detectWalk_call (pl : Placement) (f n : Nat) (k : String) (rest : List String)
    (s : DfsState) (h : k ∉ s.visited) :
    detectWalk pl f (n + 1) (k :: rest) s =
      match dfs pl f k s with
      | none => none
      | some (true, s1) => some (true, s1)
      | some (false, s1) => detectWalk pl f n (afterKey k (keys s1.graph)) s1 := by
  simp [detectWalk, detectLoop, h]

/-- A call of `dfs` either leaves the map as it is or creates a key. -/
theorem dfs_new_key (pl : Placement) (f : Nat) (node : String) (s : DfsState) (b : Bool)
    (s1 : DfsState) (h : dfs pl f node s = some (b, s1)) :
    s1.graph = s.graph ∨ ∃ n, hasKey s.graph n = false ∧ hasKey s1.graph n = true := by
  have hrel := dfs_rel pl
    (fun a c => (∀ n, hasKey a n = true → hasKey c n = true) ∧
      (c = a ∨ ∃ n, hasKey a n = false ∧ hasKey c n = true))
    (fun a => ⟨fun _ hn => hn, Or.inl rfl⟩)
    (fun a c d hac hcd => ⟨fun n hn => hcd.1 n (hac.1 n hn), by
      rcases hac.2 with h1 | ⟨n, hn1, hn2⟩
      · rcases hcd.2 with h2 | ⟨m, hm1, hm2⟩
        · exact Or.inl (h2.trans h1)
        · exact Or.inr ⟨m, by rw [← h1]; exact hm1, hm2⟩
      · exact Or.inr ⟨n, hn1, hcd.1 n hn2⟩⟩)
    (fun a k => ⟨fun n hn => by rw [hasKey_touch]; simp [hn], by
      cases hk : hasKey a k with
      | true => left; simp [touch, hk]
      | false => right; exact ⟨k, hk, by rw [hasKey_touch]; simp⟩⟩)
    f node s b s1 h
  exact hrel.2

/-- When every target of an edge is a key, `dfs` from a key finds nothing to insert. -/
theorem dfs_graph_eq (pl : Placement) (g : Graph)
    (hall : ∀ a x, Edge g a x → hasKey g x = true)
    (f : Nat) (node : String) (s : DfsState) (b : Bool) (s1 : DfsState)
    (hg : s.graph = g) (hnode : hasKey g node = true) (h : dfs pl f node s = some (b, s1)) :
    s1.graph = g := by
  rcases dfs_new_key pl f node s b s1 h with h1 | ⟨n, hn1, hn2⟩
  · exact h1.trans hg
  · exfalso
    rcases (dfs_keys pl f node s b s1 h).2 n hn2 with hk | hk | ⟨a, hk⟩
    · rw [hn1] at hk; exact absurd hk (by decide)
    · rw [hk, hg, hnode] at hn1; exact absurd hn1 (by decide)
    · rw [hg] at hk hn1
      rw [hall a n hk] at hn1
      exact absurd hn1 (by decide)

theorem detectWalk_spec (pl : Placement) (g : Graph) (f : Nat) (hf : (nodes g).length ≤ f) :
    ∀ (n : Nat) (ks : List String) (s : DfsState), Inv g s → s.recStack = [] →
      (∀ k, hasKey s.graph k = true → k ∈ nodes g) → (∀ k ∈ ks, k ∈ nodes g) →
      unvisited (nodes g) s.visited < n →
      ∃ b s1, detectWalk pl f n ks s = some (b, s1) ∧ (b = true → HasCycle g) ∧
        (b = false → s1.recStack = [] ∧ s.visited ⊆ s1.visited ∧ Inv g s1 ∧
          ((∀ a x, Edge g a x → hasKey g x = true) → s.graph = g →
            ∀ pre, keys g = pre ++ ks → (∀ x ∈ pre, x ∈ s.visited) →
              ∀ k ∈ keys g, k ∈ s1.visited)) := by
  intro n
  induction n with
  | zero => intro ks s _ _ _ _ hlt; omega
  | succ n ihn =>
    intro ks
    induction ks with
    | nil =>
      intro s hinv hrs _ _ _
      refine ⟨false, s, rfl, by simp, fun _ => ⟨hrs, fun _ h => h, hinv, ?_⟩⟩
      intro _ _ pre hpre hvis k hk
      rw [hpre, List.append_nil] at hk
      exact hvis k hk
    | cons k rest ih =>
      intro s hinv hrs hK hks hlt
      have hrest : ∀ x ∈ rest, x ∈ nodes g := fun x hx => hks x (List.mem_cons_of_mem _ hx)
      by_cases h2 : k ∈ s.visited
      · obtain ⟨b, s1, hres, htrue, hfalse⟩ := ih s hinv hrs hK hrest hlt
        refine ⟨b, s1, by rw [detectWalk_skip pl f n k rest s h2]; exact hres, htrue,
          fun hb => ?_⟩
        obtain ⟨hr, hv, hi, hcov⟩ := hfalse hb
        refine ⟨hr, hv, hi, fun hall hg pre hpre hvis => ?_⟩
        apply hcov hall hg (pre ++ [k])
        · rw [hpre]; simp
        · intro x hx
          rcases List.mem_append.mp hx with hx | hx
          · exact hvis x hx
          · rw [List.mem_singleton.mp hx]; exact h2
      · have hfuel : unvisited (nodes g) s.visited ≤ f :=
          le_trans (unvisited_le_length _ _) hf
        have hkn : k ∈ nodes g := hks k (List.mem_cons_self _ _)
        obtain ⟨b, s1, hres, htrue, hfalse⟩ :=
          dfs_spec pl g f k s hinv h2 (by rw [hrs]; simp) hkn (by rw [hrs]; simp) hfuel
        cases b with
        | true =>
          refine ⟨true, s1, ?_, fun _ => htrue rfl, by simp⟩
          rw [detectWalk_call pl f n k rest s h2, hres]
        | false =>
          obtain ⟨hr, hv, hmem, hi⟩ := hfalse rfl
          have hK1 : ∀ x, hasKey s1.graph x = true → x ∈ nodes g := by
            intro x hx
            rcases (dfs_keys pl f k s false s1 hres).2 x hx with hk | hk | ⟨a, hk⟩
            · exact hK x hk
            · rw [hk]; exact hkn
            · rw [hinv.adjEq] at hk
              exact mem_nodes_of_mem_adj g a x hk
          have hks1 : ∀ x ∈ afterKey k (keys s1.graph), x ∈ nodes g := fun x hx =>
            hK1 x ((hasKey_iff_mem_keys _ _).mpr (afterKey_subset k _ x hx))
          have hlt1 : unvisited (nodes g) s1.visited < n := by
            have h1 : unvisited (nodes g) (s.visited.insert k) < unvisited (nodes g) s.visited :=
              unvisited_insert_lt _ _ _ hkn h2
            have h3 : s.visited.insert k ⊆ s1.visited := by
              intro x hx
              rcases List.mem_insert_iff.mp hx with hx | hx
              · rw [hx]; exact hmem
              · exact hv hx
            have h4 := unvisited_mono (nodes g) _ _ h3
            omega
          obtain ⟨b2, s2, hres2, htrue2, hfalse2⟩ :=
            ihn (afterKey k (keys s1.graph)) s1 hi (hr.trans hrs) hK1 hks1 hlt1
          refine ⟨b2, s2, ?_, htrue2, fun hb => ?_⟩
          · rw [detectWalk_call pl f n k rest s h2, hres]
            exact hres2
          · obtain ⟨hr2, hv2, hi2, hcov2⟩ := hfalse2 hb
            refine ⟨hr2, fun x hx => hv2 (hv hx), hi2, fun hall hg pre hpre hvis => ?_⟩
            have hkey : hasKey g k = true := by
              rw [hasKey_iff_mem_keys, hpre]; simp
            have hg1 : s1.graph = g := dfs_graph_eq pl g hall f k s false s1 hg hkey hres
            have hkpre : k ∉ pre := fun h => h2 (hvis k h)
            have hafter : afterKey k (keys s1.graph) = rest := by
              rw [hg1, hpre]; exact afterKey_append k rest pre hkpre
            apply hcov2 hall hg1 (pre ++ [k])
            · rw [hafter, hpre]; simp
            · intro x hx
              rcases List.mem_append.mp hx with hx | hx
              · exact hv (hvis x hx)
              · rw [List.mem_singleton.mp hx]; exact hmem

theorem detectWalk_rel (pl : Placement) (R : Graph → Graph → Prop) (hrefl : ∀ g, R g g)
    (htrans : ∀ a b c, R a b → R b c → R a c) (htouch : ∀ g k, R g (touch pl g k))
    (f : Nat) :
    ∀ (n : Nat) (ks : List String) (s : DfsState) (b : Bool) (s1 : DfsState),
      detectWalk pl f n ks s = some (b, s1) → R s.graph s1.graph := by
  intro n
  induction n with
  | zero => intro ks s b s1 h; simp [detectWalk] at h
  | succ n ihn =>
    intro ks
    induction ks with
    | nil =>
      intro s b s1 h
      rw [detectWalk_nil] at h
      simp only [Option.some.injEq, Prod.mk.injEq] at h
      rw [← h.2]; exact hrefl _
    | cons k rest ih =>
      intro s b s1 h
      by_cases h2 : k ∈ s.visited
      · rw [detectWalk_skip pl f n k rest s h2] at h
        exact ih s b s1 h
      · rw [detectWalk_call pl f n k rest s h2] at h
        cases hc : dfs pl f k s with
        | none => simp [hc] at h
        | some r =>
          obtain ⟨b0, s0⟩ := r
          have h0 := dfs_rel pl R hrefl htrans htouch f k s b0 s0 hc
          cases b0 with
          | true =>
            simp only [hc, Option.some.injEq, Prod.mk.injEq] at h
            rw [← h.2]; exact h0
          | false =>
            simp only [hc] at h
            exact htrans _ _ _ h0 (ihn _ s0 b s1 h)

theorem detectWalk_adj (pl : Placement) (f n : Nat) (ks : List String) (s : DfsState)
    (b : Bool) (s1 : DfsState) (h : detectWalk pl f n ks s = some (b, s1)) :
    ∀ x, adj s1.graph x = adj s.graph x :=
  detectWalk_rel pl (fun a c => ∀ x, adj c x = adj a x) (fun _ _ => rfl)
    (fun _ _ _ hac hcd x => (hcd x).trans (hac x)) (fun a k x => adj_touch pl a k x)
    f n ks s b s1 h

theorem detectWalk_keys (pl : Placement) (f : Nat) :
    ∀ (n : Nat) (ks : List String) (s : DfsState) (b : Bool) (s1 : DfsState),
      (∀ k ∈ ks, hasKey s.graph k = true) → detectWalk pl f n ks s = some (b, s1) →
      (∀ x, hasKey s.graph x = true → hasKey s1.graph x = true) ∧
      (∀ x, hasKey s1.graph x = true → hasKey s.graph x = true ∨ ∃ a, x ∈ adj s.graph a) := by
  intro n
  induction n with
  | zero => intro ks s b s1 _ h; simp [detectWalk] at h
  | succ n ihn =>
    intro ks
    induction ks with
    | nil =>
      intro s b s1 _ h
      rw [detectWalk_nil] at h
      simp only [Option.some.injEq, Prod.mk.injEq] at h
      rw [← h.2]
      exact ⟨fun _ hx => hx, fun _ hx => Or.inl hx⟩
    | cons k rest ih =>
      intro s b s1 hks h
      have hrest : ∀ x ∈ rest, hasKey s.graph x = true :=
        fun x hx => hks x (List.mem_cons_of_mem _ hx)
      by_cases h2 : k ∈ s.visited
      · rw [detectWalk_skip pl f n k rest s h2] at h
        exact ih s b s1 hrest h
      · rw [detectWalk_call pl f n k rest s h2] at h
        cases hc : dfs pl f k s with
        | none => simp [hc] at h
        | some r =>
          obtain ⟨b0, s0⟩ := r
          obtain ⟨hup0, hdown0⟩ := dfs_keys pl f k s b0 s0 hc
          have hstep : ∀ x, hasKey s0.graph x = true →
              hasKey s.graph x = true ∨ ∃ a, x ∈ adj s.graph a := by
            intro x hx
            rcases hdown0 x hx with hk | hk | hk
            · exact Or.inl hk
            · rw [hk]; exact Or.inl (hks k (List.mem_cons_self _ _))
            · exact Or.inr hk
          cases b0 with
          | true =>
            simp only [hc, Option.some.injEq, Prod.mk.injEq] at h
            rw [← h.2]
            exact ⟨hup0, hstep⟩
          | false =>
            simp only [hc] at h
            have hks0 : ∀ x ∈ afterKey k (keys s0.graph), hasKey s0.graph x = true :=
              fun x hx => (hasKey_iff_mem_keys _ _).mpr (afterKey_subset k _ x hx)
            obtain ⟨hup, hdown⟩ := ihn _ s0 b s1 hks0 h
            refine ⟨fun x hx => hup x (hup0 x hx), fun x hx => ?_⟩
            rcases hdown x hx with hk | ⟨a, hk⟩
            · exact hstep x hk
            · rw [dfs_adj pl f k s false s0 hc a] at hk
              exact Or.inr ⟨a, hk⟩

/-- The contract of `detectedDeadlock`: it returns, it answers true only when
there is a directed cycle, it does answer true on a cycle when every target
of an edge is a key (so that the search inserts nothing into the map it
walks), and it leaves every adjacency list as it was. -/
theorem detectedDeadlock_spec (pl : Placement) (g : Graph) :
    ∃ b g1, detectedDeadlock pl g = some (b, g1) ∧ (b = true → HasCycle g) ∧
      ((∀ a x, Edge g a x → hasKey g x = true) → HasCycle g → b = true) ∧
      ∀ n, adj g1 n = adj g n := by
  have hinv : Inv g { visited := [], recStack := [], graph := g } :=
    ⟨fun _ => rfl, fun b hb => absurd hb.1 (by simp), fun b hb => absurd hb.1 (by simp)⟩
  obtain ⟨b, s1, hres, htrue, hfalse⟩ :=
    detectWalk_spec pl g ((nodes g).length + 1) (Nat.le_succ _) ((nodes g).length + 1)
      (keys g) _ hinv rfl
      (fun k hk => mem_nodes_of_mem_keys g k ((hasKey_iff_mem_keys g k).mp hk))
      (fun k hk => mem_nodes_of_mem_keys g k hk)
      (Nat.lt_succ_of_le (unvisited_le_length _ _))
  refine ⟨b, s1.graph, by simp [detectedDeadlock, hres], htrue, fun hall hcyc => ?_,
    fun n => detectWalk_adj pl _ _ _ _ b s1 hres n⟩
  cases b with
  | true => rfl
  | false =>
    exfalso
    obtain ⟨hr, _, hi, hcov⟩ := hfalse rfl
    obtain ⟨a, ha⟩ := hcyc
    obtain ⟨c, hac, _⟩ := Relation.TransGen.head'_iff.mp ha
    have hkey : a ∈ keys g := mem_keys_of_mem_adj g a c hac
    have hvis : a ∈ s1.visited := hcov hall rfl [] (by simp) (by simp) a hkey
    exact hi.acyc a ⟨hvis, by rw [hr]; simp⟩ ha

/-- The search keeps every key and creates keys only for targets of edges. -/
theorem detectedDeadlock_keys (pl : Placement) (g : Graph) (b : Bool) (g1 : Graph)
    (h : detectedDeadlock pl g = some (b, g1)) :
    (∀ n, hasKey g n = true → hasKey g1 n = true) ∧
    (∀ n, hasKey g1 n = true → hasKey g n = true ∨ ∃ a, n ∈ adj g a) := by
  simp only [detectedDeadlock, Option.map_eq_some', Prod.mk.injEq] at h
  obtain ⟨⟨b0, s1⟩, hres, _, hg⟩ := h
  have hkeys := detectWalk_keys pl _ _ (keys g) _ b0 s1
    (fun k hk => (hasKey_iff_mem_keys g k).mpr hk) hres
  simp only at hg
  subst hg
  exact hkeys

/-! ## Editing the graph -/

theorem hasKey_modifyAt (g : Graph) (k : String) (f : List String → List String) (n : String) :
    hasKey (modifyAt g k f) n = hasKey g n := by
  induction g with
  | nil => rfl
  | cons e g ih =>
    obtain ⟨a, l⟩ := e
    unfold modifyAt at ih ⊢
    rw [List.map_cons]
    by_cases ha : a = k
    · simp only [ha, if_true]
      rw [hasKey_cons, hasKey_cons, ih]
    · simp only [ha, if_false]
      rw [hasKey_cons, hasKey_cons, ih]

theorem adj_modifyAt (g : Graph) (k : String) (f : List String → List String) (n : String) :
    adj (modifyAt g k f) n = if n = k ∧ hasKey g k = true then f (adj g k) else adj g n := by
  induction g with
  | nil => simp [modifyAt, adj_nil, hasKey_nil]
  | cons e g ih =>
    obtain ⟨a, l⟩ := e
    unfold modifyAt at ih ⊢
    rw [List.map_cons]
    by_cases ha : a = k
    · subst ha
      simp only [if_true]
      rw [adj_cons, adj_cons, adj_cons, hasKey_cons]
      by_cases hn : n = a
      · simp [hn]
      · simp only [hn, if_false, ih, false_and]
    · simp only [ha, if_false]
      rw [adj_cons, adj_cons, adj_cons, hasKey_cons, ih]
      have hka : ¬ k = a := fun h => ha h.symm
      by_cases hn : n = a
      · have hnk : ¬ n = k := fun h => ha (hn ▸ h)
        simp [hn, ha]
      · simp only [hn, if_false, hka]

/-- Calling `addEdge` appends to the list of `src` and leaves every other list alone. -/
theorem adj_addEdge (pl : Placement) (g : Graph) (src dst n : String) :
    adj (addEdge pl g src dst) n = if n = src then adj g src ++ [dst] else adj g n := by
  unfold addEdge
  rw [adj_modifyAt, hasKey_touch, adj_touch, adj_touch]
  by_cases hn : n = src
  · simp [hn]
  · simp [hn]

theorem hasKey_addEdge (pl : Placement) (g : Graph) (src dst n : String) :
    hasKey (addEdge pl g src dst) n = (decide (n = src) || hasKey g n) := by
  unfold addEdge
  rw [hasKey_modifyAt, hasKey_touch]

/-- Calling `removeEdge` filters the list of `src` and leaves every other list alone. -/
theorem adj_removeEdge (g : Graph) (src dst n : String) :
    adj (removeEdge g src dst) n =
      if n = src then (adj g src).filter (fun x => x ≠ dst) else adj g n := by
  unfold removeEdge
  by_cases h : hasKey g src = true
  · simp only [h, if_true]
    rw [adj_modifyAt]
    by_cases hn : n = src
    · simp [hn, h]
    · simp [hn]
  · have h1 : hasKey g src = false := by simpa using h
    simp only [h1, Bool.false_eq_true, if_false]
    by_cases hn : n = src
    · simp [hn, adj_of_not_hasKey g src h1]
    · simp [hn]

theorem hasKey_removeEdge (g : Graph) (src dst n : String) :
    hasKey (removeEdge g src dst) n = hasKey g n := by
  unfold removeEdge
  by_cases h : hasKey g src = true
  · simp only [h, if_true]
    exact hasKey_modifyAt _ _ _ _
  · simp [h]

/-- The graph left when the key `v` and every edge into `v` are erased. -/
theorem adj_erase (g : Graph) (v n : String) :
    adj ((g.filter (fun e => e.1 ≠ v)).map
        (fun e => (e.1, e.2.filter (fun x => x ≠ v)))) n =
      if n = v then [] else (adj g n).filter (fun x => x ≠ v) := by
  induction g with
  | nil => simp [adj_nil]
  | cons e g ih =>
    obtain ⟨a, l⟩ := e
    rw [List.filter_cons]
    by_cases ha : a = v
    · subst ha
      simp only [ne_eq, not_true_eq_false, decide_False, Bool.false_eq_true, if_false]
      rw [adj_cons]
      by_cases hn : n = a
      · subst hn
        simpa using ih
      · simp only [hn, if_false]
        simpa [hn] using ih
    · simp only [ne_eq, ha, not_false_eq_true, decide_True, if_true, List.map_cons]
      rw [adj_cons, adj_cons]
      by_cases hn : n = a
      · have hnv : ¬ n = v := fun h => ha (hn ▸ h)
        simp [hn, ha]
      · simp only [hn, if_false]
        simpa using ih

theorem hasKey_erase (g : Graph) (v n : String) :
    hasKey ((g.filter (fun e => e.1 ≠ v)).map
        (fun e => (e.1, e.2.filter (fun x => x ≠ v)))) n =
      (decide (n ≠ v) && hasKey g n) := by
  induction g with
  | nil => simp [hasKey_nil]
  | cons e g ih =>
    obtain ⟨a, l⟩ := e
    rw [List.filter_cons]
    by_cases ha : a = v
    · subst ha
      simp only [ne_eq, not_true_eq_false, decide_False, Bool.false_eq_true, if_false]
      rw [hasKey_cons]
      by_cases hn : n = a
      · subst hn
        simpa using ih
      · simp only [hn, if_false]
        simpa [hn] using ih
    · simp only [ne_eq, ha, not_false_eq_true, decide_True, if_true, List.map_cons]
      rw [hasKey_cons, hasKey_cons]
      by_cases hn : n = a
      · have hnv : ¬ n = v := fun h => ha (hn ▸ h)
        simp [hn, ha]
      · simp only [hn, if_false]
        simpa using ih

theorem recover_cons (v : String) (l : List String) (g : Graph) :
    recoverFromDeadlock ((v, l) :: g) =
      (v, (((v, l) :: g).filter (fun e => e.1 ≠ v)).map
        (fun e => (e.1, e.2.filter (fun x => x ≠ v)))) := rfl

/-- After recovery the victim has no outgoing edge and every other list has
lost exactly the occurrences of the victim. -/
theorem adj_recover (g : Graph) (n : String) :
    adj (recoverFromDeadlock g).2 n =
      if n = (recoverFromDeadlock g).1 then []
      else (adj g n).filter (fun x => x ≠ (recoverFromDeadlock g).1) := by
  cases g with
  | nil => simp [recoverFromDeadlock, adj_nil]
  | cons e g =>
    obtain ⟨v, l⟩ := e
    rw [recover_cons]
    exact adj_erase _ v n

theorem hasKey_recover (g : Graph) (n : String) :
    hasKey (recoverFromDeadlock g).2 n =
      (decide (n ≠ (recoverFromDeadlock g).1) && hasKey g n) := by
  cases g with
  | nil => simp [recoverFromDeadlock, hasKey_nil]
  | cons e g =>
    obtain ⟨v, l⟩ := e
    rw [recover_cons]
    exact hasKey_erase _ v n

/-! ## Cycle detection -/

/-- A graph whose edges all descend along a rank has no directed cycle. -/
theorem no_cycle_of_rank (g : Graph) (rank : String → Nat)
    (h : ∀ a b, Edge g a b → rank b < rank a) : ¬ HasCycle g := by
  rintro ⟨a, ha⟩
  have key : ∀ x y, Relation.TransGen (Edge g) x y → rank y < rank x := by
    intro x y hxy
    induction hxy with
    | single hs => exact h _ _ hs
    | tail _ hs ih => exact lt_trans (h _ _ hs) ih
  exact lt_irrefl _ (key a a ha)

/-- C1 at its failing input: `waitGraph13` has the cycle `Process_1 → Process_2 →
Process_1`, and `detectedDeadlock()` answers false on it.  The loop starts at
`Process_13`, `dfs` inserts the key `Process_14`, the table rehashes with the
entry of `Process_13` last in the new enumeration, and the loop ends without
a search from any other key. -/
theorem detectedDeadlock_misses_cycle :
    HasCycle waitGraph13 ∧
      detectedDeadlock rehashAt13 waitGraph13 = some (false, waitGraph14) ∧
      keys waitGraph14 = grownOrder :=
  ⟨⟨"Process_1",
      Relation.TransGen.tail
        (Relation.TransGen.single (show Edge waitGraph13 "Process_1" "Process_2" by decide))
        (show Edge waitGraph13 "Process_2" "Process_1" by decide)⟩,
    by decide, by decide⟩

/-- C2: on every finite acyclic wait-for graph (a node reachable along two
paths included) `detectedDeadlock()` returns, and returns false. -/
theorem detectedDeadlock_sound (pl : Placement) (g : Graph) (h : ¬ HasCycle g) :
    ∃ g1, detectedDeadlock pl g = some (false, g1) := by
  obtain ⟨b, g1, hres, hsound, _, _⟩ := detectedDeadlock_spec pl g
  cases b with
  | true => exact absurd (hsound rfl) h
  | false => exact ⟨g1, hres⟩

/-- Witness for C2: the diamond `A → B`, `A → C`, `B → D`, `C → D`. -/
theorem detectedDeadlock_sound_witness :
    ¬ HasCycle [("A", ["B", "C"]), ("B", ["D"]), ("C", ["D"])] ∧
      ∃ g1, detectedDeadlock newestFirst [("A", ["B", "C"]), ("B", ["D"]), ("C", ["D"])] =
        some (false, g1) :=
  have hac : ¬ HasCycle [("A", ["B", "C"]), ("B", ["D"]), ("C", ["D"])] :=
    no_cycle_of_rank _ (fun x => if x = "A" then 2 else if x = "B" ∨ x = "C" then 1 else 0)
      (by
        intro a b hab
        simp only [Edge, adj_cons, adj_nil] at hab
        split_ifs at hab with h1 h2 h3
        · subst h1
          rcases List.mem_cons.mp hab with h | h
          · subst h; decide
          · simp only [List.mem_singleton] at h
            subst h; decide
        · subst h2
          simp only [List.mem_singleton] at hab
          subst hab; decide
        · subst h3
          simp only [List.mem_singleton] at hab
          subst hab; decide
        · simp at hab)
  ⟨hac, detectedDeadlock_sound newestFirst _ hac⟩

/-! ## The resource -/

/-- The ways a call of `acquire` can end, with the state each leaves. -/
theorem acquire_cases (pl : Placement) (r : Resource) (g : Graph) (A : String) :
    (0 < r.sem.count ∧
      r.acquire pl g A = some (AcquireResult.acquired
        (Resource.finishAcquire { r with sem := { count := r.sem.count - 1 } } g A).1
        (Resource.finishAcquire { r with sem := { count := r.sem.count - 1 } } g A).2)) ∨
    (r.sem.count ≤ 0 ∧ ¬ (r.detector = true ∧ r.owner ≠ "") ∧
      r.acquire pl g A = some (AcquireResult.waiting r g)) ∨
    (r.sem.count ≤ 0 ∧ (r.detector = true ∧ r.owner ≠ "") ∧
      ∃ g2, detectedDeadlock pl (addEdge pl g A r.owner) = some (false, g2) ∧
        r.acquire pl g A = some (AcquireResult.waiting r g2)) ∨
    (r.sem.count ≤ 0 ∧ (r.detector = true ∧ r.owner ≠ "") ∧
      ∃ g2, detectedDeadlock pl (addEdge pl g A r.owner) = some (true, g2) ∧
        (recoverFromDeadlock g2).1 ≠ A ∧
        r.acquire pl g A = some (AcquireResult.waiting r (recoverFromDeadlock g2).2)) ∨
    (r.sem.count ≤ 0 ∧ (r.detector = true ∧ r.owner ≠ "") ∧
      ∃ g2, detectedDeadlock pl (addEdge pl g A r.owner) = some (true, g2) ∧
        (recoverFromDeadlock g2).1 = A ∧
        r.acquire pl g A = some (AcquireResult.evicted r
          (removeEdge (recoverFromDeadlock g2).2 A r.owner))) := by
  by_cases hc : 0 < r.sem.count
  · left
    refine ⟨hc, ?_⟩
    simp [Resource.acquire, Semaphore.tryWait, hc]
  · right
    have hle : r.sem.count ≤ 0 := not_lt.mp hc
    by_cases hd : r.detector = true ∧ r.owner ≠ ""
    · right
      obtain ⟨b, g2, hres, _, _, _⟩ := detectedDeadlock_spec pl (addEdge pl g A r.owner)
      cases b with
      | false =>
        left
        refine ⟨hle, hd, g2, hres, ?_⟩
        simp [Resource.acquire, Semaphore.tryWait, hc, hd, hres]
      | true =>
        right
        by_cases hv : (recoverFromDeadlock g2).1 = A
        · right
          refine ⟨hle, hd, g2, hres, hv, ?_⟩
          simp [Resource.acquire, Semaphore.tryWait, hc, hd, hres, hv]
        · left
          refine ⟨hle, hd, g2, hres, hv, ?_⟩
          simp [Resource.acquire, Semaphore.tryWait, hc, hd, hres, hv]
    · left
      refine ⟨hle, hd, ?_⟩
      simp only [Resource.acquire, Semaphore.tryWait, gt_iff_lt, hc, if_false]
      rw [if_neg hd]

/-- The resource after a call of `acquire`: taken by the caller when the
semaphore was free, untouched otherwise. -/
theorem acquire_resource (pl : Placement) (r : Resource) (g : Graph) (A : String)
    (res : AcquireResult) (h : r.acquire pl g A = some res) :
    (0 < r.sem.count ∧ res.state.1 = { r with owner := A, sem := { count := r.sem.count - 1 } }) ∨
    (r.sem.count ≤ 0 ∧ res.state.1 = r) := by
  rcases acquire_cases pl r g A with ⟨hc, he⟩ | ⟨hc, _, he⟩ | ⟨hc, _, g2, _, he⟩ |
      ⟨hc, _, g2, _, _, he⟩ | ⟨hc, _, g2, _, _, he⟩
  all_goals
    rw [he] at h
    cases h
  · exact Or.inl ⟨hc, rfl⟩
  · exact Or.inr ⟨hc, rfl⟩
  · exact Or.inr ⟨hc, rfl⟩
  · exact Or.inr ⟨hc, rfl⟩
  · exact Or.inr ⟨hc, rfl⟩

/-- A resumed call takes the semaphore, which must be available, and records
the caller as owner. -/
theorem acquireResume_spec (r : Resource) (g : Graph) (A : String) (r1 : Resource) (g1 : Graph)
    (h : r.acquireResume g A = some (r1, g1)) :
    0 < r.sem.count ∧ r1 = { r with owner := A, sem := { count := r.sem.count - 1 } } ∧
      g1 = (if r.detector = true then removeEdge g A A else g) := by
  unfold Resource.acquireResume Semaphore.wait at h
  by_cases hc : 0 < r.sem.count
  · simp only [gt_iff_lt, hc, if_true, Resource.finishAcquire, Option.some.injEq,
      Prod.mk.injEq] at h
    exact ⟨hc, h.1.symm, h.2.symm⟩
  · simp [hc] at h

/-- Inside the range of `int` nothing is reduced. -/
theorem wrapInt_of_range (x : Int) (h1 : -2147483648 ≤ x) (h2 : x ≤ 2147483647) :
    wrapInt x = x := by
  unfold wrapInt
  omega

/-- C3, as amended: in every state reachable from a fresh resource by
acquire, resume and release operations with non-empty ids (no release made at
count `INT_MAX`), the single owner field goes with a count that is never
negative, and a count of 0 implies that an owner is recorded. -/
theorem resource_invariant (pl : Placement) (name : String) (detector : Bool)
    (st : Resource × Graph) (h : Reachable pl name detector st) :
    0 ≤ st.1.sem.count ∧ (st.1.sem.count = 0 → st.1.owner ≠ "") := by
  induction h with
  | init g => simp [Resource.new]
  | shared st g _ ih => exact ih
  | step st st1 op _ hid hov hstep ih =>
    obtain ⟨hnn, himp⟩ := ih
    cases op with
    | acquire i =>
      simp only [stepOp, Option.map_eq_some'] at hstep
      obtain ⟨res, hres, hst⟩ := hstep
      have hi : i ≠ "" := hid
      rcases acquire_resource pl st.1 st.2 i res hres with ⟨hc, he⟩ | ⟨_, he⟩
      · rw [← hst, he]
        exact ⟨by simp only; omega, fun _ => hi⟩
      · rw [← hst, he]
        exact ⟨hnn, himp⟩
    | resume i =>
      obtain ⟨r1, g1⟩ := st1
      have hi : i ≠ "" := hid
      obtain ⟨hc, he, _⟩ := acquireResume_spec st.1 st.2 i r1 g1 hstep
      simp only [he]
      exact ⟨by omega, fun _ => hi⟩
    | release i =>
      have hlt := hov i rfl
      simp only [stepOp, Option.some.injEq] at hstep
      rw [← hstep]
      simp only [Resource.release, Semaphore.signal]
      rw [wrapInt_of_range _ (by omega) (by omega)]
      exact ⟨by omega, fun h0 => by omega⟩

/-- Witness for C3 as amended: the state after one `acquire` by `Process_1`. -/
theorem resource_invariant_witness :
    Reachable newestFirst "Printer" true
        ({ name := "Printer", owner := "Process_1", sem := { count := 0 }, detector := true },
          []) ∧
      (0 : Int) ≤ 0 ∧ ((0 : Int) = 0 → "Process_1" ≠ "") :=
  have hr : Reachable newestFirst "Printer" true
      ({ name := "Printer", owner := "Process_1", sem := { count := 0 }, detector := true },
        []) :=
    Reachable.step (Resource.new "Printer" true, []) _ (ResourceOp.acquire "Process_1")
      (Reachable.init []) (by decide) (fun _ h => ResourceOp.noConfusion h) (by decide)
  ⟨hr, resource_invariant newestFirst "Printer" true _ hr⟩

/-- C3 fails as stated: `release` on a free resource followed by `acquire`
leaves an owner recorded while the count is 1. -/
theorem resource_invariant_counterexample :
    ¬ (∀ st : Resource × Graph, Reachable newestFirst "Printer" true st →
        (st.1.sem.count = 0 ↔ st.1.owner ≠ "")) := by
  intro h
  have h0 : Reachable newestFirst "Printer" true (Resource.new "Printer" true, []) :=
    Reachable.init []
  have h1 : Reachable newestFirst "Printer" true
      ({ name := "Printer", owner := "", sem := { count := 2 }, detector := true }, []) :=
    Reachable.step _ _ (ResourceOp.release "Process_1") h0 (by decide)
      (fun _ _ => by decide) (by decide)
  have h2 : Reachable newestFirst "Printer" true
      ({ name := "Printer", owner := "Process_1", sem := { count := 1 }, detector := true },
        []) :=
    Reachable.step _ _ (ResourceOp.acquire "Process_1") h1 (by decide)
      (fun _ h => ResourceOp.noConfusion h) (by decide)
  have h3 := (h _ h2).mpr (by decide)
  exact absurd h3 (by decide)

/-- C4 at its failing input, for every enumeration order: `Process_1` finds
the printer held by `Process_2`, adds the edge `Process_1 → Process_2` and
suspends; `Process_2` releases; `Process_1` wakes up and returns as owner,
and the edge `Process_1 → Process_2` is still in the graph. -/
theorem acquire_keeps_stale_edge (pl : Placement) :
    ∃ g1 r2 g2,
      Resource.acquire pl
          { name := "Printer", owner := "Process_2", sem := { count := 0 }, detector := true }
          [] "Process_1" =
        some (AcquireResult.waiting
          { name := "Printer", owner := "Process_2", sem := { count := 0 }, detector := true }
          g1) ∧
      Edge g1 "Process_1" "Process_2" ∧
      Resource.acquireResume
          (Resource.release
            { name := "Printer", owner := "Process_2", sem := { count := 0 }, detector := true }
            "Process_2")
          g1 "Process_1" = some (r2, g2) ∧
      r2.owner = "Process_1" ∧ Edge g2 "Process_1" "Process_2" := by
  have hedge : Edge (addEdge pl [] "Process_1" "Process_2") "Process_1" "Process_2" := by
    simp [Edge, adj_addEdge]
  have hno : ¬ HasCycle (addEdge pl [] "Process_1" "Process_2") := by
    apply no_cycle_of_rank _ (fun x => if x = "Process_1" then 1 else 0)
    intro a b hab
    simp only [Edge, adj_addEdge, adj_nil, List.nil_append] at hab
    split_ifs at hab with h1
    · simp only [List.mem_singleton] at hab
      subst h1; subst hab; decide
    · simp at hab
  rcases acquire_cases pl
      { name := "Printer", owner := "Process_2", sem := { count := 0 }, detector := true }
      [] "Process_1" with ⟨hc, _⟩ | ⟨_, hd, _⟩ | ⟨_, _, g2, hdet, he⟩ |
      ⟨_, _, g2, hdet, _, _⟩ | ⟨_, _, g2, hdet, _, _⟩
  · exact absurd hc (by decide)
  · exact absurd ⟨rfl, by decide⟩ hd
  · obtain ⟨b, g3, hres, _, _, hadj⟩ :=
      detectedDeadlock_spec pl (addEdge pl [] "Process_1" "Process_2")
    have hg : g3 = g2 := by
      have h := hres.symm.trans hdet
      simp only [Option.some.injEq, Prod.mk.injEq] at h
      exact h.2
    subst hg
    have hedge1 : Edge g3 "Process_1" "Process_2" := by
      unfold Edge; rw [hadj]; exact hedge
    refine ⟨g3, _, _, he, hedge1, rfl, rfl, ?_⟩
    show "Process_2" ∈ adj (removeEdge g3 "Process_1" "Process_1") "Process_1"
    rw [adj_removeEdge]
    simp only [if_true, List.mem_filter]
    exact ⟨hedge1, by decide⟩
  · obtain ⟨b, g3, hres, hiff, _, _⟩ :=
      detectedDeadlock_spec pl (addEdge pl [] "Process_1" "Process_2")
    have hb : b = true := by
      have h := hres.symm.trans hdet
      simp only [Option.some.injEq, Prod.mk.injEq] at h
      exact h.1
    exact absurd (hiff hb) hno
  · obtain ⟨b, g3, hres, hiff, _, _⟩ :=
      detectedDeadlock_spec pl (addEdge pl [] "Process_1" "Process_2")
    have hb : b = true := by
      have h := hres.symm.trans hdet
      simp only [Option.some.injEq, Prod.mk.injEq] at h
      exact h.1
    exact absurd (hiff hb) hno

/-- C5, as amended: when `acquire` with a detector attached suspends on a
resource whose recorded owner is `B`, the graph holds the edge requester → `B`
at that moment, provided the recovery, if it ran, did not pick `B` as victim. -/
theorem waiting_has_edge (pl : Placement) (r : Resource) (g : Graph) (A : String)
    (r1 : Resource) (g1 : Graph) (hd : r.detector = true) (ho : r.owner ≠ "")
    (hw : r.acquire pl g A = some (AcquireResult.waiting r1 g1))
    (hv : ∀ g2, detectedDeadlock pl (addEdge pl g A r.owner) = some (true, g2) →
      (recoverFromDeadlock g2).1 ≠ r.owner) :
    Edge g1 A r.owner := by
  have hedge : r.owner ∈ adj (addEdge pl g A r.owner) A := by simp [adj_addEdge]
  obtain ⟨b, g3, hres, _, _, hadj⟩ := detectedDeadlock_spec pl (addEdge pl g A r.owner)
  rcases acquire_cases pl r g A with ⟨_, he⟩ | ⟨_, hnd, _⟩ | ⟨_, _, g2, hdet, he⟩ |
      ⟨_, _, g2, hdet, hne, he⟩ | ⟨_, _, g2, _, _, he⟩
  · rw [he] at hw; cases hw
  · exact absurd ⟨hd, ho⟩ hnd
  · rw [he] at hw
    cases hw
    have h := hres.symm.trans hdet
    simp only [Option.some.injEq, Prod.mk.injEq] at h
    unfold Edge
    rw [← h.2, hadj]
    exact hedge
  · rw [he] at hw
    cases hw
    have h := hres.symm.trans hdet
    simp only [Option.some.injEq, Prod.mk.injEq] at h
    have hg : g3 = g2 := h.2
    subst hg
    unfold Edge
    rw [adj_recover, if_neg (fun hA => hne hA.symm), hadj]
    refine List.mem_filter.mpr ⟨hedge, ?_⟩
    have := hv g3 hdet
    simpa using fun hx : r.owner = (recoverFromDeadlock g3).1 => this hx.symm
  · rw [he] at hw; cases hw

/-- Witness for C5 as amended, on the path where a cycle is found and the
victim `Process_3` is neither the requester nor the owner. -/
theorem waiting_has_edge_witness :
    Resource.acquire newestFirst
        { name := "Disk", owner := "Process_2", sem := { count := 0 }, detector := true }
        [("Process_3", ["Process_1"]), ("Process_2", ["Process_1"]), ("Process_1", [])]
        "Process_1" =
      some (AcquireResult.waiting
        { name := "Disk", owner := "Process_2", sem := { count := 0 }, detector := true }
        [("Process_2", ["Process_1"]), ("Process_1", ["Process_2"])]) ∧
    Edge [("Process_2", ["Process_1"]), ("Process_1", ["Process_2"])] "Process_1" "Process_2" :=
  have hw : Resource.acquire newestFirst
        { name := "Disk", owner := "Process_2", sem := { count := 0 }, detector := true }
        [("Process_3", ["Process_1"]), ("Process_2", ["Process_1"]), ("Process_1", [])]
        "Process_1" =
      some (AcquireResult.waiting
        { name := "Disk", owner := "Process_2", sem := { count := 0 }, detector := true }
        [("Process_2", ["Process_1"]), ("Process_1", ["Process_2"])]) := by decide
  ⟨hw, waiting_has_edge newestFirst
      { name := "Disk", owner := "Process_2", sem := { count := 0 }, detector := true }
      [("Process_3", ["Process_1"]), ("Process_2", ["Process_1"]), ("Process_1", [])]
      "Process_1" _ _ rfl (by decide) hw
      (by
        intro g2 h
        have hc : detectedDeadlock newestFirst
            (addEdge newestFirst
              [("Process_3", ["Process_1"]), ("Process_2", ["Process_1"]), ("Process_1", [])]
              "Process_1" "Process_2") =
            some (true, [("Process_3", ["Process_1"]), ("Process_2", ["Process_1"]),
              ("Process_1", ["Process_2"])]) := by decide
        have hg := hc.symm.trans h
        simp only [Option.some.injEq, Prod.mk.injEq, true_and] at hg
        rw [← hg]
        decide)⟩

/-- C5 fails as stated: `Process_2` waits for `Process_1`; `Process_1` requests
the disk held by `Process_2`; the cycle is found, the victim is `Process_2`
(first key), so `Process_1` suspends while the graph has no edge
`Process_1 → Process_2`.  No key is created in this run. -/
theorem waiting_without_edge :
    Resource.acquire newestFirst
        { name := "Disk", owner := "Process_2", sem := { count := 0 }, detector := true }
        [("Process_2", ["Process_1"]), ("Process_1", [])] "Process_1" =
      some (AcquireResult.waiting
        { name := "Disk", owner := "Process_2", sem := { count := 0 }, detector := true }
        [("Process_1", [])]) ∧
    ¬ Edge [("Process_1", [])] "Process_1" "Process_2" := by
  decide

/-! ## Recovery -/

/-- C7: on a non-empty graph `recoverFromDeadlock()` returns a key `v` of the
graph; afterwards `v` is no key and occurs in no adjacency list. -/
theorem recover_removes_victim (g : Graph) (h : g ≠ []) :
    (recoverFromDeadlock g).1 ∈ keys g ∧
      (recoverFromDeadlock g).1 ∉ keys (recoverFromDeadlock g).2 ∧
      ∀ e ∈ (recoverFromDeadlock g).2, (recoverFromDeadlock g).1 ∉ e.2 := by
  cases g with
  | nil => exact absurd rfl h
  | cons e g =>
    obtain ⟨v, l⟩ := e
    rw [recover_cons]
    refine ⟨by simp [keys], ?_, ?_⟩
    · intro hmem
      simp only [keys, List.map_map, List.mem_map, List.mem_filter, Function.comp] at hmem
      obtain ⟨e, ⟨_, hne⟩, hev⟩ := hmem
      simp [hev] at hne
    · intro e he hve
      simp only [List.mem_map, List.mem_filter] at he
      obtain ⟨e0, _, rfl⟩ := he
      simp at hve

/-- Witness for C7: the three-process cycle. -/
theorem recover_removes_victim_witness :
    [("Process_1", ["Process_2"]), ("Process_2", ["Process_3"]), ("Process_3", ["Process_1"])]
        ≠ ([] : Graph) ∧
      "Process_1" ∉ keys [("Process_2", ["Process_3"]), ("Process_3", [])] ∧
      ∀ e ∈ ([("Process_2", ["Process_3"]), ("Process_3", [])] : Graph), "Process_1" ∉ e.2 :=
  ⟨by decide,
    (recover_removes_victim
      [("Process_1", ["Process_2"]), ("Process_2", ["Process_3"]), ("Process_3", ["Process_1"])]
      (by decide)).2⟩

/-! ## Outcomes of `acquire` on a busy resource -/

/-- C9: on a busy resource `acquire` returns without the grant exactly when a
detector is attached, an owner is recorded, the cycle search on the graph
with the new edge answers true and the recovery returns the requester;
otherwise it suspends in `wait()`, and a suspended call returns only by taking
the semaphore and recording the requester as owner. -/
theorem acquire_busy_outcome (pl : Placement) (r : Resource) (g : Graph) (A : String)
    (hbusy : r.sem.count ≤ 0) :
    ((∃ r1 g1, r.acquire pl g A = some (AcquireResult.evicted r1 g1)) ↔
        (r.detector = true ∧ r.owner ≠ "" ∧
          ∃ g2, detectedDeadlock pl (addEdge pl g A r.owner) = some (true, g2) ∧
            (recoverFromDeadlock g2).1 = A)) ∧
      ((¬ ∃ r1 g1, r.acquire pl g A = some (AcquireResult.evicted r1 g1)) →
        ∃ g1, r.acquire pl g A = some (AcquireResult.waiting r g1)) ∧
      (∀ rw gw r2 g2, Resource.acquireResume rw gw A = some (r2, g2) →
        0 < rw.sem.count ∧ r2.sem.count = rw.sem.count - 1 ∧ r2.owner = A) := by
  refine ⟨⟨?_, ?_⟩, ?_, ?_⟩
  · rintro ⟨r1, g1, h⟩
    rcases acquire_cases pl r g A with ⟨_, he⟩ | ⟨_, _, he⟩ | ⟨_, _, g2, _, he⟩ |
        ⟨_, _, g2, _, _, he⟩ | ⟨_, hd, g2, hdet, hv, _⟩
    · rw [he] at h; cases h
    · rw [he] at h; cases h
    · rw [he] at h; cases h
    · rw [he] at h; cases h
    · exact ⟨hd.1, hd.2, g2, hdet, hv⟩
  · rintro ⟨hd, ho, g2, hdet, hv⟩
    rcases acquire_cases pl r g A with ⟨hc, _⟩ | ⟨_, hnd, _⟩ | ⟨_, _, g3, hdet3, _⟩ |
        ⟨_, _, g3, hdet3, hne, _⟩ | ⟨_, _, g3, _, _, he⟩
    · omega
    · exact absurd ⟨hd, ho⟩ hnd
    · have h := hdet.symm.trans hdet3
      simp at h
    · have h := hdet.symm.trans hdet3
      simp only [Option.some.injEq, Prod.mk.injEq, true_and] at h
      subst h
      exact absurd hv hne
    · exact ⟨r, _, he⟩
  · intro hno
    rcases acquire_cases pl r g A with ⟨hc, _⟩ | ⟨_, _, he⟩ | ⟨_, _, g2, _, he⟩ |
        ⟨_, _, g2, _, _, he⟩ | ⟨_, _, g2, _, _, he⟩
    · omega
    · exact ⟨_, he⟩
    · exact ⟨_, he⟩
    · exact ⟨_, he⟩
    · exact absurd ⟨r, _, he⟩ hno
  · intro rw gw r2 g2 h
    obtain ⟨hc, hr, _⟩ := acquireResume_spec rw gw A r2 g2 h
    subst hr
    exact ⟨hc, rfl, rfl⟩

/-- Witness for C9: `Process_1` requests the disk held by `Process_2`, which
waits for `Process_1`; `Process_1` is the first key and is evicted. -/
theorem acquire_busy_outcome_witness :
    (0 : Int) ≤ 0 ∧
      ((∃ r1 g1, Resource.acquire newestFirst
          { name := "Disk", owner := "Process_2", sem := { count := 0 }, detector := true }
          [("Process_1", []), ("Process_2", ["Process_1"])] "Process_1" =
            some (AcquireResult.evicted r1 g1)) ↔
        (true = true ∧ "Process_2" ≠ "" ∧
          ∃ g2, detectedDeadlock newestFirst
              (addEdge newestFirst [("Process_1", []), ("Process_2", ["Process_1"])]
                "Process_1" "Process_2") = some (true, g2) ∧
            (recoverFromDeadlock g2).1 = "Process_1")) :=
  ⟨le_refl 0,
    (acquire_busy_outcome newestFirst
      { name := "Disk", owner := "Process_2", sem := { count := 0 }, detector := true }
      [("Process_1", []), ("Process_2", ["Process_1"])] "Process_1" (le_refl 0)).1⟩

/-- C10: when `acquire` returns without the grant, the owner and the count of
the resource are what they were before the call and the graph has no edge
from the requester to the owner. -/
theorem evicted_leaves_resource (pl : Placement) (r : Resource) (g : Graph) (A : String)
    (r1 : Resource) (g1 : Graph)
    (h : r.acquire pl g A = some (AcquireResult.evicted r1 g1)) :
    r1.owner = r.owner ∧ r1.sem.count = r.sem.count ∧ ¬ Edge g1 A r.owner := by
  rcases acquire_cases pl r g A with ⟨_, he⟩ | ⟨_, _, he⟩ | ⟨_, _, g2, _, he⟩ |
      ⟨_, _, g2, _, _, he⟩ | ⟨_, _, g2, _, hv, he⟩
  · rw [he] at h; cases h
  · rw [he] at h; cases h
  · rw [he] at h; cases h
  · rw [he] at h; cases h
  · rw [he] at h
    cases h
    refine ⟨rfl, rfl, ?_⟩
    unfold Edge
    rw [adj_removeEdge, if_pos rfl, adj_recover, if_pos hv.symm]
    simp

/-- Witness for C10: the eviction of `Process_1` requesting the disk of `Process_2`. -/
theorem evicted_leaves_resource_witness :
    Resource.acquire newestFirst
        { name := "Disk", owner := "Process_2", sem := { count := 0 }, detector := true }
        [("Process_1", []), ("Process_2", ["Process_1"])] "Process_1" =
      some (AcquireResult.evicted
        { name := "Disk", owner := "Process_2", sem := { count := 0 }, detector := true }
        [("Process_2", [])]) ∧
    ("Process_2" = "Process_2" ∧ (0 : Int) = 0 ∧
      ¬ Edge [("Process_2", [])] "Process_1" "Process_2") :=
  have hw : Resource.acquire newestFirst
        { name := "Disk", owner := "Process_2", sem := { count := 0 }, detector := true }
        [("Process_1", []), ("Process_2", ["Process_1"])] "Process_1" =
      some (AcquireResult.evicted
        { name := "Disk", owner := "Process_2", sem := { count := 0 }, detector := true }
        [("Process_2", [])]) := by decide
  ⟨hw, evicted_leaves_resource newestFirst _ _ _ _ _ hw⟩

/-! ## Recovery and the cycles that remain -/

theorem no_loop_of_rank (R : String → String → Prop) (rank : String → Nat)
    (h : ∀ a b, R a b → rank b < rank a) (a : String) : ¬ Relation.TransGen R a a := by
  intro ha
  have key : ∀ x y, Relation.TransGen R x y → rank y < rank x := by
    intro x y hxy
    induction hxy with
    | single hs => exact h _ _ hs
    | tail _ hs ih => exact lt_trans (h _ _ hs) ih
  exact lt_irrefl _ (key a a ha)

/-- Every edge left by the recovery is an edge of the old graph that avoids the victim. -/
theorem edge_recover (g : Graph) (x y : String) (h : Edge (recoverFromDeadlock g).2 x y) :
    Edge g x y ∧ x ≠ (recoverFromDeadlock g).1 ∧ y ≠ (recoverFromDeadlock g).1 := by
  unfold Edge at h
  rw [adj_recover] at h
  by_cases hx : x = (recoverFromDeadlock g).1
  · rw [if_pos hx] at h
    simp at h
  · rw [if_neg hx] at h
    obtain ⟨hmem, hne⟩ := List.mem_filter.mp h
    exact ⟨hmem, hx, by simpa using hne⟩

/-- If no cycle of `g` avoids the victim, the graph left by the recovery is acyclic. -/
theorem no_cycle_after_recover (g : Graph)
    (h : ∀ a, ¬ Relation.TransGen
      (fun x y => Edge g x y ∧ x ≠ (recoverFromDeadlock g).1 ∧ y ≠ (recoverFromDeadlock g).1)
      a a) :
    ¬ HasCycle (recoverFromDeadlock g).2 := by
  rintro ⟨a, ha⟩
  exact h a (Relation.TransGen.mono (fun x y hxy => edge_recover g x y hxy) ha)

theorem recover_victim_mem_keys (g : Graph) (h : g ≠ []) :
    (recoverFromDeadlock g).1 ∈ keys g := by
  cases g with
  | nil => exact absurd rfl h
  | cons e g =>
    obtain ⟨v, l⟩ := e
    simp [recover_cons, keys]

theorem recover_victim_not_key (g : Graph) :
    (recoverFromDeadlock g).1 ∉ keys (recoverFromDeadlock g).2 := by
  intro hmem
  have h1 := (hasKey_iff_mem_keys _ _).mpr hmem
  rw [hasKey_recover] at h1
  simp at h1

theorem recover_victim_not_target (g : Graph) :
    ∀ e ∈ (recoverFromDeadlock g).2, (recoverFromDeadlock g).1 ∉ e.2 := by
  cases g with
  | nil => intro e he; simp [recoverFromDeadlock] at he
  | cons e0 g =>
    obtain ⟨v, l⟩ := e0
    rw [recover_cons]
    intro e he hve
    simp only [List.mem_map, List.mem_filter] at he
    obtain ⟨e1, _, rfl⟩ := he
    simp at hve

/-- C6, as amended: when `detectedDeadlock()` has returned true and every
directed cycle of the graph passes through the node that `recoverFromDeadlock()`
picks (the first key in enumeration order), the next `detectedDeadlock()`
returns false. -/
theorem recover_breaks_deadlock (pl : Placement) (g g1 : Graph)
    (h1 : detectedDeadlock pl g = some (true, g1))
    (hv : ∀ a, ¬ Relation.TransGen
      (fun x y => Edge g x y ∧ x ≠ (recoverFromDeadlock g1).1 ∧
        y ≠ (recoverFromDeadlock g1).1) a a) :
    ∃ g3, detectedDeadlock pl (recoverFromDeadlock g1).2 = some (false, g3) := by
  obtain ⟨b, g2, hres, _, _, hadj⟩ := detectedDeadlock_spec pl g
  have hg : g2 = g1 := by
    have h := hres.symm.trans h1
    simp only [Option.some.injEq, Prod.mk.injEq] at h
    exact h.2
  subst hg
  have hno : ¬ HasCycle (recoverFromDeadlock g2).2 := by
    apply no_cycle_after_recover
    intro a ha
    refine hv a (Relation.TransGen.mono (fun x y hxy => ?_) ha)
    refine ⟨?_, hxy.2⟩
    have := hxy.1
    unfold Edge at this ⊢
    rw [← hadj]; exact this
  obtain ⟨b3, g3, hres3, hiff3, _, _⟩ := detectedDeadlock_spec pl (recoverFromDeadlock g2).2
  cases b3 with
  | true => exact absurd (hiff3 rfl) hno
  | false => exact ⟨g3, hres3⟩

/-- Witness for C6 as amended: the three-process cycle, whose only cycle
passes through the first key `Process_1`. -/
theorem recover_breaks_deadlock_witness :
    detectedDeadlock newestFirst
        [("Process_1", ["Process_2"]), ("Process_2", ["Process_3"]),
          ("Process_3", ["Process_1"])] =
      some (true, [("Process_1", ["Process_2"]), ("Process_2", ["Process_3"]),
          ("Process_3", ["Process_1"])]) ∧
    ∃ g3, detectedDeadlock newestFirst
        (recoverFromDeadlock [("Process_1", ["Process_2"]), ("Process_2", ["Process_3"]),
          ("Process_3", ["Process_1"])]).2 = some (false, g3) :=
  have h1 : detectedDeadlock newestFirst
        [("Process_1", ["Process_2"]), ("Process_2", ["Process_3"]),
          ("Process_3", ["Process_1"])] =
      some (true, [("Process_1", ["Process_2"]), ("Process_2", ["Process_3"]),
          ("Process_3", ["Process_1"])]) := by decide
  ⟨h1, recover_breaks_deadlock newestFirst _ _ h1 (by
    apply no_loop_of_rank _ (fun x => if x = "Process_2" then 1 else 0)
    intro a b hab
    obtain ⟨he, ha, hb⟩ := hab
    have hv : (recoverFromDeadlock [("Process_1", ["Process_2"]),
        ("Process_2", ["Process_3"]), ("Process_3", ["Process_1"])]).1 = "Process_1" := rfl
    rw [hv] at ha hb
    simp only [Edge, adj_cons, adj_nil] at he
    split_ifs at he with h1 h2 h3
    · exact absurd h1 ha
    · simp only [List.mem_singleton] at he
      subst h2; subst he; decide
    · simp only [List.mem_singleton] at he
      exact absurd he hb
    · simp at he)⟩

/-- C6 fails as stated: `Process_3` waits for `Process_1`, which is in a cycle
with `Process_2`; the victim is the first key `Process_3`, which is on no
cycle, and the second `detectedDeadlock()` still returns true. -/
theorem recover_leaves_deadlock :
    detectedDeadlock newestFirst
        [("Process_3", ["Process_1"]), ("Process_1", ["Process_2"]),
          ("Process_2", ["Process_1"])] =
      some (true, [("Process_3", ["Process_1"]), ("Process_1", ["Process_2"]),
          ("Process_2", ["Process_1"])]) ∧
    recoverFromDeadlock [("Process_3", ["Process_1"]), ("Process_1", ["Process_2"]),
          ("Process_2", ["Process_1"])] =
      ("Process_3", [("Process_1", ["Process_2"]), ("Process_2", ["Process_1"])]) ∧
    detectedDeadlock newestFirst
        [("Process_1", ["Process_2"]), ("Process_2", ["Process_1"])] =
      some (true, [("Process_1", ["Process_2"]), ("Process_2", ["Process_1"])]) := by
  decide

/-! ## The three-process cycle -/

theorem adj_addEdges (pl : Placement) (es : List (String × String)) :
    ∀ (g : Graph) (n : String),
      adj (addEdges pl g es) n = adj g n ++ (es.filter (fun e => e.1 = n)).map Prod.snd := by
  induction es with
  | nil => intro g n; simp [addEdges]
  | cons e es ih =>
    intro g n
    obtain ⟨a, b⟩ := e
    have hstep : addEdges pl g ((a, b) :: es) = addEdges pl (addEdge pl g a b) es := rfl
    rw [hstep, ih, adj_addEdge, List.filter_cons]
    by_cases hn : n = a
    · subst hn; simp
    · have hna : ¬ a = n := fun h => hn h.symm
      simp [hn, hna]

theorem hasKey_addEdges (pl : Placement) (es : List (String × String)) :
    ∀ (g : Graph) (n : String),
      hasKey (addEdges pl g es) n = true ↔ hasKey g n = true ∨ ∃ e ∈ es, e.1 = n := by
  induction es with
  | nil => intro g n; simp [addEdges]
  | cons e es ih =>
    intro g n
    obtain ⟨a, b⟩ := e
    have hstep : addEdges pl g ((a, b) :: es) = addEdges pl (addEdge pl g a b) es := rfl
    rw [hstep, ih, hasKey_addEdge]
    simp only [Bool.or_eq_true, decide_eq_true_eq, List.mem_cons, exists_eq_or_imp]
    constructor
    · rintro ((h | h) | h)
      · exact Or.inr (Or.inl h.symm)
      · exact Or.inl h
      · exact Or.inr (Or.inr h)
    · rintro (h | h | h)
      · exact Or.inl (Or.inr h)
      · exact Or.inl (Or.inl h.symm)
      · exact Or.inr h

/-- The edges of a graph built from the empty graph are the edges added. -/
theorem edge_addEdges (pl : Placement) (es : List (String × String)) (a b : String) :
    Edge (addEdges pl [] es) a b ↔ (a, b) ∈ es := by
  unfold Edge
  rw [adj_addEdges, adj_nil, List.nil_append]
  simp only [List.mem_map, List.mem_filter, decide_eq_true_eq]
  constructor
  · rintro ⟨e, ⟨he, h1⟩, h2⟩
    obtain ⟨x, y⟩ := e
    simp only at h1 h2
    subst h1; subst h2
    exact he
  · intro h
    exact ⟨(a, b), ⟨h, rfl⟩, rfl⟩

/-- C8: on the graph built by `addEdge(P1,P2)`, `addEdge(P2,P3)`,
`addEdge(P3,P1)` in any order, `detectedDeadlock()` returns true,
`recoverFromDeadlock()` returns one of the three, which is then neither a key
nor a target in the graph, and `detectedDeadlock()` on what remains returns false. -/
theorem three_process_cycle (pl : Placement) (p1 p2 p3 : String)
    (h12 : p1 ≠ p2) (h23 : p2 ≠ p3) (h13 : p1 ≠ p3)
    (es : List (String × String)) (hes : es.Perm [(p1, p2), (p2, p3), (p3, p1)]) :
    ∃ g1 g3, detectedDeadlock pl (addEdges pl [] es) = some (true, g1) ∧
      ((recoverFromDeadlock g1).1 = p1 ∨ (recoverFromDeadlock g1).1 = p2 ∨
        (recoverFromDeadlock g1).1 = p3) ∧
      (recoverFromDeadlock g1).1 ∉ keys (recoverFromDeadlock g1).2 ∧
      (∀ e ∈ (recoverFromDeadlock g1).2, (recoverFromDeadlock g1).1 ∉ e.2) ∧
      detectedDeadlock pl (recoverFromDeadlock g1).2 = some (false, g3) := by
  have hE : ∀ a b, Edge (addEdges pl [] es) a b ↔
      (a = p1 ∧ b = p2) ∨ (a = p2 ∧ b = p3) ∨ (a = p3 ∧ b = p1) := by
    intro a b
    rw [edge_addEdges, hes.mem_iff]
    simp
  have hK : ∀ n, hasKey (addEdges pl [] es) n = true → n = p1 ∨ n = p2 ∨ n = p3 := by
    intro n hn
    rcases (hasKey_addEdges pl es [] n).mp hn with h | ⟨e, he, h⟩
    · simp [hasKey_nil] at h
    · have := hes.mem_iff.mp he
      simp only [List.mem_cons, List.mem_singleton, List.not_mem_nil, or_false] at this
      rcases this with h1 | h1 | h1
      · left; rw [← h, h1]
      · right; left; rw [← h, h1]
      · right; right; rw [← h, h1]
  have hcyc : HasCycle (addEdges pl [] es) :=
    ⟨p1, Relation.TransGen.tail
      (Relation.TransGen.tail
        (Relation.TransGen.single ((hE p1 p2).mpr (Or.inl ⟨rfl, rfl⟩)))
        ((hE p2 p3).mpr (Or.inr (Or.inl ⟨rfl, rfl⟩))))
      ((hE p3 p1).mpr (Or.inr (Or.inr ⟨rfl, rfl⟩)))⟩
  have hall : ∀ a x, Edge (addEdges pl [] es) a x → hasKey (addEdges pl [] es) x = true := by
    intro a x hax
    rcases (hE a x).mp hax with ⟨_, h⟩ | ⟨_, h⟩ | ⟨_, h⟩
    · rw [h]
      exact (hasKey_addEdges pl es [] p2).mpr
        (Or.inr ⟨(p2, p3), hes.mem_iff.mpr (by simp), rfl⟩)
    · rw [h]
      exact (hasKey_addEdges pl es [] p3).mpr
        (Or.inr ⟨(p3, p1), hes.mem_iff.mpr (by simp), rfl⟩)
    · rw [h]
      exact (hasKey_addEdges pl es [] p1).mpr
        (Or.inr ⟨(p1, p2), hes.mem_iff.mpr (by simp), rfl⟩)
  obtain ⟨b, g1, hres, _, hcompl, hadj⟩ := detectedDeadlock_spec pl (addEdges pl [] es)
  have hb : b = true := hcompl hall hcyc
  subst hb
  obtain ⟨hup, hdown⟩ := detectedDeadlock_keys pl _ true g1 hres
  have hkey1 : hasKey g1 p1 = true :=
    hup p1 ((hasKey_addEdges pl es [] p1).mpr
      (Or.inr ⟨(p1, p2), hes.mem_iff.mpr (by simp), rfl⟩))
  have hne : g1 ≠ [] := by
    intro h
    rw [h, hasKey_nil] at hkey1
    exact absurd hkey1 (by decide)
  have hvic : (recoverFromDeadlock g1).1 = p1 ∨ (recoverFromDeadlock g1).1 = p2 ∨
      (recoverFromDeadlock g1).1 = p3 := by
    have hk := (hasKey_iff_mem_keys g1 _).mpr (recover_victim_mem_keys g1 hne)
    rcases hdown _ hk with h | ⟨a, h⟩
    · exact hK _ h
    · rcases (hE a _).mp h with ⟨_, h⟩ | ⟨_, h⟩ | ⟨_, h⟩
      · exact Or.inr (Or.inl h)
      · exact Or.inr (Or.inr h)
      · exact Or.inl h
  have hE1 : ∀ a b, Edge g1 a b ↔
      (a = p1 ∧ b = p2) ∨ (a = p2 ∧ b = p3) ∨ (a = p3 ∧ b = p1) := by
    intro a b
    rw [← hE a b]
    unfold Edge
    rw [hadj]
  have hno : ¬ HasCycle (recoverFromDeadlock g1).2 := by
    apply no_cycle_after_recover
    rcases hvic with hv | hv | hv
    · rw [hv]
      apply no_loop_of_rank _ (fun x => if x = p2 then 1 else 0)
      rintro a b ⟨he, ha, hb⟩
      rcases (hE1 a b).mp he with ⟨h, _⟩ | ⟨h1, h2⟩ | ⟨_, h⟩
      · exact absurd h ha
      · subst h1; subst h2
        simp [Ne.symm h23]
      · exact absurd h hb
    · rw [hv]
      apply no_loop_of_rank _ (fun x => if x = p3 then 1 else 0)
      rintro a b ⟨he, ha, hb⟩
      rcases (hE1 a b).mp he with ⟨_, h⟩ | ⟨h, _⟩ | ⟨h1, h2⟩
      · exact absurd h hb
      · exact absurd h ha
      · subst h1; subst h2
        simp [h13]
    · rw [hv]
      apply no_loop_of_rank _ (fun x => if x = p1 then 1 else 0)
      rintro a b ⟨he, ha, hb⟩
      rcases (hE1 a b).mp he with ⟨h1, h2⟩ | ⟨_, h⟩ | ⟨h, _⟩
      · subst h1; subst h2
        simp [Ne.symm h12]
      · exact absurd h hb
      · exact absurd h ha
  obtain ⟨b3, g3, hres3, hiff3, _, _⟩ := detectedDeadlock_spec pl (recoverFromDeadlock g1).2
  cases b3 with
  | true => exact absurd (hiff3 rfl) hno
  | false =>
    exact ⟨g1, g3, hres, hvic, recover_victim_not_key g1, recover_victim_not_target g1, hres3⟩

/-- Witness for C8: the edges of the simulation added in the order
`Process_2 → Process_3`, `Process_3 → Process_1`, `Process_1 → Process_2`. -/
theorem three_process_cycle_witness :
    "Process_1" ≠ "Process_2" ∧ "Process_2" ≠ "Process_3" ∧ "Process_1" ≠ "Process_3" ∧
    ∃ g1 g3, detectedDeadlock newestFirst
        (addEdges newestFirst []
          [("Process_2", "Process_3"), ("Process_3", "Process_1"), ("Process_1", "Process_2")]) =
        some (true, g1) ∧
      ((recoverFromDeadlock g1).1 = "Process_1" ∨ (recoverFromDeadlock g1).1 = "Process_2" ∨
        (recoverFromDeadlock g1).1 = "Process_3") ∧
      (recoverFromDeadlock g1).1 ∉ keys (recoverFromDeadlock g1).2 ∧
      (∀ e ∈ (recoverFromDeadlock g1).2, (recoverFromDeadlock g1).1 ∉ e.2) ∧
      detectedDeadlock newestFirst (recoverFromDeadlock g1).2 = some (false, g3) :=
  ⟨by decide, by decide, by decide,
    three_process_cycle newestFirst "Process_1" "Process_2" "Process_3"
      (by decide) (by decide) (by decide) _
      (by decide)⟩

/-! ## Contracts of the single operations -/

/-- C11: on a busy resource with a detector and a recorded owner `o`, the
graph handed to `detectedDeadlock()` is the prior graph with `o` appended to
the requester's list; when no cycle is found the requester suspends with that
edge present and the resource unchanged. -/
theorem acquire_busy_adds_edge (pl : Placement) (r : Resource) (g : Graph) (A : String)
    (hbusy : r.sem.count ≤ 0) (hd : r.detector = true) (ho : r.owner ≠ "") :
    adj (addEdge pl g A r.owner) A = adj g A ++ [r.owner] ∧
      (∀ n, n ≠ A → adj (addEdge pl g A r.owner) n = adj g n) ∧
      ∃ b g2, detectedDeadlock pl (addEdge pl g A r.owner) = some (b, g2) ∧
        (b = true → HasCycle (addEdge pl g A r.owner)) ∧
        ((∀ a x, Edge (addEdge pl g A r.owner) a x →
            hasKey (addEdge pl g A r.owner) x = true) →
          HasCycle (addEdge pl g A r.owner) → b = true) ∧
        (b = false →
          r.acquire pl g A = some (AcquireResult.waiting r g2) ∧
          adj g2 A = adj g A ++ [r.owner] ∧ Edge g2 A r.owner ∧
          ∀ n, n ≠ A → adj g2 n = adj g n) := by
  have hA : adj (addEdge pl g A r.owner) A = adj g A ++ [r.owner] := by
    rw [adj_addEdge, if_pos rfl]
  have hn : ∀ n, n ≠ A → adj (addEdge pl g A r.owner) n = adj g n := by
    intro n hne
    rw [adj_addEdge, if_neg hne]
  obtain ⟨b, g2, hres, hsound, hcompl, hadj⟩ :=
    detectedDeadlock_spec pl (addEdge pl g A r.owner)
  refine ⟨hA, hn, b, g2, hres, hsound, hcompl, fun hb => ?_⟩
  subst hb
  have hacq : r.acquire pl g A = some (AcquireResult.waiting r g2) := by
    rcases acquire_cases pl r g A with ⟨hc, _⟩ | ⟨_, hnd, _⟩ | ⟨_, _, g3, hdet, he⟩ |
        ⟨_, _, g3, hdet, _, _⟩ | ⟨_, _, g3, hdet, _, _⟩
    · omega
    · exact absurd ⟨hd, ho⟩ hnd
    · have h := hres.symm.trans hdet
      simp only [Option.some.injEq, Prod.mk.injEq, true_and] at h
      rw [h]; exact he
    · have h := hres.symm.trans hdet
      simp at h
    · have h := hres.symm.trans hdet
      simp at h
  refine ⟨hacq, by rw [hadj, hA], ?_, fun n hne => by rw [hadj, hn n hne]⟩
  unfold Edge
  rw [hadj, hA]
  simp

/-- Witness for C11: `Process_1` requests the printer held by `Process_2`
while the graph is empty. -/
theorem acquire_busy_adds_edge_witness :
    (0 : Int) ≤ 0 ∧ true = true ∧ "Process_2" ≠ "" ∧
      adj (addEdge newestFirst [] "Process_1" "Process_2") "Process_1" =
        adj [] "Process_1" ++ ["Process_2"] :=
  ⟨le_refl 0, rfl, by decide,
    (acquire_busy_adds_edge newestFirst
      { name := "Printer", owner := "Process_2", sem := { count := 0 }, detector := true }
      [] "Process_1" (le_refl 0) rfl (by decide)).1⟩

/-- C12: on a free resource (count 1, owner empty) `acquire` returns at once
with the requester as owner and count 0; the graph gains no edge and no key
(the only edit is the erasure of a self-edge of the requester). -/
theorem acquire_free (pl : Placement) (r : Resource) (g : Graph) (A : String)
    (hc : r.sem.count = 1) (ho : r.owner = "") :
    ∃ r1 g1, r.acquire pl g A = some (AcquireResult.acquired r1 g1) ∧
      r1 = { r with owner := A, sem := { count := 0 } } ∧
      g1 = (if r.detector = true then removeEdge g A A else g) ∧
      (∀ a b, Edge g1 a b → Edge g a b) ∧ (∀ n, hasKey g1 n = hasKey g n) := by
  have hfree : r.owner = "" ∧ r.sem.count = 1 := ⟨ho, hc⟩
  rcases acquire_cases pl r g A with ⟨_, he⟩ | ⟨h0, _, _⟩ | ⟨h0, _, _⟩ | ⟨h0, _, _⟩ |
      ⟨h0, _, _⟩
  · refine ⟨_, _, he, ?_, rfl, ?_, ?_⟩
    · simp [Resource.finishAcquire, hfree.2]
    · intro a b hab
      simp only [Resource.finishAcquire] at hab
      cases hd : r.detector with
      | true =>
        simp only [hd, if_true] at hab
        unfold Edge at hab ⊢
        rw [adj_removeEdge] at hab
        by_cases ha : a = A
        · rw [if_pos ha] at hab
          rw [ha]
          exact (List.mem_filter.mp hab).1
        · rw [if_neg ha] at hab
          exact hab
      | false =>
        simpa [hd] using hab
    · intro n
      simp only [Resource.finishAcquire]
      cases hd : r.detector with
      | true =>
        simp only [if_true]
        exact hasKey_removeEdge g A A n
      | false => simp
  all_goals omega

/-- Witness for C12: `Process_1` takes the fresh printer. -/
theorem acquire_free_witness :
    (1 : Int) = 1 ∧ "" = "" ∧
      ∃ r1 g1, Resource.acquire newestFirst (Resource.new "Printer" true) [] "Process_1" =
          some (AcquireResult.acquired r1 g1) ∧
        r1 = { Resource.new "Printer" true with owner := "Process_1", sem := { count := 0 } } ∧
        g1 = (if (Resource.new "Printer" true).detector = true
          then removeEdge [] "Process_1" "Process_1" else []) ∧
        (∀ a b, Edge g1 a b → Edge [] a b) ∧ (∀ n, hasKey g1 n = hasKey [] n) :=
  ⟨rfl, rfl, acquire_free newestFirst (Resource.new "Printer" true) [] "Process_1" rfl rfl⟩

/-- C13, as amended: for every resource state whose count lies in the range of
`int` below `INT_MAX` and every caller, `release` leaves the owner empty and the
count exactly one greater, whoever the owner was (no ownership check, no cap
at 1). -/
theorem release_spec (r : Resource) (holderId : String)
    (hlo : -2147483648 ≤ r.sem.count) (hhi : r.sem.count < 2147483647) :
    (r.release holderId).owner = "" ∧ (r.release holderId).sem.count = r.sem.count + 1 ∧
      (r.release holderId).name = r.name ∧ (r.release holderId).detector = r.detector :=
  ⟨rfl, wrapInt_of_range _ (by omega) (by omega), rfl, rfl⟩

/-- Witness for C13 as amended: `Process_1` releases a printer owned by `Process_2`
whose count is already 1. -/
theorem release_spec_witness :
    (-2147483648 : Int) ≤ 1 ∧ (1 : Int) < 2147483647 ∧
      (Resource.release
          { name := "Printer", owner := "Process_2", sem := { count := 1 }, detector := true }
          "Process_1").owner = "" ∧
      (Resource.release
          { name := "Printer", owner := "Process_2", sem := { count := 1 }, detector := true }
          "Process_1").sem.count = 1 + 1 :=
  ⟨by decide, by decide,
    (release_spec
      { name := "Printer", owner := "Process_2", sem := { count := 1 }, detector := true }
      "Process_1" (by decide) (by decide)).1,
    (release_spec
      { name := "Printer", owner := "Process_2", sem := { count := 1 }, detector := true }
      "Process_1" (by decide) (by decide)).2.1⟩

/-- C13 fails as stated: at count `INT_MAX` the `++count` of `signal()` overflows,
and `release` leaves the count at `INT_MIN` instead of one greater. -/
theorem release_overflow :
    (Resource.release
        { name := "Printer", owner := "Process_1", sem := { count := 2147483647 },
          detector := true }
        "Process_1").sem.count = -2147483648 ∧
      (Resource.release
        { name := "Printer", owner := "Process_1", sem := { count := 2147483647 },
          detector := true }
        "Process_1").sem.count ≠ 2147483647 + 1 := by
  decide

/-- C14: `tryWait()` always returns; with a positive count it answers true and
takes one unit, otherwise it answers false and leaves the count alone. -/
theorem tryWait_spec (s : Semaphore) :
    (0 < s.count → s.tryWait = (true, { count := s.count - 1 })) ∧
      (s.count ≤ 0 → s.tryWait = (false, s)) := by
  constructor
  · intro h
    simp [Semaphore.tryWait, h]
  · intro h
    have : ¬ s.count > 0 := by omega
    simp [Semaphore.tryWait, this]

/-- Witness for C14: a semaphore of count 1 and one of count 0. -/
theorem tryWait_spec_witness :
    ((0 : Int) < 1 ∧ Semaphore.tryWait { count := 1 } = (true, { count := 0 })) ∧
      ((0 : Int) ≤ 0 ∧ Semaphore.tryWait { count := 0 } = (false, { count := 0 })) :=
  ⟨⟨by decide, (tryWait_spec { count := 1 }).1 (by decide)⟩,
    ⟨le_refl 0, (tryWait_spec { count := 0 }).2 (le_refl 0)⟩⟩

theorem applyOp_nonneg (s s1 : Semaphore) (op : SemOp) (h0 : 0 ≤ s.count)
    (hb : s.count + ([op].count SemOp.signal : Int) ≤ 2147483647)
    (h : s.applyOp op = some s1) :
    0 ≤ s1.count ∧ s1.count ≤ s.count + ([op].count SemOp.signal : Int) := by
  cases op with
  | wait =>
    simp only [Semaphore.applyOp, Semaphore.wait] at h
    by_cases hc : s.count > 0
    · simp only [hc, if_true, Option.some.injEq] at h
      rw [← h]
      show 0 ≤ s.count - 1 ∧ s.count - 1 ≤ s.count + ([SemOp.wait].count SemOp.signal : Int)
      have : ([SemOp.wait].count SemOp.signal : Int) = 0 := by decide
      omega
    · simp [hc] at h
  | signal =>
    simp only [Semaphore.applyOp, Semaphore.signal, Option.some.injEq] at h
    have h1 : ([SemOp.signal].count SemOp.signal : Int) = 1 := by decide
    rw [h1] at hb
    rw [← h, h1]
    show 0 ≤ wrapInt (s.count + 1) ∧ wrapInt (s.count + 1) ≤ s.count + 1
    rw [wrapInt_of_range _ (by omega) (by omega)]
    omega
  | tryWait =>
    simp only [Semaphore.applyOp, Semaphore.tryWait, Option.some.injEq] at h
    have h1 : ([SemOp.tryWait].count SemOp.signal : Int) = 0 := by decide
    by_cases hc : s.count > 0
    · simp only [hc, if_true] at h
      rw [← h]
      show 0 ≤ s.count - 1 ∧ s.count - 1 ≤ s.count + ([SemOp.tryWait].count SemOp.signal : Int)
      omega
    · simp only [hc, if_false] at h
      rw [← h]
      omega

/-- C15, as amended: a semaphore constructed with a value that is not negative
never has a negative count after a sequence of completed `wait()`, `signal()`
and `tryWait()` operations in which the value plus the number of `signal()`
calls stays within `INT_MAX`. -/
theorem semaphore_count_nonneg (value : Int) (ops : List SemOp) (s1 : Semaphore)
    (hv : 0 ≤ value) (hb : value + (ops.count SemOp.signal : Int) ≤ 2147483647)
    (h : (Semaphore.new value).runOps ops = some s1) : 0 ≤ s1.count := by
  have key : ∀ (ops : List SemOp) (s : Semaphore), 0 ≤ s.count →
      s.count + (ops.count SemOp.signal : Int) ≤ 2147483647 →
      s.runOps ops = some s1 → 0 ≤ s1.count := by
    intro ops
    induction ops with
    | nil =>
      intro s h0 _ hrun
      simp only [Semaphore.runOps, Option.some.injEq] at hrun
      rw [← hrun]; exact h0
    | cons op ops ih =>
      intro s h0 hb hrun
      simp only [Semaphore.runOps] at hrun
      have hsplit : ((op :: ops).count SemOp.signal : Int) =
          ([op].count SemOp.signal : Int) + (ops.count SemOp.signal : Int) := by
        have : (op :: ops).count SemOp.signal =
            [op].count SemOp.signal + ops.count SemOp.signal := by
          rw [← List.count_append]; rfl
        omega
      have hnn : (0 : Int) ≤ (ops.count SemOp.signal : Int) := Int.ofNat_nonneg _
      cases hop : s.applyOp op with
      | none => simp [hop] at hrun
      | some s2 =>
        simp only [hop] at hrun
        obtain ⟨h2, h3⟩ := applyOp_nonneg s s2 op h0 (by omega) hop
        exact ih s2 h2 (by omega) hrun
  exact key ops (Semaphore.new value) hv hb h

/-- Witness for C15 as amended: capacity 1, then `tryWait`, `tryWait`, `signal`,
`wait`, `signal`. -/
theorem semaphore_count_nonneg_witness :
    (0 : Int) ≤ 1 ∧
      (Semaphore.new 1).runOps
          [SemOp.tryWait, SemOp.tryWait, SemOp.signal, SemOp.wait, SemOp.signal] =
        some { count := 1 } ∧
      (0 : Int) ≤ 1 :=
  ⟨by decide, by decide,
    semaphore_count_nonneg 1
      [SemOp.tryWait, SemOp.tryWait, SemOp.signal, SemOp.wait, SemOp.signal]
      { count := 1 } (by decide) (by decide) (by decide)⟩

/-- C15 fails as stated: a semaphore constructed with `INT_MAX`, a value that is
not negative, has the negative count `INT_MIN` after one `signal()`. -/
theorem semaphore_count_overflow :
    (0 : Int) ≤ 2147483647 ∧
      (Semaphore.new 2147483647).runOps [SemOp.signal] = some { count := -2147483648 } ∧
      (-2147483648 : Int) < 0 := by
  decide

/-- C16: on a non-empty graph `recoverFromDeadlock()` returns the first key of
the enumeration, whatever the edges are; on the empty graph it returns the
empty string and leaves the graph empty. -/
theorem recover_victim_first :
    (∀ (v : String) (l : List String) (g : Graph),
        (recoverFromDeadlock ((v, l) :: g)).1 = v ∧
        (keys ((v, l) :: g)).head? = some (recoverFromDeadlock ((v, l) :: g)).1) ∧
      recoverFromDeadlock [] = ("", []) :=
  ⟨fun _ _ _ => ⟨rfl, rfl⟩, rfl⟩

/-- C17: `addEdge(from, to)` leaves the list of `from` equal to its previous
list (empty when `from` was no key) followed by `to`, a second call appends
`to` once more, and the list of every other node is unchanged. -/
theorem addEdge_appends (pl : Placement) (g : Graph) (src dst : String) :
    adj (addEdge pl g src dst) src = adj g src ++ [dst] ∧
      (hasKey g src = false → adj (addEdge pl g src dst) src = [dst]) ∧
      adj (addEdge pl (addEdge pl g src dst) src dst) src = adj g src ++ [dst, dst] ∧
      (∀ n, n ≠ src → adj (addEdge pl g src dst) n = adj g n) ∧
      hasKey (addEdge pl g src dst) src = true := by
  have h1 : adj (addEdge pl g src dst) src = adj g src ++ [dst] := by
    rw [adj_addEdge, if_pos rfl]
  refine ⟨h1, fun hk => ?_, ?_, fun n hn => ?_, ?_⟩
  · rw [h1, adj_of_not_hasKey g src hk]
    rfl
  · rw [adj_addEdge, if_pos rfl, h1]
    simp
  · rw [adj_addEdge, if_neg hn]
  · rw [hasKey_addEdge]
    simp

/-- Witness for C17: the edge `Process_1 → Process_2` added to the empty graph. -/
theorem addEdge_appends_witness :
    hasKey [] "Process_1" = false ∧
      adj (addEdge newestFirst [] "Process_1" "Process_2") "Process_1" = ["Process_2"] :=
  ⟨rfl, (addEdge_appends newestFirst [] "Process_1" "Process_2").2.1 rfl⟩

theorem keys_modifyAt (g : Graph) (k : String) (f : List String → List String) :
    keys (modifyAt g k f) = keys g := by
  induction g with
  | nil => rfl
  | cons e g ih =>
    obtain ⟨a, l⟩ := e
    unfold modifyAt keys at ih ⊢
    rw [List.map_cons, List.map_cons, List.map_cons, ih]
    by_cases ha : a = k <;> simp [ha]

theorem modifyAt_modifyAt (g : Graph) (k : String) (f1 f2 : List String → List String) :
    modifyAt (modifyAt g k f1) k f2 = modifyAt g k (fun l => f2 (f1 l)) := by
  induction g with
  | nil => rfl
  | cons e g ih =>
    obtain ⟨a, l⟩ := e
    unfold modifyAt at ih ⊢
    rw [List.map_cons, List.map_cons, List.map_cons, ih]
    by_cases ha : a = k <;> simp [ha]

theorem removeEdge_of_hasKey (g : Graph) (src dst : String) (hk : hasKey g src = true) :
    removeEdge g src dst = modifyAt g src (fun l => l.filter (fun x => x ≠ dst)) := by
  unfold removeEdge
  rw [if_pos hk]

/-- C18: `removeEdge(from, to)` erases every occurrence of `to` from the list
of `from` and keeps the other entries in order, changes no other list, creates
no key, changes nothing at all when `from` is no key, and is idempotent. -/
theorem removeEdge_spec (g : Graph) (src dst : String) :
    adj (removeEdge g src dst) src = (adj g src).filter (fun x => x ≠ dst) ∧
      dst ∉ adj (removeEdge g src dst) src ∧
      (adj (removeEdge g src dst) src).Sublist (adj g src) ∧
      (∀ n, n ≠ src → adj (removeEdge g src dst) n = adj g n) ∧
      keys (removeEdge g src dst) = keys g ∧
      (hasKey g src = false → removeEdge g src dst = g) ∧
      removeEdge (removeEdge g src dst) src dst = removeEdge g src dst := by
  have h1 : adj (removeEdge g src dst) src = (adj g src).filter (fun x => x ≠ dst) := by
    rw [adj_removeEdge, if_pos rfl]
  refine ⟨h1, ?_, ?_, fun n hn => ?_, ?_, fun hk => ?_, ?_⟩
  · rw [h1]
    simp [List.mem_filter]
  · rw [h1]
    exact List.filter_sublist _
  · rw [adj_removeEdge, if_neg hn]
  · unfold removeEdge
    by_cases hk : hasKey g src = true
    · rw [if_pos hk, keys_modifyAt]
    · rw [if_neg hk]
  · unfold removeEdge
    simp [hk]
  · by_cases hk : hasKey g src = true
    · have hk2 : hasKey (removeEdge g src dst) src = true := by
        rw [hasKey_removeEdge]; exact hk
      rw [removeEdge_of_hasKey _ src dst hk2, removeEdge_of_hasKey g src dst hk,
        modifyAt_modifyAt]
      congr 1
      funext l
      rw [List.filter_filter]
      simp
    · have hg : removeEdge g src dst = g := by
        unfold removeEdge
        rw [if_neg hk]
      rw [hg, hg]

/-- Witness for C18: `removeEdge` on a node that is no key of the graph. -/
theorem removeEdge_spec_witness :
    hasKey [("Process_1", ["Process_2"])] "Process_3" = false ∧
      removeEdge [("Process_1", ["Process_2"])] "Process_3" "Process_2" =
        [("Process_1", ["Process_2"])] :=
  ⟨by decide, (removeEdge_spec [("Process_1", ["Process_2"])] "Process_3" "Process_2").2.2.2.2.2.1
    (by decide)⟩

/-! ## The simulation of `main` -/

/-- C19 at its failing input.  Each process takes its first resource;
`Process_1` suspends on the disk, `Process_3` on the printer; `Process_2`
requests the network, the search finds the cycle and the recovery picks
`Process_3`, which sleeps in `wait()` and is not woken; `Process_2` suspends
too.  All three are then blocked on each other and no process can ever move. -/
theorem three_process_deadlock_unresolved :
    mainSystem.run newestFirst [0, 1, 2, 0, 2] =
      some {
        resources :=
          [{ name := "Printer", owner := "Process_1", sem := { count := 0 }, detector := true },
           { name := "disk", owner := "Process_2", sem := { count := 0 }, detector := true },
           { name := "Network", owner := "Process_3", sem := { count := 0 }, detector := true }],
        detector := [("Process_3", ["Process_1"]), ("Process_2", []),
          ("Process_1", ["Process_2"])],
        processes :=
          [{ pid := 1, neededResources := [0, 1], pc := 1, suspended := true },
           { pid := 2, neededResources := [1, 2], pc := 1, suspended := false },
           { pid := 3, neededResources := [2, 0], pc := 1, suspended := true }] } ∧
    detectedDeadlock newestFirst
        (addEdge newestFirst
          [("Process_3", ["Process_1"]), ("Process_2", []), ("Process_1", ["Process_2"])]
          "Process_2" "Process_3") =
      some (true, [("Process_3", ["Process_1"]), ("Process_2", ["Process_3"]),
        ("Process_1", ["Process_2"])]) ∧
    (recoverFromDeadlock [("Process_3", ["Process_1"]), ("Process_2", ["Process_3"]),
        ("Process_1", ["Process_2"])]).1 = "Process_3" ∧
    mainSystem.run newestFirst [0, 1, 2, 0, 2, 1] =
      some {
        resources :=
          [{ name := "Printer", owner := "Process_1", sem := { count := 0 }, detector := true },
           { name := "disk", owner := "Process_2", sem := { count := 0 }, detector := true },
           { name := "Network", owner := "Process_3", sem := { count := 0 }, detector := true }],
        detector := [("Process_2", []), ("Process_1", ["Process_2"])],
        processes :=
          [{ pid := 1, neededResources := [0, 1], pc := 1, suspended := true },
           { pid := 2, neededResources := [1, 2], pc := 1, suspended := true },
           { pid := 3, neededResources := [2, 0], pc := 1, suspended := true }] } ∧
    System.deadlocked
      {
        resources :=
          [{ name := "Printer", owner := "Process_1", sem := { count := 0 }, detector := true },
           { name := "disk", owner := "Process_2", sem := { count := 0 }, detector := true },
           { name := "Network", owner := "Process_3", sem := { count := 0 }, detector := true }],
        detector := [("Process_2", []), ("Process_1", ["Process_2"])],
        processes :=
          [{ pid := 1, neededResources := [0, 1], pc := 1, suspended := true },
           { pid := 2, neededResources := [1, 2], pc := 1, suspended := true },
           { pid := 3, neededResources := [2, 0], pc := 1, suspended := true }] } = true ∧
    ∀ k, System.step newestFirst
      {
        resources :=
          [{ name := "Printer", owner := "Process_1", sem := { count := 0 }, detector := true },
           { name := "disk", owner := "Process_2", sem := { count := 0 }, detector := true },
           { name := "Network", owner := "Process_3", sem := { count := 0 }, detector := true }],
        detector := [("Process_2", []), ("Process_1", ["Process_2"])],
        processes :=
          [{ pid := 1, neededResources := [0, 1], pc := 1, suspended := true },
           { pid := 2, neededResources := [1, 2], pc := 1, suspended := true },
           { pid := 3, neededResources := [2, 0], pc := 1, suspended := true }] } k = none := by
  refine ⟨by decide, by decide, by decide, by decide, by decide, fun k => ?_⟩
  rcases k with _ | _ | _ | k
  · decide
  · decide
  · decide
  · rfl

theorem nextCall_acquire_lt (p : Process) (ri : Nat)
    (h : p.nextCall = some (Call.acquire ri)) : p.pc < p.neededResources.length := by
  unfold Process.nextCall Process.script at h
  by_contra hlt
  have hge : p.neededResources.length ≤ p.pc := not_lt.mp hlt
  have hlen : (p.neededResources.map Call.acquire).length ≤ p.pc := by
    rw [List.length_map]; exact hge
  rw [List.get?_eq_getElem?, List.getElem?_append_right hlen, List.getElem?_map] at h
  cases hx : p.neededResources[p.pc - (p.neededResources.map Call.acquire).length]? with
  | none => simp [hx] at h
  | some x => simp [hx] at h

/-- C20, as amended: when an `acquire` call of `run` ends in
self-victimization, `run` does not return: the call counts as completed like
any other, the process is not finished, and the calls it still makes are the
remaining acquires of its plan followed by a release of every resource of the
plan. -/
theorem run_ignores_eviction (pl : Placement) (sys : System) (k : Nat) (p : Process)
    (ri : Nat) (r r1 : Resource) (g1 : Graph)
    (hp : sys.processes.get? k = some p) (hs : p.suspended = false)
    (hc : p.nextCall = some (Call.acquire ri)) (hr : sys.resources.get? ri = some r)
    (hev : r.acquire pl sys.detector p.threadName = some (AcquireResult.evicted r1 g1)) :
    sys.step pl k =
        some { resources := sys.resources.set ri r1, detector := g1,
               processes := sys.processes.set k { p with pc := p.pc + 1 } } ∧
      Process.finished { p with pc := p.pc + 1 } = false ∧
      (Process.script { p with pc := p.pc + 1 }).drop (p.pc + 1) =
        (p.neededResources.drop (p.pc + 1)).map Call.acquire ++
          p.neededResources.map Call.release := by
  have hlt := nextCall_acquire_lt p ri hc
  refine ⟨?_, ?_, ?_⟩
  · unfold System.step
    rw [hp]
    simp only [hc, hr, hs, hev, Bool.false_eq_true, if_false]
  · simp only [Process.finished, Process.nextCall, Process.script]
    have hlen : p.pc + 1 <
        (p.neededResources.map Call.acquire ++ p.neededResources.map Call.release).length := by
      rw [List.length_append, List.length_map, List.length_map]
      omega
    rw [List.get?_eq_getElem?, List.getElem?_eq_getElem hlen]
    rfl
  · simp only [Process.script]
    rw [List.drop_append_of_le_length (by rw [List.length_map]; omega), List.map_drop]

/-- Witness for C20 as amended: the eviction of `Process_3` in the simulation,
after the schedule 1, 2, 3, 1, 2. -/
theorem run_ignores_eviction_witness :
    Resource.acquire newestFirst
        { name := "Printer", owner := "Process_1", sem := { count := 0 }, detector := true }
        [("Process_3", []), ("Process_2", ["Process_3"]), ("Process_1", ["Process_2"])]
        "Process_3" =
      some (AcquireResult.evicted
        { name := "Printer", owner := "Process_1", sem := { count := 0 }, detector := true }
        [("Process_2", []), ("Process_1", ["Process_2"])]) ∧
    System.step newestFirst
      {
        resources :=
          [{ name := "Printer", owner := "Process_1", sem := { count := 0 }, detector := true },
           { name := "disk", owner := "Process_2", sem := { count := 0 }, detector := true },
           { name := "Network", owner := "Process_3", sem := { count := 0 }, detector := true }],
        detector := [("Process_3", []), ("Process_2", ["Process_3"]),
          ("Process_1", ["Process_2"])],
        processes :=
          [{ pid := 1, neededResources := [0, 1], pc := 1, suspended := true },
           { pid := 2, neededResources := [1, 2], pc := 1, suspended := true },
           { pid := 3, neededResources := [2, 0], pc := 1, suspended := false }] } 2 =
      some {
        resources :=
          [{ name := "Printer", owner := "Process_1", sem := { count := 0 }, detector := true },
           { name := "disk", owner := "Process_2", sem := { count := 0 }, detector := true },
           { name := "Network", owner := "Process_3", sem := { count := 0 }, detector := true }],
        detector := [("Process_2", []), ("Process_1", ["Process_2"])],
        processes :=
          [{ pid := 1, neededResources := [0, 1], pc := 1, suspended := true },
           { pid := 2, neededResources := [1, 2], pc := 1, suspended := true },
           { pid := 3, neededResources := [2, 0], pc := 2, suspended := false }] } :=
  have hev : Resource.acquire newestFirst
        { name := "Printer", owner := "Process_1", sem := { count := 0 }, detector := true }
        [("Process_3", []), ("Process_2", ["Process_3"]), ("Process_1", ["Process_2"])]
        "Process_3" =
      some (AcquireResult.evicted
        { name := "Printer", owner := "Process_1", sem := { count := 0 }, detector := true }
        [("Process_2", []), ("Process_1", ["Process_2"])]) := by decide
  ⟨hev, (run_ignores_eviction newestFirst
      {
        resources :=
          [{ name := "Printer", owner := "Process_1", sem := { count := 0 }, detector := true },
           { name := "disk", owner := "Process_2", sem := { count := 0 }, detector := true },
           { name := "Network", owner := "Process_3", sem := { count := 0 }, detector := true }],
        detector := [("Process_3", []), ("Process_2", ["Process_3"]),
          ("Process_1", ["Process_2"])],
        processes :=
          [{ pid := 1, neededResources := [0, 1], pc := 1, suspended := true },
           { pid := 2, neededResources := [1, 2], pc := 1, suspended := true },
           { pid := 3, neededResources := [2, 0], pc := 1, suspended := false }] } 2
      { pid := 3, neededResources := [2, 0], pc := 1, suspended := false } 0
      { name := "Printer", owner := "Process_1", sem := { count := 0 }, detector := true }
      { name := "Printer", owner := "Process_1", sem := { count := 0 }, detector := true }
      [("Process_2", []), ("Process_1", ["Process_2"])] rfl rfl rfl rfl hev).1⟩

/-- C20 fails as stated: in the simulation `Process_3` is evicted when it
requests the printer held by `Process_1`; it then makes two more calls, which
release the network and the printer it was never granted, and finishes holding
nothing. -/
theorem run_after_eviction_releases :
    mainSystem.run newestFirst [0, 1, 2, 0, 1] =
      some {
        resources :=
          [{ name := "Printer", owner := "Process_1", sem := { count := 0 }, detector := true },
           { name := "disk", owner := "Process_2", sem := { count := 0 }, detector := true },
           { name := "Network", owner := "Process_3", sem := { count := 0 }, detector := true }],
        detector := [("Process_3", []), ("Process_2", ["Process_3"]),
          ("Process_1", ["Process_2"])],
        processes :=
          [{ pid := 1, neededResources := [0, 1], pc := 1, suspended := true },
           { pid := 2, neededResources := [1, 2], pc := 1, suspended := true },
           { pid := 3, neededResources := [2, 0], pc := 1, suspended := false }] } ∧
    Resource.acquire newestFirst
        { name := "Printer", owner := "Process_1", sem := { count := 0 }, detector := true }
        [("Process_3", []), ("Process_2", ["Process_3"]), ("Process_1", ["Process_2"])]
        "Process_3" =
      some (AcquireResult.evicted
        { name := "Printer", owner := "Process_1", sem := { count := 0 }, detector := true }
        [("Process_2", []), ("Process_1", ["Process_2"])]) ∧
    mainSystem.run newestFirst [0, 1, 2, 0, 1, 2] =
      some {
        resources :=
          [{ name := "Printer", owner := "Process_1", sem := { count := 0 }, detector := true },
           { name := "disk", owner := "Process_2", sem := { count := 0 }, detector := true },
           { name := "Network", owner := "Process_3", sem := { count := 0 }, detector := true }],
        detector := [("Process_2", []), ("Process_1", ["Process_2"])],
        processes :=
          [{ pid := 1, neededResources := [0, 1], pc := 1, suspended := true },
           { pid := 2, neededResources := [1, 2], pc := 1, suspended := true },
           { pid := 3, neededResources := [2, 0], pc := 2, suspended := false }] } ∧
    mainSystem.run newestFirst [0, 1, 2, 0, 1, 2, 2, 2] =
      some {
        resources :=
          [{ name := "Printer", owner := "", sem := { count := 1 }, detector := true },
           { name := "disk", owner := "Process_2", sem := { count := 0 }, detector := true },
           { name := "Network", owner := "", sem := { count := 1 }, detector := true }],
        detector := [("Process_2", []), ("Process_1", ["Process_2"])],
        processes :=
          [{ pid := 1, neededResources := [0, 1], pc := 1, suspended := true },
           { pid := 2, neededResources := [1, 2], pc := 1, suspended := true },
           { pid := 3, neededResources := [2, 0], pc := 4, suspended := false }] } := by
  decide

/-! ## Detection under edits of the graph -/

/-- C29 at its failing input: `detectedDeadlock()` answers false on `waitGraph13`
(the search is cut short by the rehash, although the graph has a cycle), and
after `removeEdge("Process_3", "Process_1")`, an edge on no cycle, it answers
true. -/
theorem removal_changes_answer :
    detectedDeadlock rehashAt13 waitGraph13 = some (false, waitGraph14) ∧
      Edge waitGraph14 "Process_3" "Process_1" ∧
      (detectedDeadlock rehashAt13
          (removeEdge waitGraph14 "Process_3" "Process_1")).map Prod.fst =
        some true := by
  decide

theorem keys_erase (g : Graph) (v : String) :
    keys ((g.filter (fun e => e.1 ≠ v)).map
        (fun e => (e.1, e.2.filter (fun x => x ≠ v)))) =
      (keys g).filter (fun k => k ≠ v) := by
  induction g with
  | nil => rfl
  | cons e g ih =>
    obtain ⟨a, l⟩ := e
    unfold keys at ih ⊢
    by_cases ha : a = v
    · simp only [List.filter_cons, List.map_cons, ha, ne_eq, not_true_eq_false, decide_False,
        Bool.false_eq_true, if_false]
      exact ih
    · simp only [List.filter_cons, List.map_cons, ha, ne_eq, not_false_eq_true, decide_True,
        if_true]
      rw [ih]

theorem keys_recover (g : Graph) :
    keys (recoverFromDeadlock g).2 =
      (keys g).filter (fun k => k ≠ (recoverFromDeadlock g).1) := by
  cases g with
  | nil => rfl
  | cons e g =>
    obtain ⟨v, l⟩ := e
    rw [recover_cons]
    exact keys_erase _ v

/-- C30: `recoverFromDeadlock()` keeps every key other than the victim, in
the same enumeration order; the list of such a key is its previous list with
the occurrences of the victim deleted and the other entries in their order,
so every edge that does not involve the victim survives. -/
theorem recover_frame (g : Graph) :
    keys (recoverFromDeadlock g).2 =
        (keys g).filter (fun k => k ≠ (recoverFromDeadlock g).1) ∧
      ∀ n, n ≠ (recoverFromDeadlock g).1 →
        hasKey (recoverFromDeadlock g).2 n = hasKey g n ∧
        adj (recoverFromDeadlock g).2 n =
          (adj g n).filter (fun x => x ≠ (recoverFromDeadlock g).1) ∧
        (adj (recoverFromDeadlock g).2 n).Sublist (adj g n) ∧
        ∀ b, b ≠ (recoverFromDeadlock g).1 →
          (Edge (recoverFromDeadlock g).2 n b ↔ Edge g n b) := by
  refine ⟨keys_recover g, fun n hn => ?_⟩
  have hadj : adj (recoverFromDeadlock g).2 n =
      (adj g n).filter (fun x => x ≠ (recoverFromDeadlock g).1) := by
    rw [adj_recover, if_neg hn]
  refine ⟨?_, hadj, ?_, fun b hb => ?_⟩
  · rw [hasKey_recover]
    simp [hn]
  · rw [hadj]
    exact List.filter_sublist _
  · unfold Edge
    rw [hadj, List.mem_filter]
    simp [hb]

/-- Witness for C30: `Process_2` is not the victim `Process_3`; its list
`[Process_3, Process_1, Process_3]` becomes `[Process_1]`. -/
theorem recover_frame_witness :
    "Process_2" ≠ (recoverFromDeadlock
        [("Process_3", ["Process_1"]), ("Process_2", ["Process_3", "Process_1", "Process_3"])]).1 ∧
      adj (recoverFromDeadlock
        [("Process_3", ["Process_1"]), ("Process_2", ["Process_3", "Process_1", "Process_3"])]).2
        "Process_2" =
        (adj [("Process_3", ["Process_1"]),
            ("Process_2", ["Process_3", "Process_1", "Process_3"])] "Process_2").filter
          (fun x => x ≠ (recoverFromDeadlock
            [("Process_3", ["Process_1"]),
              ("Process_2", ["Process_3", "Process_1", "Process_3"])]).1) :=
  ⟨by decide,
    ((recover_frame
      [("Process_3", ["Process_1"]), ("Process_2", ["Process_3", "Process_1", "Process_3"])]).2
      "Process_2" (by decide)).2.1⟩

/-! ## Re-acquiring, and disciplined use -/

/-- C28, as amended: when a detector is attached, the recorded owner is the
non-empty caller `A` and the semaphore is taken, `acquire(A)` does not grant;
it adds the self-edge `A → A`, and when every target of an edge of the graph
is then a key of the map, the cycle search answers true in that call. -/
theorem reacquire_detected (pl : Placement) (r : Resource) (g : Graph) (A : String)
    (hd : r.detector = true) (ho : r.owner = A) (hA : A ≠ "") (hbusy : r.sem.count ≤ 0) :
    (∀ r1 g1, r.acquire pl g A ≠ some (AcquireResult.acquired r1 g1)) ∧
      Edge (addEdge pl g A r.owner) A A ∧
      ((∀ a x, Edge (addEdge pl g A r.owner) a x →
          hasKey (addEdge pl g A r.owner) x = true) →
        ∃ g2, detectedDeadlock pl (addEdge pl g A r.owner) = some (true, g2) ∧
          (r.acquire pl g A = some (AcquireResult.evicted r
              (removeEdge (recoverFromDeadlock g2).2 A r.owner)) ∨
            r.acquire pl g A = some (AcquireResult.waiting r (recoverFromDeadlock g2).2))) := by
  have hedge : Edge (addEdge pl g A r.owner) A A := by
    unfold Edge
    rw [adj_addEdge, if_pos rfl, ho]
    simp
  have hcyc : HasCycle (addEdge pl g A r.owner) := ⟨A, Relation.TransGen.single hedge⟩
  have hown : r.owner ≠ "" := by rw [ho]; exact hA
  have hnot : ∀ r1 g1, r.acquire pl g A ≠ some (AcquireResult.acquired r1 g1) := by
    intro r1 g1 hacq
    rcases acquire_cases pl r g A with ⟨hc, _⟩ | ⟨_, _, he⟩ | ⟨_, _, g2, _, he⟩ |
        ⟨_, _, g2, _, _, he⟩ | ⟨_, _, g2, _, _, he⟩
    · omega
    all_goals (rw [he] at hacq; cases hacq)
  refine ⟨hnot, hedge, fun hall => ?_⟩
  obtain ⟨b, g3, hres, _, hcompl, _⟩ := detectedDeadlock_spec pl (addEdge pl g A r.owner)
  have hb : b = true := hcompl hall hcyc
  subst hb
  rcases acquire_cases pl r g A with ⟨hc, _⟩ | ⟨_, hnd, _⟩ | ⟨_, _, g2, hdet, _⟩ |
      ⟨_, _, g2, hdet, _, he⟩ | ⟨_, _, g2, hdet, _, he⟩
  · omega
  · exact absurd ⟨hd, hown⟩ hnd
  · have h := hres.symm.trans hdet
    simp at h
  · exact ⟨g2, hdet, Or.inr he⟩
  · exact ⟨g2, hdet, Or.inl he⟩

/-- Witness for C28 as amended: `Process_1` requests the printer it holds; the
graph is then the single entry of `Process_1`, whose only edge target is a
key, and the search answers true. -/
theorem reacquire_detected_witness :
    true = true ∧ "Process_1" = "Process_1" ∧ "Process_1" ≠ "" ∧ (0 : Int) ≤ 0 ∧
      Edge (addEdge newestFirst [] "Process_1" "Process_1") "Process_1" "Process_1" ∧
      ∃ g2, detectedDeadlock newestFirst (addEdge newestFirst [] "Process_1" "Process_1") =
        some (true, g2) :=
  have hall : ∀ a x, Edge (addEdge newestFirst [] "Process_1" "Process_1") a x →
      hasKey (addEdge newestFirst [] "Process_1" "Process_1") x = true := by
    intro a x h
    have h1 : Edge [("Process_1", ["Process_1"])] a x := h
    show hasKey [("Process_1", ["Process_1"])] x = true
    simp only [Edge, adj_cons, adj_nil] at h1
    split_ifs at h1 with ha
    · simp only [List.mem_singleton] at h1
      rw [h1]; decide
    · simp at h1
  ⟨rfl, rfl, by decide, le_refl 0,
    (reacquire_detected newestFirst
      { name := "Printer", owner := "Process_1", sem := { count := 0 }, detector := true }
      [] "Process_1" rfl rfl (by decide) (le_refl 0)).2.1,
    (((reacquire_detected newestFirst
      { name := "Printer", owner := "Process_1", sem := { count := 0 }, detector := true }
      [] "Process_1" rfl rfl (by decide) (le_refl 0)).2.2 hall).imp (fun _ h => h.1))⟩

/-- C28 fails as stated: after a `release` on the free printer and an
`acquire` by `Process_1` the owner is `Process_1` and the count is 1, and a
second `acquire` by `Process_1` is granted at once, with no edge added. -/
theorem reacquire_granted :
    stepOp newestFirst (Resource.new "Printer" true, [])
        (ResourceOp.release "Process_1") =
      some ({ name := "Printer", owner := "", sem := { count := 2 }, detector := true },
        []) ∧
    stepOp newestFirst
        ({ name := "Printer", owner := "", sem := { count := 2 }, detector := true }, [])
        (ResourceOp.acquire "Process_1") =
      some
        ({ name := "Printer", owner := "Process_1", sem := { count := 1 }, detector := true },
          []) ∧
    Resource.acquire newestFirst
        { name := "Printer", owner := "Process_1", sem := { count := 1 }, detector := true }
        [] "Process_1" =
      some (AcquireResult.acquired
        { name := "Printer", owner := "Process_1", sem := { count := 0 }, detector := true }
        []) := by
  decide

/-- C25: under disciplined use (every `release(h)` made while `h` is the
recorded owner) every state at an operation boundary has count 0 or 1, and
count 0 exactly when an owner is recorded. -/
theorem disciplined_invariant (pl : Placement) (name : String) (detector : Bool)
    (st : Resource × Graph) (h : Disciplined pl name detector st) :
    (st.1.sem.count = 0 ∨ st.1.sem.count = 1) ∧ (st.1.sem.count = 0 ↔ st.1.owner ≠ "") := by
  induction h with
  | init g => simp [Resource.new]
  | shared st g _ ih => exact ih
  | step st st1 op _ hid hrel hstep ih =>
    obtain ⟨hrange, hiff⟩ := ih
    cases op with
    | acquire i =>
      simp only [stepOp, Option.map_eq_some'] at hstep
      obtain ⟨res, hres, hst⟩ := hstep
      have hi : i ≠ "" := hid
      rcases acquire_resource pl st.1 st.2 i res hres with ⟨hc, he⟩ | ⟨_, he⟩
      · rw [← hst, he]
        have h1 : st.1.sem.count = 1 := by omega
        simp only [h1]
        exact ⟨Or.inl (by norm_num), ⟨fun _ => hi, fun _ => by norm_num⟩⟩
      · rw [← hst, he]
        exact ⟨hrange, hiff⟩
    | resume i =>
      obtain ⟨r1, g1⟩ := st1
      have hi : i ≠ "" := hid
      obtain ⟨hc, he, _⟩ := acquireResume_spec st.1 st.2 i r1 g1 hstep
      have h1 : st.1.sem.count = 1 := by omega
      simp only [he, h1]
      exact ⟨Or.inl (by norm_num), ⟨fun _ => hi, fun _ => by norm_num⟩⟩
    | release i =>
      simp only [stepOp, Option.some.injEq] at hstep
      rw [← hstep]
      have hi : i ≠ "" := hid
      have hown : st.1.owner = i := hrel i rfl
      have h0 : st.1.sem.count = 0 := hiff.mpr (by rw [hown]; exact hi)
      have hw : wrapInt (0 + 1) = 1 := by decide
      simp only [Resource.release, Semaphore.signal, h0, hw]
      exact ⟨Or.inr (by norm_num), ⟨fun h => absurd h (by norm_num), fun h => absurd rfl h⟩⟩

/-- Witness for C25: `Process_1` acquires the fresh printer and releases it. -/
theorem disciplined_invariant_witness :
    Disciplined newestFirst "Printer" true (Resource.new "Printer" true, []) ∧
      ((1 : Int) = 0 ∨ (1 : Int) = 1) ∧ ((1 : Int) = 0 ↔ "" ≠ "") :=
  have h1 : Disciplined newestFirst "Printer" true
      ({ name := "Printer", owner := "Process_1", sem := { count := 0 }, detector := true },
        []) :=
    Disciplined.step (Resource.new "Printer" true, []) _ (ResourceOp.acquire "Process_1")
      (Disciplined.init []) (by decide) (by intro h hh; cases hh) (by decide)
  have h2 : Disciplined newestFirst "Printer" true (Resource.new "Printer" true, []) :=
    Disciplined.step _ _ (ResourceOp.release "Process_1") h1 (by decide)
      (by intro h hh; cases hh; rfl) (by decide)
  ⟨h2, disciplined_invariant newestFirst "Printer" true _ h2⟩

/-! ## What the search does to the map -/

theorem hasKey_of_subperm (g g1 : Graph) (h : g.Subperm g1) (k : String)
    (hk : hasKey g k = true) : hasKey g1 k = true := by
  rw [hasKey_iff_mem_keys] at hk ⊢
  obtain ⟨e, he, hfst⟩ := List.mem_map.mp hk
  exact List.mem_map.mpr ⟨e, h.subset he, hfst⟩

/-- The access `waitForGraph[k]` keeps every entry, possibly at another place of
the enumeration, and adds at most the entry `(k, [])`, for a `k` that was no
key. -/
theorem touch_extends (pl : Placement) (g : Graph) (k : String) :
    g.Subperm (touch pl g k) ∧
      ∀ e ∈ touch pl g k, e ∈ g ∨ (e.2 = [] ∧ hasKey g e.1 = false) := by
  unfold touch
  by_cases h : hasKey g k = true
  · simp only [h, if_true]
    exact ⟨List.Subperm.refl _, fun e he => Or.inl he⟩
  · have h1 : hasKey g k = false := by simpa using h
    simp only [h1, Bool.false_eq_true, if_false]
    have hfresh : g.Subperm ((k, []) :: g) ∧
        ∀ e ∈ (k, []) :: g, e ∈ g ∨ (e.2 = [] ∧ hasKey g e.1 = false) := by
      refine ⟨(List.sublist_cons_self _ _).subperm, fun e he => ?_⟩
      rcases List.mem_cons.mp he with he | he
      · right; rw [he]; exact ⟨rfl, h1⟩
      · exact Or.inl he
    by_cases hr : rearranges (pl k g) ((k, []) :: g) = true
    · simp only [hr, if_true]
      have hp := rearranges_perm _ _ hr
      exact ⟨hfresh.1.trans hp.symm.subperm, fun e he => hfresh.2 e (hp.subset he)⟩
    · simp only [hr, if_false]
      exact hfresh

/-- C27, as amended: `detectedDeadlock()` changes no adjacency list; every entry
of the map is kept, though not necessarily at its place in the enumeration,
and every entry it adds has an empty list under a node that was no key and is
the target of an edge. -/
theorem detectedDeadlock_frame (pl : Placement) (g : Graph) (b : Bool) (g1 : Graph)
    (h : detectedDeadlock pl g = some (b, g1)) :
    (∀ n, adj g1 n = adj g n) ∧ g.Subperm g1 ∧
      ∀ e ∈ g1, e ∈ g ∨ (e.2 = [] ∧ hasKey g e.1 = false ∧ ∃ a, Edge g a e.1) := by
  have hadj : ∀ n, adj g1 n = adj g n := by
    obtain ⟨b0, g2, hres, _, _, hadj⟩ := detectedDeadlock_spec pl g
    have hb := hres.symm.trans h
    simp only [Option.some.injEq, Prod.mk.injEq] at hb
    rw [← hb.2]; exact hadj
  obtain ⟨_, hdown⟩ := detectedDeadlock_keys pl g b g1 h
  have hext : g.Subperm g1 ∧ ∀ e ∈ g1, e ∈ g ∨ (e.2 = [] ∧ hasKey g e.1 = false) := by
    simp only [detectedDeadlock, Option.map_eq_some', Prod.mk.injEq] at h
    obtain ⟨⟨b0, s1⟩, hres, _, hg⟩ := h
    simp only at hg
    subst hg
    exact detectWalk_rel pl
      (fun a c => a.Subperm c ∧ ∀ e ∈ c, e ∈ a ∨ (e.2 = [] ∧ hasKey a e.1 = false))
      (fun a => ⟨List.Subperm.refl _, fun e he => Or.inl he⟩)
      (fun a c d hac hcd => ⟨hac.1.trans hcd.1, fun e he => by
        rcases hcd.2 e he with h1 | ⟨h1, h2⟩
        · exact hac.2 e h1
        · right
          refine ⟨h1, ?_⟩
          cases hk : hasKey a e.1 with
          | false => rfl
          | true =>
            have := hasKey_of_subperm a c hac.1 e.1 hk
            rw [h2] at this
            exact absurd this (by decide)⟩)
      (touch_extends pl) _ _ (keys g) _ b0 s1 hres
  refine ⟨hadj, hext.1, fun e he => ?_⟩
  rcases hext.2 e he with h1 | ⟨h1, h2⟩
  · exact Or.inl h1
  · right
    refine ⟨h1, h2, ?_⟩
    have hk1 : hasKey g1 e.1 = true := by
      rw [hasKey_iff_mem_keys]
      exact List.mem_map_of_mem Prod.fst he
    rcases hdown e.1 hk1 with h3 | h3
    · rw [h2] at h3
      exact absurd h3 (by decide)
    · exact h3

/-- Witness for C27 as amended: the search creates the key `Process_2`, which with
the newest key first is then the victim `recoverFromDeadlock()` would pick. -/
theorem detectedDeadlock_frame_witness :
    detectedDeadlock newestFirst [("Process_1", ["Process_2"])] =
      some (false, [("Process_2", []), ("Process_1", ["Process_2"])]) ∧
    (recoverFromDeadlock [("Process_2", []), ("Process_1", ["Process_2"])]).1 = "Process_2" ∧
    List.Subperm [("Process_1", ["Process_2"])]
      [("Process_2", []), ("Process_1", ["Process_2"])] :=
  have h : detectedDeadlock newestFirst [("Process_1", ["Process_2"])] =
      some (false, [("Process_2", []), ("Process_1", ["Process_2"])]) := by decide
  ⟨h, rfl, (detectedDeadlock_frame newestFirst _ _ _ h).2.1⟩

/-- C27 fails as stated: on `waitGraph13` the call adds the key `Process_14`, and
that is not the only change: the table rehashes, the keys that were there are
enumerated in another order, and `Process_13`, first before the call, is last
after it. -/
theorem detectedDeadlock_reorders :
    detectedDeadlock rehashAt13 waitGraph13 = some (false, waitGraph14) ∧
      (keys waitGraph14).filter (fun k => k ≠ "Process_14") ≠ keys waitGraph13 ∧
      (keys waitGraph13).head? = some "Process_13" ∧
      (keys waitGraph14).getLast? = some "Process_13" := by
  decide

/-! ## Termination and the number of calls -/

theorem dfsLoop_calls (g : Graph) (call : String → DfsState → Option (Bool × DfsState))
    (count : String → DfsState → Nat)
    (hadj : ∀ node s b s1, call node s = some (b, s1) → ∀ n, adj s1.graph n = adj s.graph n)
    (hcall : ∀ node s b s1, call node s = some (b, s1) → node ∉ s.visited →
      s.visited.Nodup → (∀ x ∈ s.visited, x ∈ nodes g) → node ∈ nodes g →
      (∀ n, adj s.graph n = adj g n) →
      s1.visited.Nodup ∧ (∀ x ∈ s1.visited, x ∈ nodes g) ∧
        s1.visited.length = s.visited.length + count node s) :
    ∀ (nbrs : List String) (s : DfsState) (b : Bool) (s1 : DfsState),
      dfsLoop call nbrs s = some (b, s1) → s.visited.Nodup →
      (∀ x ∈ s.visited, x ∈ nodes g) → (∀ nb ∈ nbrs, nb ∈ nodes g) →
      (∀ n, adj s.graph n = adj g n) →
      s1.visited.Nodup ∧ (∀ x ∈ s1.visited, x ∈ nodes g) ∧
        s1.visited.length = s.visited.length + dfsLoopCalls call count nbrs s := by
  intro nbrs
  induction nbrs with
  | nil =>
    intro s b s1 h hnd hsub _ _
    simp only [dfsLoop, Option.some.injEq, Prod.mk.injEq] at h
    rw [← h.2]
    exact ⟨hnd, hsub, by simp [dfsLoopCalls]⟩
  | cons nb rest ih =>
    intro s b s1 h hnd hsub hnb hg
    have hrest : ∀ x ∈ rest, x ∈ nodes g := fun x hx => hnb x (List.mem_cons_of_mem _ hx)
    by_cases h1 : nb ∈ s.recStack
    · simp only [dfsLoop, h1, if_true, Option.some.injEq, Prod.mk.injEq] at h
      rw [← h.2]
      exact ⟨hnd, hsub, by simp [dfsLoopCalls, h1]⟩
    · by_cases h2 : nb ∈ s.visited
      · simp only [dfsLoop, h1, h2, if_false, not_true_eq_false] at h
        have := ih s b s1 h hnd hsub hrest hg
        simpa [dfsLoopCalls, h1, h2] using this
      · simp only [dfsLoop, h1, h2, if_false, not_false_eq_true, if_true] at h
        cases hc : call nb s with
        | none => simp [hc] at h
        | some r =>
          obtain ⟨b0, s0⟩ := r
          obtain ⟨hnd0, hsub0, hlen0⟩ :=
            hcall nb s b0 s0 hc h2 hnd hsub (hnb nb (List.mem_cons_self _ _)) hg
          cases b0 with
          | true =>
            simp only [hc, Option.some.injEq, Prod.mk.injEq] at h
            rw [← h.2]
            refine ⟨hnd0, hsub0, ?_⟩
            simp [dfsLoopCalls, h1, h2, hc, hlen0]
          | false =>
            simp only [hc] at h
            have hg0 : ∀ n, adj s0.graph n = adj g n := fun n => by
              rw [hadj nb s false s0 hc n]; exact hg n
            obtain ⟨hnd1, hsub1, hlen1⟩ := ih s0 b s1 h hnd0 hsub0 hrest hg0
            refine ⟨hnd1, hsub1, ?_⟩
            simp only [dfsLoopCalls, h1, h2, if_false, not_false_eq_true, if_true, hc]
            omega

theorem dfs_calls (pl : Placement) (g : Graph) :
    ∀ (f : Nat) (node : String) (s : DfsState) (b : Bool) (s1 : DfsState),
      dfs pl f node s = some (b, s1) → node ∉ s.visited →
      s.visited.Nodup → (∀ x ∈ s.visited, x ∈ nodes g) → node ∈ nodes g →
      (∀ n, adj s.graph n = adj g n) →
      s1.visited.Nodup ∧ (∀ x ∈ s1.visited, x ∈ nodes g) ∧
        s1.visited.length = s.visited.length + dfsCalls pl f node s := by
  intro f
  induction f with
  | zero => intro node s b s1 h; simp [dfs] at h
  | succ f ih =>
    intro node s b s1 h hv hnd hsub hn hg
    rw [dfs_succ] at h
    cases hl : dfsLoop (dfs pl f) (adj (touch pl s.graph node) node)
        { visited := s.visited.insert node
          recStack := s.recStack.insert node
          graph := touch pl s.graph node } with
    | none => simp [hl] at h
    | some r =>
      obtain ⟨b0, s0⟩ := r
      have hins : s.visited.insert node = node :: s.visited := List.insert_of_not_mem hv
      have hnd0 : (s.visited.insert node).Nodup := by
        rw [hins]; exact List.nodup_cons.mpr ⟨hv, hnd⟩
      have hsub0 : ∀ x ∈ s.visited.insert node, x ∈ nodes g := by
        intro x hx
        rcases List.mem_insert_iff.mp hx with hx | hx
        · rw [hx]; exact hn
        · exact hsub x hx
      have hnb : ∀ nb ∈ adj (touch pl s.graph node) node, nb ∈ nodes g := by
        intro nb hnb
        rw [adj_touch, hg] at hnb
        exact mem_nodes_of_mem_adj g node nb hnb
      have hg0 : ∀ n, adj (touch pl s.graph node) n = adj g n := fun n => by
        rw [adj_touch]; exact hg n
      obtain ⟨hnd1, hsub1, hlen1⟩ :=
        dfsLoop_calls g (dfs pl f) (dfsCalls pl f) (dfs_adj pl f) ih _ _ b0 s0 hl
          hnd0 hsub0 hnb hg0
      have hlen : s0.visited.length = s.visited.length + dfsCalls pl (f + 1) node s := by
        have h0 : (s.visited.insert node).length = s.visited.length + 1 := by
          rw [hins]; rfl
        have hlen2 : s0.visited.length = (s.visited.insert node).length +
            dfsLoopCalls (dfs pl f) (dfsCalls pl f) (adj (touch pl s.graph node) node)
              { visited := s.visited.insert node
                recStack := s.recStack.insert node
                graph := touch pl s.graph node } := hlen1
        simp only [dfsCalls]
        omega
      cases b0 with
      | true =>
        simp only [hl, Option.some.injEq, Prod.mk.injEq] at h
        rw [← h.2]
        exact ⟨hnd1, hsub1, hlen⟩
      | false =>
        simp only [hl, Option.some.injEq, Prod.mk.injEq] at h
        rw [← h.2]
        exact ⟨hnd1, hsub1, hlen⟩

theorem detectWalk_calls (pl : Placement) (g : Graph) (f : Nat) :
    ∀ (n : Nat) (ks : List String) (s : DfsState) (b : Bool) (s1 : DfsState),
      detectWalk pl f n ks s = some (b, s1) → s.visited.Nodup →
      (∀ x ∈ s.visited, x ∈ nodes g) → (∀ k ∈ ks, k ∈ nodes g) →
      (∀ k, hasKey s.graph k = true → k ∈ nodes g) →
      (∀ x, adj s.graph x = adj g x) →
      s1.visited.Nodup ∧ (∀ x ∈ s1.visited, x ∈ nodes g) ∧
        s1.visited.length = s.visited.length + detectWalkCalls pl f n ks s := by
  intro n
  induction n with
  | zero => intro ks s b s1 h; simp [detectWalk] at h
  | succ n ihn =>
    intro ks
    induction ks with
    | nil =>
      intro s b s1 h hnd hsub _ _ _
      rw [detectWalk_nil] at h
      simp only [Option.some.injEq, Prod.mk.injEq] at h
      rw [← h.2]
      exact ⟨hnd, hsub, by simp [detectWalkCalls, detectLoopCalls]⟩
    | cons k rest ih =>
      intro s b s1 h hnd hsub hks hK hg
      have hrest : ∀ x ∈ rest, x ∈ nodes g := fun x hx => hks x (List.mem_cons_of_mem _ hx)
      have hkn : k ∈ nodes g := hks k (List.mem_cons_self _ _)
      by_cases h2 : k ∈ s.visited
      · rw [detectWalk_skip pl f n k rest s h2] at h
        have := ih s b s1 h hnd hsub hrest hK hg
        simpa [detectWalkCalls, detectLoopCalls, h2] using this
      · rw [detectWalk_call pl f n k rest s h2] at h
        cases hc : dfs pl f k s with
        | none => simp [hc] at h
        | some r =>
          obtain ⟨b0, s0⟩ := r
          obtain ⟨hnd0, hsub0, hlen0⟩ := dfs_calls pl g f k s b0 s0 hc h2 hnd hsub hkn hg
          cases b0 with
          | true =>
            simp only [hc, Option.some.injEq, Prod.mk.injEq] at h
            rw [← h.2]
            refine ⟨hnd0, hsub0, ?_⟩
            simp [detectWalkCalls, detectLoopCalls, h2, hc, hlen0]
          | false =>
            simp only [hc] at h
            have hg0 : ∀ x, adj s0.graph x = adj g x := fun x => by
              rw [dfs_adj pl f k s false s0 hc x]; exact hg x
            have hK0 : ∀ x, hasKey s0.graph x = true → x ∈ nodes g := by
              intro x hx
              rcases (dfs_keys pl f k s false s0 hc).2 x hx with hk | hk | ⟨a, hk⟩
              · exact hK x hk
              · rw [hk]; exact hkn
              · rw [hg] at hk
                exact mem_nodes_of_mem_adj g a x hk
            have hks0 : ∀ x ∈ afterKey k (keys s0.graph), x ∈ nodes g := fun x hx =>
              hK0 x ((hasKey_iff_mem_keys _ _).mpr (afterKey_subset k _ x hx))
            obtain ⟨hnd1, hsub1, hlen1⟩ := ihn _ s0 b s1 h hnd0 hsub0 hks0 hK0 hg0
            refine ⟨hnd1, hsub1, ?_⟩
            simp only [detectWalkCalls, detectLoopCalls, h2, not_false_eq_true, if_true, hc]
            omega

/-- C26: `detectedDeadlock()` returns on every finite graph, and the number
of calls of `dfs` it makes is at most the number of distinct nodes. -/
theorem detectedDeadlock_terminates (pl : Placement) (g : Graph) :
    (∃ b g1, detectedDeadlock pl g = some (b, g1)) ∧
      detectedDeadlockCalls pl g ≤ (nodes g).dedup.length := by
  obtain ⟨b, g1, hres, _, _, _⟩ := detectedDeadlock_spec pl g
  refine ⟨⟨b, g1, hres⟩, ?_⟩
  simp only [detectedDeadlock, Option.map_eq_some', Prod.mk.injEq] at hres
  obtain ⟨⟨b0, s1⟩, hrun, _, _⟩ := hres
  obtain ⟨hnd, hsub, hlen⟩ :=
    detectWalk_calls pl g _ _ (keys g) _ b0 s1 hrun List.nodup_nil (by simp)
      (fun k hk => mem_nodes_of_mem_keys g k hk)
      (fun k hk => mem_nodes_of_mem_keys g k ((hasKey_iff_mem_keys g k).mp hk))
      (fun _ => rfl)
  have hcalls : detectedDeadlockCalls pl g = s1.visited.length := by
    unfold detectedDeadlockCalls
    simp only [List.length_nil, Nat.zero_add] at hlen
    exact hlen.symm
  rw [hcalls]
  have hsub1 : s1.visited ⊆ (nodes g).dedup := fun x hx => List.mem_dedup.mpr (hsub x hx)
  exact (hnd.subperm hsub1).length_le

/-! ## Processes without contention -/

theorem nextCall_acquire_iff (p : Process) (ri : Nat) :
    p.nextCall = some (Call.acquire ri) ↔
      p.pc < p.neededResources.length ∧ p.neededResources[p.pc]? = some ri := by
  unfold Process.nextCall Process.script
  rw [List.get?_eq_getElem?]
  by_cases hlt : p.pc < p.neededResources.length
  · rw [List.getElem?_append_left (by rw [List.length_map]; exact hlt), List.getElem?_map]
    cases hx : p.neededResources[p.pc]? with
    | none => simp [hlt]
    | some x => simp [hlt]
  · have hge : (p.neededResources.map Call.acquire).length ≤ p.pc := by
      rw [List.length_map]; omega
    rw [List.getElem?_append_right hge, List.getElem?_map]
    cases hx : p.neededResources[p.pc - (p.neededResources.map Call.acquire).length]? with
    | none => simp [hlt]
    | some x => simp [hlt]

theorem nextCall_release_iff (p : Process) (ri : Nat) :
    p.nextCall = some (Call.release ri) ↔
      p.neededResources.length ≤ p.pc ∧
        p.neededResources[p.pc - p.neededResources.length]? = some ri := by
  unfold Process.nextCall Process.script
  rw [List.get?_eq_getElem?]
  by_cases hlt : p.pc < p.neededResources.length
  · rw [List.getElem?_append_left (by rw [List.length_map]; exact hlt), List.getElem?_map]
    have hn : ¬ p.neededResources.length ≤ p.pc := by omega
    cases hx : p.neededResources[p.pc]? with
    | none => simp [hn]
    | some x => simp [hn]
  · have hge : (p.neededResources.map Call.acquire).length ≤ p.pc := by
      rw [List.length_map]; omega
    have hle : p.neededResources.length ≤ p.pc := by omega
    rw [List.getElem?_append_right hge, List.getElem?_map, List.length_map]
    cases hx : p.neededResources[p.pc - p.neededResources.length]? with
    | none => simp [hle]
    | some x => simp [hle]

theorem finished_iff (p : Process) :
    p.finished = true ↔ 2 * p.neededResources.length ≤ p.pc := by
  unfold Process.finished Process.nextCall Process.script
  rw [List.get?_eq_getElem?, Option.isNone_iff_eq_none, List.getElem?_eq_none_iff,
    List.length_append, List.length_map, List.length_map]
  omega

theorem getElem?_lt {α : Type} (l : List α) (i : Nat) (x : α) (h : l[i]? = some x) :
    i < l.length := by
  obtain ⟨hlt, _⟩ := List.getElem?_eq_some_iff.mp h
  exact hlt

theorem nodup_getElem?_inj {α : Type} :
    ∀ (l : List α) (i j : Nat) (x : α), l.Nodup → l[i]? = some x → l[j]? = some x → i = j := by
  intro l
  induction l with
  | nil => intro i j x _ hi; simp at hi
  | cons a l ih =>
    intro i j x hnd hi hj
    obtain ⟨hnot, hnd1⟩ := List.nodup_cons.mp hnd
    cases i with
    | zero =>
      cases j with
      | zero => rfl
      | succ j =>
        simp only [List.getElem?_cons_zero, Option.some.injEq] at hi
        simp only [List.getElem?_cons_succ] at hj
        exact absurd (hi ▸ List.getElem?_mem hj) hnot
    | succ i =>
      cases j with
      | zero =>
        simp only [List.getElem?_cons_zero, Option.some.injEq] at hj
        simp only [List.getElem?_cons_succ] at hi
        exact absurd (hj ▸ List.getElem?_mem hi) hnot
      | succ j =>
        simp only [List.getElem?_cons_succ] at hi hj
        rw [ih i j x hnd1 hi hj]

/-- Plans whose concatenation has no repetition share no resource and repeat none. -/
theorem plans_disjoint :
    ∀ (ps : List Process), ((ps.map (fun p => p.neededResources)).flatten).Nodup →
      ∀ (k k1 : Nat) (p p1 : Process) (i i1 ri : Nat), ps[k]? = some p → ps[k1]? = some p1 →
        p.neededResources[i]? = some ri → p1.neededResources[i1]? = some ri →
        k = k1 ∧ i = i1 := by
  intro ps
  induction ps with
  | nil => intro _ k k1 p p1 i i1 ri hk; simp at hk
  | cons q qs ih =>
    intro hnd k k1 p p1 i i1 ri hk hk1 hi hi1
    simp only [List.map_cons, List.flatten_cons] at hnd
    obtain ⟨hq, hrest, hdis⟩ := List.nodup_append.mp hnd
    have hmem : ∀ (m : Nat) (p2 : Process) (i2 : Nat), qs[m]? = some p2 →
        p2.neededResources[i2]? = some ri →
        ri ∈ (qs.map (fun p => p.neededResources)).flatten := by
      intro m p2 i2 hm hi2
      exact List.mem_flatten.mpr
        ⟨p2.neededResources, List.mem_map_of_mem _ (List.getElem?_mem hm),
          List.getElem?_mem hi2⟩
    cases k with
    | zero =>
      simp only [List.getElem?_cons_zero, Option.some.injEq] at hk
      subst hk
      cases k1 with
      | zero =>
        simp only [List.getElem?_cons_zero, Option.some.injEq] at hk1
        subst hk1
        exact ⟨rfl, nodup_getElem?_inj _ i i1 ri hq hi hi1⟩
      | succ k1 =>
        simp only [List.getElem?_cons_succ] at hk1
        exact absurd (hmem k1 p1 i1 hk1 hi1) (fun h => hdis (List.getElem?_mem hi) h)
    | succ k =>
      simp only [List.getElem?_cons_succ] at hk
      cases k1 with
      | zero =>
        simp only [List.getElem?_cons_zero, Option.some.injEq] at hk1
        subst hk1
        exact absurd (hmem k p i hk hi) (fun h => hdis (List.getElem?_mem hi1) h)
      | succ k1 =>
        simp only [List.getElem?_cons_succ] at hk1
        obtain ⟨h1, h2⟩ := ih hrest k k1 p p1 i i1 ri hk hk1 hi hi1
        exact ⟨by rw [h1], h2⟩

/-- A process of the list after process `k` has completed one more call. -/
theorem getElem?_set_process (ps : List Process) (k : Nat) (p : Process)
    (hp : ps[k]? = some p) (k2 : Nat) (p2 : Process)
    (h : (ps.set k { p with pc := p.pc + 1 })[k2]? = some p2) :
    ∃ p0, ps[k2]? = some p0 ∧ p2.neededResources = p0.neededResources ∧
      p2.threadName = p0.threadName ∧ p2.suspended = p0.suspended ∧
      ((k2 = k ∧ p0 = p ∧ p2.pc = p.pc + 1) ∨ (k2 ≠ k ∧ p2 = p0)) := by
  rw [List.getElem?_set] at h
  by_cases hk : k = k2
  · subst hk
    rw [if_pos rfl, if_pos (getElem?_lt ps k p hp)] at h
    simp only [Option.some.injEq] at h
    subst h
    exact ⟨p, hp, rfl, rfl, rfl, Or.inl ⟨rfl, rfl, rfl⟩⟩
  · rw [if_neg hk] at h
    exact ⟨p2, h, rfl, rfl, rfl, Or.inr ⟨fun h2 => hk h2.symm, rfl⟩⟩

/-- The invariant survives the completion of one call of process `k` on its
resource number `i0`, when the resource is left as the invariant demands. -/
theorem calm_update (g0 : Graph) (st : System) (hc : Calm g0 st) (k : Nat) (p : Process)
    (i0 ri : Nat) (r1 : Resource)
    (hp : st.processes[k]? = some p) (hi0 : p.neededResources[i0]? = some ri)
    (hyes1 : (i0 < p.pc + 1 ∧ p.pc + 1 ≤ p.neededResources.length + i0) →
      r1.sem.count = 0 ∧ r1.owner = p.threadName)
    (hno1 : ¬ (i0 < p.pc + 1 ∧ p.pc + 1 ≤ p.neededResources.length + i0) →
      r1.sem.count = 1 ∧ r1.owner = "")
    (hother : ∀ i2, i2 ≠ i0 → i2 < p.neededResources.length →
      ((i2 < p.pc ∧ p.pc ≤ p.neededResources.length + i2) ↔
        (i2 < p.pc + 1 ∧ p.pc + 1 ≤ p.neededResources.length + i2))) :
    Calm g0 { resources := st.resources.set ri r1, detector := g0,
              processes := st.processes.set k { p with pc := p.pc + 1 } } := by
  have hrlt : ri < st.resources.length := by
    obtain ⟨r, hr, _⟩ := hc.held k p i0 ri hp hi0
    exact getElem?_lt _ _ _ hr
  refine ⟨rfl, ?_, ?_, ?_, ?_⟩
  · intro p2 hp2
    obtain ⟨k2, hk2⟩ := List.mem_iff_getElem?.mp hp2
    obtain ⟨p0, hp0, _, _, hs, _⟩ := getElem?_set_process st.processes k p hp k2 p2 hk2
    rw [hs]
    exact hc.awake p0 (List.getElem?_mem hp0)
  · intro p2 hp2 e he hname
    obtain ⟨k2, hk2⟩ := List.mem_iff_getElem?.mp hp2
    obtain ⟨p0, hp0, _, hn, _, _⟩ := getElem?_set_process st.processes k p hp k2 p2 hk2
    rw [hn] at hname ⊢
    exact hc.noself p0 (List.getElem?_mem hp0) e he hname
  · intro k2 k3 p2 p3 i2 i3 ri2 hk2 hk3 hi2 hi3
    obtain ⟨p0, hp0, hn0, _, _, _⟩ := getElem?_set_process st.processes k p hp k2 p2 hk2
    obtain ⟨q0, hq0, hm0, _, _, _⟩ := getElem?_set_process st.processes k p hp k3 p3 hk3
    rw [hn0] at hi2
    rw [hm0] at hi3
    exact hc.disj k2 k3 p0 q0 i2 i3 ri2 hp0 hq0 hi2 hi3
  · intro k2 p2 i2 ri2 hk2 hi2
    obtain ⟨p0, hp0, hn0, hname, _, hcase⟩ :=
      getElem?_set_process st.processes k p hp k2 p2 hk2
    rw [hn0] at hi2 ⊢
    rw [hname]
    obtain ⟨r, hr, hyes, hno⟩ := hc.held k2 p0 i2 ri2 hp0 hi2
    by_cases hri : ri2 = ri
    · subst hri
      obtain ⟨hkk, hii⟩ := hc.disj k2 k p0 p i2 i0 ri2 hp0 hp hi2 hi0
      subst hkk; subst hii
      have hpp : p0 = p := by
        have := hp0.symm.trans hp
        simpa using this
      subst hpp
      have hpc : p2.pc = p0.pc + 1 := by
        rcases hcase with ⟨_, _, h⟩ | ⟨h, _⟩
        · exact h
        · exact absurd rfl h
      refine ⟨r1, ?_, ?_, ?_⟩
      · show (st.resources.set ri2 r1)[ri2]? = some r1
        exact List.getElem?_set_self hrlt
      · rw [hpc]; exact hyes1
      · rw [hpc]; exact hno1
    · refine ⟨r, ?_, ?_, ?_⟩
      · show (st.resources.set ri r1)[ri2]? = some r
        rw [List.getElem?_set_ne (fun h => hri h.symm)]
        exact hr
      · rcases hcase with ⟨hkk, hpp, hpc⟩ | ⟨_, hpp⟩
        · subst hkk; subst hpp
          have hne : i2 ≠ i0 := by
            intro h
            subst h
            have := hi2.symm.trans hi0
            simp only [Option.some.injEq] at this
            exact hri this
          rw [hpc]
          intro hcond
          exact hyes ((hother i2 hne (getElem?_lt _ _ _ hi2)).mpr hcond)
        · rw [hpp]; exact hyes
      · rcases hcase with ⟨hkk, hpp, hpc⟩ | ⟨_, hpp⟩
        · subst hkk; subst hpp
          have hne : i2 ≠ i0 := by
            intro h
            subst h
            have := hi2.symm.trans hi0
            simp only [Option.some.injEq] at this
            exact hri this
          rw [hpc]
          intro hcond
          exact hno (fun h => hcond ((hother i2 hne (getElem?_lt _ _ _ hi2)).mp h))
        · rw [hpp]; exact hno

theorem modifyAt_id (g : Graph) (k : String) (f : List String → List String)
    (h : ∀ e ∈ g, e.1 = k → f e.2 = e.2) : modifyAt g k f = g := by
  induction g with
  | nil => rfl
  | cons e g ih =>
    have ih1 := ih (fun e1 he1 => h e1 (List.mem_cons_of_mem _ he1))
    unfold modifyAt at ih1 ⊢
    rw [List.map_cons, ih1]
    by_cases hk : e.1 = k
    · rw [if_pos hk, h e (List.mem_cons_self _ _) hk]
    · rw [if_neg hk]

/-- Erasing the self-edge of `A` changes nothing when no entry of `A` holds `A`. -/
theorem removeEdge_self_id (g : Graph) (A : String) (h : ∀ e ∈ g, e.1 = A → A ∉ e.2) :
    removeEdge g A A = g := by
  unfold removeEdge
  by_cases hk : hasKey g A = true
  · rw [if_pos hk]
    apply modifyAt_id
    intro e he hea
    apply List.filter_eq_self.mpr
    intro x hx
    have hne : x ≠ A := fun hxa => h e he hea (hxa ▸ hx)
    simpa using hne
  · rw [if_neg hk]

/-- Under the invariant an unfinished process can always take its step: the
acquire finds the semaphore free, the release finds the resource held; the
step completes the call and keeps the invariant. -/
theorem calm_step (pl : Placement) (g0 : Graph) (st : System) (hc : Calm g0 st)
    (k : Nat) (p : Process) (hp : st.processes[k]? = some p) (hnf : p.finished = false) :
    (∀ ri, p.nextCall = some (Call.acquire ri) →
        ∃ r, st.resources[ri]? = some r ∧ r.sem.count = 1 ∧ r.owner = "") ∧
      ∃ ri r1,
        st.step pl k = some { resources := st.resources.set ri r1, detector := g0,
                              processes := st.processes.set k { p with pc := p.pc + 1 } } ∧
        Calm g0 { resources := st.resources.set ri r1, detector := g0,
                  processes := st.processes.set k { p with pc := p.pc + 1 } } := by
  have hs : p.suspended = false := hc.awake p (List.getElem?_mem hp)
  have hdet : st.detector = g0 := hc.det
  cases hnc : p.nextCall with
  | none =>
    have : p.finished = true := by simp [Process.finished, hnc]
    rw [this] at hnf
    exact absurd hnf (by decide)
  | some c =>
    cases c with
    | acquire ri =>
      obtain ⟨hlt, hri⟩ := (nextCall_acquire_iff p ri).mp hnc
      obtain ⟨r, hr, _, hno⟩ := hc.held k p p.pc ri hp hri
      obtain ⟨hcount, hown⟩ := hno (by omega)
      refine ⟨fun ri2 h2 => ?_, ri, { r with owner := p.threadName, sem := { count := 0 } },
        ?_, ?_⟩
      · simp only [Option.some.injEq, Call.acquire.injEq] at h2
        subst h2
        exact ⟨r, hr, hcount, hown⟩
      · have hacq : r.acquire pl g0 p.threadName = some (AcquireResult.acquired
            { r with owner := p.threadName, sem := { count := 0 } } g0) := by
          rcases acquire_cases pl r g0 p.threadName with ⟨_, he⟩ | ⟨h0, _⟩ | ⟨h0, _⟩ |
              ⟨h0, _⟩ | ⟨h0, _⟩
          · rw [he]
            simp only [Resource.finishAcquire, hcount]
            have hself : removeEdge g0 p.threadName p.threadName = g0 :=
              removeEdge_self_id g0 p.threadName
                (hc.noself p (List.getElem?_mem hp))
            simp [hself]
          all_goals omega
        unfold System.step
        rw [List.get?_eq_getElem?, hp]
        simp only [hnc, List.get?_eq_getElem?, hr, hs, hdet, hacq, Bool.false_eq_true, if_false]
      · apply calm_update g0 st hc k p p.pc ri _ hp hri
        · intro _; exact ⟨rfl, rfl⟩
        · intro hcond; exact absurd ⟨by omega, by omega⟩ hcond
        · intro i2 hne hi2
          constructor <;> intro h <;> constructor <;> omega
    | release ri =>
      obtain ⟨hle, hri⟩ := (nextCall_release_iff p ri).mp hnc
      have hj := getElem?_lt _ _ _ hri
      obtain ⟨r, hr, hyes, _⟩ :=
        hc.held k p (p.pc - p.neededResources.length) ri hp hri
      obtain ⟨hcount, _⟩ := hyes ⟨by omega, by omega⟩
      refine ⟨fun ri2 h2 => ?_, ri, r.release p.threadName, ?_, ?_⟩
      · simp at h2
      · unfold System.step
        rw [List.get?_eq_getElem?, hp]
        simp only [hnc, List.get?_eq_getElem?, hr, hdet]
      · apply calm_update g0 st hc k p (p.pc - p.neededResources.length) ri _ hp hri
        · intro hcond; omega
        · intro _
          refine ⟨?_, rfl⟩
          show wrapInt (r.sem.count + 1) = 1
          rw [hcount]
          decide
        · intro i2 hne hi2
          constructor <;> intro h <;> constructor <;> omega

/-- Only an unfinished process of the list can take a step. -/
theorem step_some_process (pl : Placement) (st st1 : System) (k : Nat)
    (h : st.step pl k = some st1) :
    ∃ p, st.processes[k]? = some p ∧ p.finished = false := by
  unfold System.step at h
  rw [List.get?_eq_getElem?] at h
  cases hp : st.processes[k]? with
  | none => simp [hp] at h
  | some p =>
    refine ⟨p, rfl, ?_⟩
    cases hnc : p.nextCall with
    | none => simp [hp, hnc] at h
    | some c => simp [Process.finished, hnc]

theorem calm_step_of_eq (pl : Placement) (g0 : Graph) (st st1 : System) (hc : Calm g0 st)
    (k : Nat) (h : st.step pl k = some st1) :
    Calm g0 st1 ∧ ∃ p, st.processes[k]? = some p ∧ p.finished = false ∧
      st1.processes = st.processes.set k { p with pc := p.pc + 1 } := by
  obtain ⟨p, hp, hnf⟩ := step_some_process pl st st1 k h
  obtain ⟨_, ri, r1, hstep, hcalm⟩ := calm_step pl g0 st hc k p hp hnf
  have heq := hstep.symm.trans h
  simp only [Option.some.injEq] at heq
  subst heq
  exact ⟨hcalm, p, hp, hnf, rfl⟩

theorem calm_run (pl : Placement) (g0 : Graph) :
    ∀ (sched : List Nat) (st st1 : System), Calm g0 st → st.run pl sched = some st1 →
      Calm g0 st1 := by
  intro sched
  induction sched with
  | nil =>
    intro st st1 hc h
    simp only [System.run, Option.some.injEq] at h
    rw [← h]; exact hc
  | cons k ks ih =>
    intro st st1 hc h
    simp only [System.run] at h
    cases hs : st.step pl k with
    | none => simp [hs] at h
    | some st2 =>
      simp only [hs] at h
      exact ih st2 st1 (calm_step_of_eq pl g0 st st2 hc k hs).1 h

/-- The invariant holds when every process is at the top of `run`, every
resource of a plan is free and no resource occurs twice in the plans. -/
theorem calm_init (g0 : Graph) (rs : List Resource) (ps : List Process)
    (hfree : ∀ p ∈ ps, ∀ ri ∈ p.neededResources,
      ∃ r, rs[ri]? = some r ∧ r.owner = "" ∧ r.sem.count = 1)
    (hnew : ∀ p ∈ ps, p.pc = 0 ∧ p.suspended = false)
    (hdisj : ((ps.map (fun p => p.neededResources)).flatten).Nodup)
    (hself : ∀ p ∈ ps, ∀ e ∈ g0, e.1 = p.threadName → p.threadName ∉ e.2) :
    Calm g0 { resources := rs, detector := g0, processes := ps } := by
  refine ⟨rfl, fun p hp => (hnew p hp).2, hself, plans_disjoint ps hdisj, ?_⟩
  intro k p i ri hk hi
  have hp : p ∈ ps := List.getElem?_mem hk
  obtain ⟨r, hr, hown, hcount⟩ := hfree p hp ri (List.getElem?_mem hi)
  refine ⟨r, hr, fun hcond => ?_, fun _ => ⟨hcount, hown⟩⟩
  have := (hnew p hp).1
  omega

/-- Resources of a finished process are free under the invariant. -/
theorem calm_finished_free (g0 : Graph) (st : System) (hc : Calm g0 st) (k : Nat)
    (p : Process) (hp : st.processes[k]? = some p) (hfin : p.finished = true) :
    ∀ ri ∈ p.neededResources, ∃ r, st.resources[ri]? = some r ∧ r.owner = "" ∧
      r.sem.count = 1 := by
  intro ri hri
  obtain ⟨i, hi⟩ := List.mem_iff_getElem?.mp hri
  obtain ⟨r, hr, _, hno⟩ := hc.held k p i ri hp hi
  have h2 := (finished_iff p).mp hfin
  have hlt := getElem?_lt _ _ _ hi
  obtain ⟨hcount, hown⟩ := hno (by omega)
  exact ⟨r, hr, hown, hcount⟩

theorem sum_map_set_lt (f : Process → Nat) :
    ∀ (l : List Process) (k : Nat) (p x : Process), l[k]? = some p → f x < f p →
      ((l.set k x).map f).sum < (l.map f).sum := by
  intro l
  induction l with
  | nil => intro k p x hp; simp at hp
  | cons a l ih =>
    intro k p x hp hlt
    cases k with
    | zero =>
      simp only [List.getElem?_cons_zero, Option.some.injEq] at hp
      subst hp
      simp only [List.set_cons_zero, List.map_cons, List.sum_cons]
      omega
    | succ k =>
      simp only [List.getElem?_cons_succ] at hp
      have := ih k p x hp hlt
      simp only [List.set_cons_succ, List.map_cons, List.sum_cons]
      omega

/-- Under the invariant the simulation can always be run to the end. -/
theorem calm_completes (pl : Placement) (g0 : Graph) :
    ∀ (n : Nat) (st : System), st.remaining ≤ n → Calm g0 st →
      ∃ sched st1, st.run pl sched = some st1 ∧ Calm g0 st1 ∧
        ∀ p ∈ st1.processes, p.finished = true := by
  intro n
  induction n with
  | zero =>
    intro st hrem hc
    by_cases hall : ∀ p ∈ st.processes, p.finished = true
    · exact ⟨[], st, rfl, hc, hall⟩
    · exfalso
      simp only [not_forall] at hall
      obtain ⟨p, hp, hnf⟩ := hall
      obtain ⟨k, hk⟩ := List.mem_iff_getElem?.mp hp
      have hnf1 : p.finished = false := by simpa using hnf
      obtain ⟨_, ri, r1, _, _⟩ := calm_step pl g0 st hc k p hk hnf1
      have hlt : 2 * p.neededResources.length - (p.pc + 1) <
          2 * p.neededResources.length - p.pc := by
        have h2 : ¬ 2 * p.neededResources.length ≤ p.pc := fun h =>
          hnf ((finished_iff p).mpr h)
        omega
      have := sum_map_set_lt (fun q => 2 * q.neededResources.length - q.pc)
        st.processes k p { p with pc := p.pc + 1 } hk hlt
      unfold System.remaining at hrem
      omega
  | succ n ih =>
    intro st hrem hc
    by_cases hall : ∀ p ∈ st.processes, p.finished = true
    · exact ⟨[], st, rfl, hc, hall⟩
    · simp only [not_forall] at hall
      obtain ⟨p, hp, hnf⟩ := hall
      obtain ⟨k, hk⟩ := List.mem_iff_getElem?.mp hp
      have hnf1 : p.finished = false := by simpa using hnf
      obtain ⟨_, ri, r1, hstep, hcalm⟩ := calm_step pl g0 st hc k p hk hnf1
      have hlt : 2 * p.neededResources.length - (p.pc + 1) <
          2 * p.neededResources.length - p.pc := by
        have h2 : ¬ 2 * p.neededResources.length ≤ p.pc := fun h =>
          hnf ((finished_iff p).mpr h)
        omega
      have hsum := sum_map_set_lt (fun q => 2 * q.neededResources.length - q.pc)
        st.processes k p { p with pc := p.pc + 1 } hk hlt
      have hrem1 : System.remaining
          { resources := st.resources.set ri r1, detector := g0,
            processes := st.processes.set k { p with pc := p.pc + 1 } } ≤ n := by
        unfold System.remaining at hrem ⊢
        simp only
        omega
      obtain ⟨sched, st1, hrun, hc1, hfin⟩ := ih _ hrem1 hcalm
      refine ⟨k :: sched, st1, ?_, hc1, hfin⟩
      simp only [System.run, hstep]
      exact hrun

/-- C21: processes whose plans share no resource and repeat none, started on
free resources with an empty graph: under every interleaving the graph stays
empty, no process is ever suspended, every acquire finds the semaphore free
and is granted at once, every unfinished process can move, a finished process
has left its resources free, and the simulation can be run to the end. -/
theorem no_contention (pl : Placement) (rs : List Resource) (ps : List Process)
    (sched : List Nat) (st : System)
    (hfree : ∀ p ∈ ps, ∀ ri ∈ p.neededResources,
      ∃ r, rs[ri]? = some r ∧ r.owner = "" ∧ r.sem.count = 1)
    (hnew : ∀ p ∈ ps, p.pc = 0 ∧ p.suspended = false)
    (hdisj : ((ps.map (fun p => p.neededResources)).flatten).Nodup)
    (hrun : System.run pl { resources := rs, detector := [], processes := ps } sched =
      some st) :
    st.detector = [] ∧
      (∀ p ∈ st.processes, p.suspended = false) ∧
      (∀ (k : Nat) (p : Process) (ri : Nat), st.processes[k]? = some p →
        p.nextCall = some (Call.acquire ri) →
        ∃ r r1 g1, st.resources[ri]? = some r ∧ r.sem.count = 1 ∧ r.owner = "" ∧
          r.acquire pl st.detector p.threadName = some (AcquireResult.acquired r1 g1)) ∧
      (∀ (k : Nat) (p : Process), st.processes[k]? = some p → p.finished = false →
        ∃ st1, st.step pl k = some st1) ∧
      (∀ (k : Nat) (p : Process), st.processes[k]? = some p → p.finished = true →
        ∀ ri ∈ p.neededResources,
          ∃ r, st.resources[ri]? = some r ∧ r.owner = "" ∧ r.sem.count = 1) ∧
      ∃ sched1 st1, st.run pl sched1 = some st1 ∧ st1.detector = [] ∧
        ∀ p ∈ st1.processes, p.finished = true ∧
          ∀ ri ∈ p.neededResources,
            ∃ r, st1.resources[ri]? = some r ∧ r.owner = "" ∧ r.sem.count = 1 := by
  have hc0 : Calm [] { resources := rs, detector := [], processes := ps } :=
    calm_init [] rs ps hfree hnew hdisj (fun _ _ e he => absurd he (List.not_mem_nil e))
  have hc : Calm [] st := calm_run pl [] sched _ st hc0 hrun
  refine ⟨hc.det, hc.awake, ?_, ?_, ?_, ?_⟩
  · intro k p ri hp hnc
    have hnf : p.finished = false := by simp [Process.finished, hnc]
    obtain ⟨hacq, _⟩ := calm_step pl [] st hc k p hp hnf
    obtain ⟨r, hr, hcount, hown⟩ := hacq ri hnc
    rcases acquire_cases pl r st.detector p.threadName with ⟨_, he⟩ | ⟨h0, _⟩ | ⟨h0, _⟩ |
        ⟨h0, _⟩ | ⟨h0, _⟩
    · exact ⟨r, _, _, hr, hcount, hown, he⟩
    all_goals omega
  · intro k p hp hnf
    obtain ⟨_, ri, r1, hstep, _⟩ := calm_step pl [] st hc k p hp hnf
    exact ⟨_, hstep⟩
  · intro k p hp hfin
    exact calm_finished_free [] st hc k p hp hfin
  · obtain ⟨sched1, st1, hrun1, hc1, hfin⟩ := calm_completes pl [] st.remaining st (le_refl _) hc
    refine ⟨sched1, st1, hrun1, hc1.det, fun p hp => ⟨hfin p hp, ?_⟩⟩
    obtain ⟨k, hk⟩ := List.mem_iff_getElem?.mp hp
    exact calm_finished_free [] st1 hc1 k p hk (hfin p hp)

/-- Witness for C21: the plans `R1, R2` and `R3` of the no-cycle scenario,
interleaved as 1, 2, 1, 1. -/
theorem no_contention_witness :
    System.run newestFirst {
        resources := [Resource.new "R1" true, Resource.new "R2" true, Resource.new "R3" true],
        detector := [],
        processes := [Process.new 1 [0, 1], Process.new 2 [2]] } [0, 1, 0, 0] =
      some {
        resources :=
          [{ name := "R1", owner := "", sem := { count := 1 }, detector := true },
           { name := "R2", owner := "Process_1", sem := { count := 0 }, detector := true },
           { name := "R3", owner := "Process_2", sem := { count := 0 }, detector := true }],
        detector := [],
        processes :=
          [{ pid := 1, neededResources := [0, 1], pc := 3, suspended := false },
           { pid := 2, neededResources := [2], pc := 1, suspended := false }] } ∧
    ∀ p ∈ [({ pid := 1, neededResources := [0, 1], pc := 3, suspended := false } : Process),
        { pid := 2, neededResources := [2], pc := 1, suspended := false }],
      p.suspended = false :=
  have hrun : System.run newestFirst {
        resources := [Resource.new "R1" true, Resource.new "R2" true, Resource.new "R3" true],
        detector := [],
        processes := [Process.new 1 [0, 1], Process.new 2 [2]] } [0, 1, 0, 0] =
      some {
        resources :=
          [{ name := "R1", owner := "", sem := { count := 1 }, detector := true },
           { name := "R2", owner := "Process_1", sem := { count := 0 }, detector := true },
           { name := "R3", owner := "Process_2", sem := { count := 0 }, detector := true }],
        detector := [],
        processes :=
          [{ pid := 1, neededResources := [0, 1], pc := 3, suspended := false },
           { pid := 2, neededResources := [2], pc := 1, suspended := false }] } := by decide
  ⟨hrun, (no_contention newestFirst
      [Resource.new "R1" true, Resource.new "R2" true, Resource.new "R3" true]
      [Process.new 1 [0, 1], Process.new 2 [2]] [0, 1, 0, 0] _
      (by
        intro p hp ri hri
        simp only [List.mem_cons, List.mem_singleton, List.not_mem_nil, or_false] at hp
        rcases hp with rfl | rfl
        · simp only [Process.new, List.mem_cons, List.mem_singleton, List.not_mem_nil,
            or_false] at hri
          rcases hri with rfl | rfl
          · exact ⟨_, rfl, rfl, rfl⟩
          · exact ⟨_, rfl, rfl, rfl⟩
        · simp only [Process.new, List.mem_cons, List.mem_singleton, List.not_mem_nil,
            or_false] at hri
          subst hri
          exact ⟨_, rfl, rfl, rfl⟩)
      (by decide) (by decide) hrun).2.1⟩

/-! ## One process on its own -/

theorem run_alone_steps (pl : Placement) (g : Graph) (pid : Nat) (plan : List Nat) :
    ∀ (j c : Nat) (rs : List Resource),
      Calm g { resources := rs, detector := g,
               processes := [{ pid := pid, neededResources := plan, pc := c, suspended := false }] } →
      c + j ≤ 2 * plan.length →
      ∃ rs1, System.run pl
          { resources := rs, detector := g,
            processes := [{ pid := pid, neededResources := plan, pc := c, suspended := false }] } (List.replicate j 0) =
          some { resources := rs1, detector := g,
                 processes := [{ pid := pid, neededResources := plan, pc := c + j, suspended := false }] } ∧
        Calm g { resources := rs1, detector := g,
                 processes := [{ pid := pid, neededResources := plan, pc := c + j, suspended := false }] } := by
  intro j
  induction j with
  | zero =>
    intro c rs hc _
    exact ⟨rs, rfl, hc⟩
  | succ j ih =>
    intro c rs hc hle
    have hnf : Process.finished { pid := pid, neededResources := plan, pc := c, suspended := false } = false := by
      cases hfin : Process.finished { pid := pid, neededResources := plan, pc := c, suspended := false } with
      | false => rfl
      | true =>
        have := (finished_iff _).mp hfin
        simp only [Process.new] at this
        omega
    obtain ⟨_, ri, r1, hstep, hcalm⟩ :=
      calm_step pl g _ hc 0 { pid := pid, neededResources := plan, pc := c, suspended := false } rfl hnf
    obtain ⟨rs1, hrun, hc1⟩ := ih (c + 1) (rs.set ri r1) hcalm (by omega)
    have hadd : c + 1 + j = c + (j + 1) := by omega
    rw [hadd] at hrun hc1
    refine ⟨rs1, ?_, hc1⟩
    simp only [List.replicate_succ, System.run, hstep]
    exact hrun

/-- C22, as amended: `run` makes the calls `acquire` on the resources of its
plan in list order, then `release` on them in the same order, all under the
name `Process_<pid>`; when the plan repeats no resource, run on its own from a
state where every plan resource is free and the graph holds no self-edge of
the process, each of its calls completes, and it ends with every plan resource
free (owner empty, count 1) and the graph unchanged. -/
theorem run_alone (pl : Placement) (rs : List Resource) (g : Graph) (pid : Nat)
    (plan : List Nat) (hnodup : plan.Nodup)
    (hfree : ∀ ri ∈ plan, ∃ r, rs[ri]? = some r ∧ r.owner = "" ∧ r.sem.count = 1)
    (hself : ∀ e ∈ g, e.1 = (Process.new pid plan).threadName →
      (Process.new pid plan).threadName ∉ e.2) :
    (Process.new pid plan).script = plan.map Call.acquire ++ plan.map Call.release ∧
      (Process.new pid plan).threadName = "Process_" ++ toString pid ∧
      (∀ j, j ≤ 2 * plan.length →
        ∃ rs1, System.run pl
            { resources := rs, detector := g, processes := [Process.new pid plan] }
            (List.replicate j 0) =
          some { resources := rs1, detector := g,
                 processes := [{ pid := pid, neededResources := plan, pc := j, suspended := false }] }) ∧
      ∃ rs1, System.run pl
          { resources := rs, detector := g, processes := [Process.new pid plan] }
          (List.replicate (2 * plan.length) 0) =
        some { resources := rs1, detector := g,
               processes := [{ pid := pid, neededResources := plan, pc := 2 * plan.length, suspended := false }] } ∧
        Process.finished { pid := pid, neededResources := plan, pc := 2 * plan.length, suspended := false } = true ∧
        ∀ ri ∈ plan, ∃ r, rs1[ri]? = some r ∧ r.owner = "" ∧ r.sem.count = 1 := by
  have hc0 : Calm g
      { resources := rs, detector := g,
        processes := [{ pid := pid, neededResources := plan, pc := 0, suspended := false }] } := by
    apply calm_init g rs [Process.new pid plan]
    · intro p hp ri hri
      simp only [List.mem_singleton] at hp
      subst hp
      exact hfree ri hri
    · intro p hp
      simp only [List.mem_singleton] at hp
      subst hp
      exact ⟨rfl, rfl⟩
    · simpa [Process.new] using hnodup
    · intro p hp
      simp only [List.mem_singleton] at hp
      subst hp
      exact hself
  refine ⟨rfl, rfl, fun j hj => ?_, ?_⟩
  · obtain ⟨rs1, hrun, _⟩ := run_alone_steps pl g pid plan j 0 rs hc0 (by omega)
    rw [Nat.zero_add] at hrun
    exact ⟨rs1, hrun⟩
  · obtain ⟨rs1, hrun, hc1⟩ :=
      run_alone_steps pl g pid plan (2 * plan.length) 0 rs hc0 (by omega)
    rw [Nat.zero_add] at hrun hc1
    have hfin : Process.finished { pid := pid, neededResources := plan, pc := 2 * plan.length, suspended := false } = true :=
      (finished_iff _).mpr (le_refl _)
    exact ⟨rs1, hrun, hfin, calm_finished_free g _ hc1 0 _ rfl hfin⟩

/-- Witness for C22 as amended: `Process_1` with the plan printer, disk. -/
theorem run_alone_witness :
    [0, 1].Nodup ∧
      (Process.new 1 [0, 1]).script =
        [Call.acquire 0, Call.acquire 1, Call.release 0, Call.release 1] ∧
      (Process.new 1 [0, 1]).threadName = "Process_1" :=
  have h := run_alone newestFirst
    [Resource.new "Printer" true, Resource.new "disk" true, Resource.new "Network" true] []
    1 [0, 1] (by decide)
    (by
      intro ri hri
      simp only [List.mem_cons, List.mem_singleton, List.not_mem_nil, or_false] at hri
      rcases hri with rfl | rfl
      · exact ⟨_, rfl, rfl, rfl⟩
      · exact ⟨_, rfl, rfl, rfl⟩)
    (fun e he => absurd he (List.not_mem_nil e))
  ⟨by decide, h.1, h.2.1⟩

/-- C22 fails as stated: with the plan printer, printer the second `acquire`
finds the printer held by the process itself and ends in eviction, and the two
releases leave the printer with count 2; and with a self-edge of the process
in the graph the first `acquire` erases it, so the graph is not unchanged. -/
theorem run_alone_repeated_plan :
    System.run newestFirst
        { resources := [Resource.new "Printer" true], detector := [],
          processes := [Process.new 1 [0, 0]] } [0, 0, 0, 0] =
      some {
        resources := [{ name := "Printer", owner := "", sem := { count := 2 }, detector := true }],
        detector := [],
        processes := [{ pid := 1, neededResources := [0, 0], pc := 4, suspended := false }] } ∧
    System.run newestFirst
        { resources := [Resource.new "Printer" true],
          detector := [("Process_1", ["Process_1"])],
          processes := [Process.new 1 [0]] } [0, 0] =
      some {
        resources := [{ name := "Printer", owner := "", sem := { count := 1 }, detector := true }],
        detector := [("Process_1", [])],
        processes := [{ pid := 1, neededResources := [0], pc := 2, suspended := false }] } := by
  decide

end Deadlock
